import Mathlib

/-!
# MixFileKey: the big-number engine behind the MIX key derivation

A shallow embedding of `MixFileKey.cpp` (Red Horizon - Filetypes, C++).

* A `BigNumber` (`unsigned int[]`) is a `List Nat` of 32-bit words, least significant word
  first.  Every store of a 32-bit result is reduced modulo `2^32`.
* The source reinterprets word arrays as arrays of `unsigned short`.  On the little-endian
  target of the library this splits word `w` into the lanes `w % 2^16`, `w / 2^16`; the
  casts are rendered by `toLanes` and `ofLanes`.
* A pointer into an array is an array together with an index; a `limit` argument is kept as
  an argument.  Reads outside a list give `0` and writes outside a list are dropped, so the
  theorems below carry the bounds that keep every access inside its array.
* The file-level statics of the source (`global1`, `global2`, ...) are the fields of `Scratch`
  and are threaded through the functions that touch them.
-/

namespace MixFileKey

/-! ## Values -/

/-- The unsigned integer held by an array of 32-bit words, least significant word first. -/
def value : List Nat → Nat
  | [] => 0
  | w :: ws => w + 4294967296 * value ws

/-- The unsigned integer held by an array of 16-bit lanes, least significant lane first. -/
def laneValue : List Nat → Nat
  | [] => 0
  | w :: ws => w + 65536 * laneValue ws

/-- The unsigned integer held by an array of bytes, least significant byte first. -/
def byteValue : List Nat → Nat
  | [] => 0
  | w :: ws => w + 256 * byteValue ws

/-- Every word of the array fits in 32 bits. -/
def Words (x : List Nat) : Prop := ∀ w ∈ x, w < 4294967296

/-- Every lane of the array fits in 16 bits. -/
def Lanes (x : List Nat) : Prop := ∀ w ∈ x, w < 65536

/-- The `unsigned short` view of a word array (little-endian). -/
def toLanes : List Nat → List Nat
  | [] => []
  | w :: ws => w % 65536 :: w / 65536 :: toLanes ws

/-- The word array behind an `unsigned short` view (little-endian). -/
def ofLanes : List Nat → List Nat
  | lo :: hi :: ls => (lo + 65536 * hi) :: ofLanes ls
  | _ => []

/-- The `unsigned char` view of a word array (little-endian). -/
def toBytes : List Nat → List Nat
  | [] => []
  | w :: ws => w % 256 :: w / 256 % 256 :: w / 65536 % 256 :: w / 16777216 :: toBytes ws

/-- The word array behind an `unsigned char` view (little-endian). -/
def ofBytes : List Nat → List Nat
  | b0 :: b1 :: b2 :: b3 :: bs => (b0 + 256 * b1 + 65536 * b2 + 16777216 * b3) :: ofBytes bs
  | _ => []

/-! ## BigNumber primitives -/

/-- `initBigNumber(bignum, value, length)`: `memset` of `length` words, then word 0 is set. -/
def initBigNumber (bignum : List Nat) (v : Nat) (length : Nat) : List Nat :=
  (List.replicate length 0 ++ bignum.drop length).set 0 v

/-- `bignumberMove(dest, source, limit)`: `memmove` of `limit` words between distinct arrays. -/
def bignumberMove (dest source : List Nat) (limit : Nat) : List Nat :=
  source.take limit ++ dest.drop limit

/-- `bignumberIntLength(bignum, limit)`: the argument counts `i + 1` of the source loop
`i = limit - 1; while (i >= 0 && bignum[i] == 0) i--; return i + 1`. -/
def bignumberIntLength (bignum : List Nat) : Nat → Nat
  | 0 => 0
  | i + 1 => if bignum.getD i 0 = 0 then bignumberIntLength bignum i else i + 1

/-- The loop `while ((mask & word) == 0) { mask >>= 1; bitlength--; }` of
`bignumberBitLength`.  The first argument bounds the number of iterations: a non-zero 32-bit
word leaves the loop within 32 of them (`bitLengthLoop_fuel`). -/
def bignumberBitLength.loop (word : Nat) : Nat → Nat → Nat → Nat
  | 0, _, bitlength => bitlength
  | fuel + 1, mask, bitlength =>
    if mask &&& word = 0 then bignumberBitLength.loop word fuel (mask >>> 1) (bitlength - 1)
    else bitlength

/-- `bignumberBitLength(bignum, limit)`. -/
def bignumberBitLength (bignum : List Nat) (limit : Nat) : Nat :=
  let intlength := bignumberIntLength bignum limit
  if intlength = 0 then 0
  else bignumberBitLength.loop (bignum.getD (intlength - 1) 0) 32 0x80000000 (intlength * 32)

/-- `bignumberCompare(bignum1, bignum2, limit)`: both pointers start at index `limit - 1` and
walk down; the argument is the remaining `limit`. -/
def bignumberCompare (bignum1 bignum2 : List Nat) : Nat → Int
  | 0 => 0
  | limit + 1 =>
    if bignum1.getD limit 0 < bignum2.getD limit 0 then -1
    else if bignum1.getD limit 0 > bignum2.getD limit 0 then 1
    else bignumberCompare bignum1 bignum2 limit

/-- `bignumberDecrement(bignum, limit)`:
`while ((--*bignum == 0xffffffff) && (--limit > 0)) bignum++;`. -/
def bignumberDecrement : List Nat → Nat → List Nat
  | [], _ => []
  | w :: ws, limit =>
    if (w + 4294967295) % 4294967296 = 4294967295 ∧ limit - 1 > 0 then
      (w + 4294967295) % 4294967296 :: bignumberDecrement ws (limit - 1)
    else (w + 4294967295) % 4294967296 :: ws

/-- `bignumberIncrement(bignum, limit)`:
`while ((++*bignum == 0) && (--limit > 0)) bignum++;`. -/
def bignumberIncrement : List Nat → Nat → List Nat
  | [], _ => []
  | w :: ws, limit =>
    if (w + 1) % 4294967296 = 0 ∧ limit - 1 > 0 then
      (w + 1) % 4294967296 :: bignumberIncrement ws (limit - 1)
    else (w + 1) % 4294967296 :: ws

/-- `bignumberNot(bignum, limit)`: every one of the first `limit` words is complemented
(`~w` is `0xffffffff - w` on 32 bits). -/
def bignumberNot : List Nat → Nat → List Nat
  | [], _ => []
  | ws, 0 => ws
  | w :: ws, limit + 1 => (4294967295 - w) :: bignumberNot ws limit

/-- `bignumberNegate(bignum, limit)`. -/
def bignumberNegate (bignum : List Nat) (limit : Nat) : List Nat :=
  bignumberIncrement (bignumberNot bignum limit) limit

/-- The whole-word loops of `bignumberShiftLeft`, the argument counting `i1 + 1`:
`for (i1 = limit - 1; i1 >= i2; i1--) bignum[i1] = bignum[i1 - i2];` followed by
`for (; i1 >= 0; i1--) bignum[i1] = 0;`. -/
def bignumberShiftLeft.words (i2 : Nat) : Nat → List Nat → List Nat
  | 0, x => x
  | i1 + 1, x =>
    if i1 ≥ i2 then bignumberShiftLeft.words i2 i1 (x.set i1 (x.getD (i1 - i2) 0))
    else bignumberShiftLeft.words i2 i1 (x.set i1 0)

/-- The sub-word loop of `bignumberShiftLeft`, the argument counting `i1`:
`for (i1 = limit - 1; i1 > 0; i1--)
   bignum[i1] = (bignum[i1] << shift) | (bignum[i1 - 1] >> (32 - shift));`
followed by `bignum[0] <<= shift`. -/
def bignumberShiftLeft.bits (shift : Nat) : Nat → List Nat → List Nat
  | 0, x => x.set 0 ((x.getD 0 0 <<< shift) % 4294967296)
  | i1 + 1, x =>
    bignumberShiftLeft.bits shift i1
      (x.set (i1 + 1)
        (((x.getD (i1 + 1) 0 <<< shift) % 4294967296) ||| (x.getD i1 0 >>> (32 - shift))))

/-- `bignumberShiftLeft(bignum, shift, limit)`. -/
def bignumberShiftLeft (bignum : List Nat) (shift limit : Nat) : List Nat :=
  let i2 := shift / 32
  let bignum := if i2 > 0 then bignumberShiftLeft.words i2 limit bignum else bignum
  let shift := if i2 > 0 then shift % 32 else shift
  if shift = 0 then bignum else bignumberShiftLeft.bits shift (limit - 1) bignum

/-- The whole-word loops of `bignumberShiftRight`; the first argument counts the remaining
iterations `limit - i1`:
`for (i1 = 0; i1 < limit - i2; i1++) bignum[i1] = bignum[i1 + i2];` followed by
`for (; i1 < limit; i1++) bignum[i1] = 0;`. -/
def bignumberShiftRight.words (i2 limit : Nat) : Nat → Nat → List Nat → List Nat
  | 0, _, x => x
  | n + 1, i1, x =>
    if i1 + i2 < limit then
      bignumberShiftRight.words i2 limit n (i1 + 1) (x.set i1 (x.getD (i1 + i2) 0))
    else bignumberShiftRight.words i2 limit n (i1 + 1) (x.set i1 0)

/-- The sub-word loop of `bignumberShiftRight`; the first argument counts the remaining
iterations `limit - 1 - i1`:
`for (i1 = 0; i1 < limit - 1; i1++)
   bignum[i1] = (bignum[i1] >> shift) | (bignum[i1 + 1] << (32 - shift));`
followed by `bignum[i1] = bignum[i1] >> shift`. -/
def bignumberShiftRight.bits (shift : Nat) : Nat → Nat → List Nat → List Nat
  | 0, i1, x => x.set i1 (x.getD i1 0 >>> shift)
  | n + 1, i1, x =>
    bignumberShiftRight.bits shift n (i1 + 1)
      (x.set i1
        ((x.getD i1 0 >>> shift) ||| ((x.getD (i1 + 1) 0 <<< (32 - shift)) % 4294967296)))

/-- `bignumberShiftRight(bignum, shift, limit)`. -/
def bignumberShiftRight (bignum : List Nat) (shift limit : Nat) : List Nat :=
  let i2 := shift / 32
  let bignum := if i2 > 0 then bignumberShiftRight.words i2 limit limit 0 bignum else bignum
  let shift := if i2 > 0 then shift % 32 else shift
  if shift = 0 then bignum else bignumberShiftRight.bits shift (limit - 1) 0 bignum

/-! ## Half-word arithmetic

The functions below walk their arguments as `unsigned short *`.  They take the lane view of
the array behind each pointer together with the lane index the pointer stands at. -/

/-- The loop of `bignumberSubtract`; the first argument counts the remaining lanes.  When the
source passes the same pointer as `dest` and `source1`, lane `k` is read before it is written
and no later lane has been written yet, so `source1` is the array as it stood at the call. -/
def bignumberSubtract.loop :
    Nat → List Nat → Nat → List Nat → Nat → List Nat → Nat → Nat → List Nat × Nat
  | 0, dest, _, _, _, _, _, carry => (dest, carry)
  | n + 1, dest, d, source1, s1, source2, s2, carry =>
    let i1 := source1.getD s1 0
    let i2 := source2.getD s2 0
    let r := (i1 + 4294967296 - i2 - carry) % 4294967296
    bignumberSubtract.loop n (dest.set d (r % 65536)) (d + 1) source1 (s1 + 1) source2 (s2 + 1)
      (if r &&& 0x00010000 ≠ 0 then 1 else 0)

/-- `bignumberSubtract(dest, source1, source2, carry, limit)` on lane views: `dest` at lane
`d`, `source1` at lane `s1`, `source2` at lane `s2`.  Returns the new `dest` array and the
final carry. -/
def bignumberSubtract (dest : List Nat) (d : Nat) (source1 : List Nat) (s1 : Nat)
    (source2 : List Nat) (s2 : Nat) (carry limit : Nat) : List Nat × Nat :=
  bignumberSubtract.loop (limit + limit) dest d source1 s1 source2 s2 carry

/-- The loop of `bignumberMultiplyWord`; the first argument counts the remaining lanes.  At
the end the last `temp` is added into the next lane of `dest` (16-bit store). -/
def bignumberMultiplyWord.loop (source2 : Nat) :
    Nat → List Nat → Nat → List Nat → Nat → Nat → List Nat
  | 0, dest, d, _, _, temp => dest.set d ((dest.getD d 0 + temp) % 65536)
  | n + 1, dest, d, source1, s1, temp =>
    let t := (source2 * source1.getD s1 0 + dest.getD d 0 + temp) % 4294967296
    bignumberMultiplyWord.loop source2 n (dest.set d (t % 65536)) (d + 1) source1 (s1 + 1)
      (t >>> 16)

/-- `bignumberMultiplyWord(dest, source1, source2, limit)` on lane views: `dest` at lane `d`,
`source1` from its first lane. -/
def bignumberMultiplyWord (dest : List Nat) (d : Nat) (source1 : List Nat) (source2 limit : Nat) :
    List Nat :=
  bignumberMultiplyWord.loop source2 limit dest d source1 0 0

/-- The loop of `bignumberMultiply` on lane views; the first argument counts the remaining
iterations, `i` is the lane both `source2` and `dest` have advanced to. -/
def bignumberMultiply.loop (source1 : List Nat) (limit : Nat) :
    Nat → Nat → List Nat → List Nat → List Nat
  | 0, _, dest, _ => dest
  | n + 1, i, dest, source2 =>
    bignumberMultiply.loop source1 limit n (i + 1)
      (bignumberMultiplyWord dest i source1 (source2.getD i 0) (limit * 2)) source2

/-- `bignumberMultiply(dest, source1, source2, limit)` on word arrays. -/
def bignumberMultiply (dest source1 source2 : List Nat) (limit : Nat) : List Nat :=
  ofLanes (bignumberMultiply.loop (toLanes source1) limit (limit * 2) 0
    (toLanes (initBigNumber dest 0 (limit * 2))) (toLanes source2))

/-- The loop of `bignumberInverse`; the first argument counts the remaining iterations of
`while (bitlength-- > 0)`, `d` is the word `dest` points at. -/
def bignumberInverse.loop (source : List Nat) (limit : Nat) :
    Nat → List Nat → List Nat → Nat → Nat → List Nat
  | 0, _, dest, _, _ => dest
  | n + 1, temp, dest, d, bit =>
    let temp := bignumberShiftLeft temp 1 limit
    let hit := bignumberCompare temp source limit ≠ -1
    let temp :=
      if hit then ofLanes (bignumberSubtract (toLanes temp) 0 (toLanes temp) 0 (toLanes source) 0 0
        limit).1
      else temp
    let dest := if hit then dest.set d (dest.getD d 0 ||| bit) else dest
    let bit := bit >>> 1
    if bit = 0 then bignumberInverse.loop source limit n temp dest (d - 1) 0x80000000
    else bignumberInverse.loop source limit n temp dest d bit

/-- `bignumberInverse(dest, source, limit)`.  The local `temp` is a 64-word array of which
only the first `limit` words are ever touched; its other words are rendered as `0`.  For a
zero `source` the loop does not run, so the word and bit chosen for `temp` are never read. -/
def bignumberInverse (dest source : List Nat) (limit : Nat) : List Nat :=
  let temp := initBigNumber (List.replicate 64 0) 0 limit
  let dest := initBigNumber dest 0 limit
  let bitlength := bignumberBitLength source limit
  let bit := (1 <<< (bitlength % 32)) % 4294967296
  let d := (bitlength + 32) / 32 - 1
  let bytelength := ((bitlength - 1) / 32) * 4
  let temp := temp.set (bytelength / 4)
    (temp.getD (bytelength / 4) 0 ||| ((1 <<< ((bitlength - 1) &&& 0x1f)) % 4294967296))
  bignumberInverse.loop source limit bitlength temp dest d bit

/-- The running remainder of `bignumberInverse`: the contents of the local `temp` at the end
of each iteration of the loop, in order; the first argument counts the remaining iterations
of `while (bitlength-- > 0)`. -/
def bignumberInverse.remainders (source : List Nat) (limit : Nat) :
    Nat → List Nat → List (List Nat)
  | 0, _ => []
  | n + 1, temp =>
    let temp := bignumberShiftLeft temp 1 limit
    let temp :=
      if bignumberCompare temp source limit ≠ -1 then
        ofLanes (bignumberSubtract (toLanes temp) 0 (toLanes temp) 0 (toLanes source) 0 0 limit).1
      else temp
    temp :: bignumberInverse.remainders source limit n temp

/-- The local `temp` of `bignumberInverse(dest, source, limit)` as it stands when the loop is
entered, followed by its contents after each iteration. -/
def bignumberInverse.trace (source : List Nat) (limit : Nat) : List (List Nat) :=
  let temp := initBigNumber (List.replicate 64 0) 0 limit
  let bitlength := bignumberBitLength source limit
  let bytelength := ((bitlength - 1) / 32) * 4
  let temp := temp.set (bytelength / 4)
    (temp.getD (bytelength / 4) 0 ||| ((1 <<< ((bitlength - 1) &&& 0x1f)) % 4294967296))
  temp :: bignumberInverse.remainders source limit bitlength temp

/-! ## Reduction context and modular arithmetic -/

/-- The temporaries the source keeps at file level. -/
structure Scratch where
  global1 : List Nat
  g1bitlength : Nat
  g1lengthx2 : Nat
  g1hi : List Nat
  g1hiinv : List Nat
  g1hibitlength : Nat
  g1hiinvlo : Nat
  g1hiinvhi : Nat
  global2 : List Nat
  deriving DecidableEq

/-- `initTwoInts(bignum, limit)`.  With fewer than two significant words the source reads in
front of `global1`; that run has no result. -/
def initTwoInts (s : Scratch) (bignum : List Nat) (limit : Nat) : Option Scratch :=
  let global1 := bignumberMove s.global1 bignum limit
  let g1bitlength := bignumberBitLength global1 limit
  let g1lengthx2 := (g1bitlength + 15) / 16
  let intlength := bignumberIntLength global1 limit
  if intlength < 2 then none
  else
    let g1hi := bignumberMove s.g1hi (global1.drop (intlength - 2)) 2
    let g1hibitlength := bignumberBitLength g1hi 2 - 32
    let g1hi := bignumberShiftRight g1hi g1hibitlength 2
    let g1hiinv := bignumberInverse s.g1hiinv g1hi 2
    let g1hiinv := bignumberShiftRight g1hiinv 1 2
    let g1hibitlength := (g1hibitlength + 15) % 16 + 1
    let g1hiinv := bignumberIncrement g1hiinv 2
    let over := bignumberBitLength g1hiinv 2 > 32
    let g1hiinv := if over then bignumberShiftRight g1hiinv 1 2 else g1hiinv
    let g1hibitlength := if over then g1hibitlength - 1 else g1hibitlength
    some
      { global1 := global1
        g1bitlength := g1bitlength
        g1lengthx2 := g1lengthx2
        g1hi := g1hi
        g1hiinv := g1hiinv
        g1hibitlength := g1hibitlength
        g1hiinvlo := (toLanes g1hiinv).getD 0 0
        g1hiinvhi := (toLanes g1hiinv).getD 1 0
        global2 := s.global2 }

/-- `getMulShort(bignum)`: `bignum` is the lane view of the array with `wn` the lane the
pointer stands at.  All arithmetic is `unsigned int`, so every product and sum is reduced
modulo `2^32`. -/
def getMulShort (s : Scratch) (bignum : List Nat) (wn : Nat) : Nat :=
  let w0 := bignum.getD wn 0 ^^^ 0xffff
  let w1 := (bignum.getD (wn - 1) 0 ^^^ 0xffff) &&& 0xffff
  let w2 := bignum.getD (wn - 2) 0 ^^^ 0xffff
  let a := ((w1 * s.g1hiinvlo + 0x10000) % 4294967296) >>> 1
  let b := ((w2 * s.g1hiinvhi + s.g1hiinvhi) % 4294967296) >>> 1
  let c := ((a + b + 1) % 4294967296) >>> 16
  let d := ((w1 * s.g1hiinvhi) % 4294967296) >>> 1
  let e := ((w0 * s.g1hiinvlo) % 4294967296) >>> 1
  let f := ((c + d + e + 1) % 4294967296) >>> 14
  let i := ((f + s.g1hiinvhi * w0 * 2) % 4294967296) >>> s.g1hibitlength
  let i := if i > 0xffff then 0xffff else i
  i &&& 0xffff

/-- The reduction loop of `calculateBigNumber` on the lane view of `global2`; the first
argument is `lengthdiff`, `esi` and `edi` are lane indices into `global2`. -/
def calculateBigNumber.loop (s : Scratch) (limit : Nat) :
    Nat → List Nat → Nat → Nat → List Nat
  | 0, g2, _, _ => g2
  | n + 1, g2, esi, edi =>
    let esi := esi - 1
    let edi := edi - 1
    let temp := getMulShort s g2 edi
    let g2 :=
      if temp > 0 then
        let g2 := bignumberMultiplyWord g2 esi (toLanes s.global1) temp (limit * 2)
        if g2.getD edi 0 &&& 0x8000 = 0 then
          let r := bignumberSubtract g2 esi g2 esi (toLanes s.global1) 0 0 limit
          if r.2 ≠ 0 then r.1.set edi ((r.1.getD edi 0 + 65535) % 65536) else r.1
        else g2
      else g2
    calculateBigNumber.loop s limit n g2 esi edi

/-- `calculateBigNumber(n1, n2, n3, limit)`: returns the scratch state and the array `n1`. -/
def calculateBigNumber (s : Scratch) (n1 n2 n3 : List Nat) (limit : Nat) : Scratch × List Nat :=
  let global2 := bignumberMultiply s.global2 n2 n3 limit
  let global2 := global2.set (limit * 2) 0
  let g2lengthx2 := bignumberIntLength global2 (limit * 2 + 1) * 2
  let global2 :=
    if g2lengthx2 ≥ s.g1lengthx2 then
      let global2 := bignumberIncrement global2 (limit * 2 + 1)
      let global2 := bignumberNegate global2 (limit * 2 + 1)
      let lengthdiff := g2lengthx2 + 1 - s.g1lengthx2
      let global2 := ofLanes (calculateBigNumber.loop s limit lengthdiff (toLanes global2)
        (1 + g2lengthx2 - s.g1lengthx2) (g2lengthx2 + 1))
      let global2 := bignumberNegate global2 limit
      bignumberDecrement global2 limit
    else global2
  ({ s with global2 := global2 }, bignumberMove n1 global2 limit)

/-- `clearTempVars(limit)`. -/
def clearTempVars (s : Scratch) (limit : Nat) : Scratch :=
  { global1 := initBigNumber s.global1 0 limit
    g1bitlength := 0
    g1lengthx2 := 0
    g1hi := initBigNumber s.g1hi 0 4
    g1hiinv := initBigNumber s.g1hiinv 0 4
    g1hibitlength := 0
    g1hiinvlo := 0
    g1hiinvhi := 0
    global2 := initBigNumber s.global2 0 limit }

/-- The square-and-multiply loop of `calculateKey`; the first argument counts the remaining
iterations of `while (--n3bitlength != -1)`, `n3i` is the word of the exponent `n3` points at.
Returns the scratch state, `n1` and the local `temp`. -/
def calculateKey.loop (n2 n3 : List Nat) (n4length : Nat) :
    Nat → Scratch → List Nat → List Nat → Nat → Nat → Scratch × List Nat × List Nat
  | 0, s, n1, temp, _, _ => (s, n1, temp)
  | n + 1, s, n1, temp, n3i, bitmask =>
    let n3i := if bitmask = 0 then n3i - 1 else n3i
    let bitmask := if bitmask = 0 then 0x80000000 else bitmask
    let r := calculateBigNumber s temp n1 n1 n4length
    let s := r.1
    let temp := r.2
    let r :=
      if n3.getD n3i 0 &&& bitmask ≠ 0 then calculateBigNumber s n1 temp n2 n4length
      else (s, bignumberMove n1 temp n4length)
    calculateKey.loop n2 n3 n4length n r.1 r.2 temp n3i (bitmask >>> 1)

/-- `calculateKey(n1, n2, n3, n4, limit)`: returns the scratch state and the array `n1`.  The
words of the local `temp` that the source leaves uninitialised are never read and are rendered
as `0`.  The run has no result when `initTwoInts` has none, or when the exponent has no set
bit in its first `n4length` words (the source then shifts by a negative count and steps in
front of `n3`). -/
def calculateKey (s : Scratch) (n1 n2 n3 n4 : List Nat) (limit : Nat) :
    Option (Scratch × List Nat) :=
  let temp := List.replicate 64 0
  let n1 := initBigNumber n1 1 limit
  let n4length := bignumberIntLength n4 limit
  match initTwoInts s n4 n4length with
  | none => none
  | some s =>
    let n3bitlength := bignumberBitLength n3 n4length
    if n3bitlength = 0 then none
    else
      let n3length := (n3bitlength + 31) / 32
      let bitmask := ((1 <<< ((n3bitlength - 1) % 32)) % 4294967296) >>> 1
      let n3i := n3length - 1
      let n3bitlength := n3bitlength - 1
      let n1 := bignumberMove n1 n2 n4length
      let r := calculateKey.loop n2 n3 n4length n3bitlength s n1 temp n3i bitmask
      some (clearTempVars r.1 limit, r.2.1)

/-! ## Public key decoding -/

/-- The static `PublicKey` struct: `key1` is the modulus, `key2` the exponent. -/
structure PublicKey where
  key1 : List Nat
  key2 : List Nat
  length : Int
  deriving DecidableEq

/-- The `PublicKey` struct as static storage holds it before `initPublicKey` has run. -/
def PublicKey.zero : PublicKey :=
  { key1 := List.replicate 64 0, key2 := List.replicate 64 0, length := 0 }

/-- The constant `keystring`, as the character codes of its 56 characters. -/
def keystring : List Nat :=
  "AihRvNoIbTn85FZRYNZRcT+i6KpU+maCsEqr3Q5q+LDB5tH7Tz2qQ38V".toList.map Char.toNat

/-- The constant table `char2num`, each `char` entry as the 32-bit pattern of the `int` it
promotes to (`-1` is `0xffffffff`). -/
def char2num : List Nat :=
  List.replicate 43 0xffffffff ++ [62] ++ List.replicate 3 0xffffffff ++
  [63, 52, 53, 54, 55, 56, 57, 58, 59, 60, 61] ++ List.replicate 7 0xffffffff ++
  [0, 1, 2, 3, 4, 5, 6, 7, 8, 9, 10, 11, 12, 13, 14, 15, 16, 17, 18, 19, 20, 21, 22, 23, 24, 25] ++
  List.replicate 6 0xffffffff ++
  [26, 27, 28, 29, 30, 31, 32, 33, 34, 35, 36, 37, 38, 39, 40, 41, 42, 43, 44, 45, 46, 47, 48, 49,
    50, 51] ++
  List.replicate 133 0xffffffff

/-- The decoding loop of `initPublicKey`: four characters of the key string give three bytes
of `tempkey`.  `temp` is an `int`, kept as its 32-bit pattern. -/
def initPublicKey.decode : List Nat → List Nat
  | c0 :: c1 :: c2 :: c3 :: cs =>
    let temp := ((0 ||| char2num.getD c0 0) <<< 6) % 4294967296
    let temp := ((temp ||| char2num.getD c1 0) <<< 6) % 4294967296
    let temp := ((temp ||| char2num.getD c2 0) <<< 6) % 4294967296
    let temp := temp ||| char2num.getD c3 0
    ((temp >>> 16) &&& 0xff) :: ((temp >>> 8) &&& 0xff) :: (temp &&& 0xff) ::
      initPublicKey.decode cs
  | _ => []

/-- The first loop of `moveDataToKey` on the byte view of `key`, the argument counting `i`:
`for (i = limit * 4; i > keylength; i--) key[i - 1] = sign;`.  Returns the final `i`. -/
def moveDataToKey.fill (sign keylength : Nat) : Nat → List Nat → Nat × List Nat
  | 0, key => (0, key)
  | i + 1, key =>
    if i + 1 > keylength then moveDataToKey.fill sign keylength i (key.set i sign)
    else (i + 1, key)

/-- The second loop of `moveDataToKey` on the byte view of `key`, the argument counting `i`:
`for (; i > 0; i--) key[i - 1] = data[keylength - i];` with `data` standing at byte `p`. -/
def moveDataToKey.copy (data : List Nat) (p keylength : Nat) : Nat → List Nat → List Nat
  | 0, key => key
  | i + 1, key =>
    moveDataToKey.copy data p keylength i (key.set i (data.getD (p + keylength - (i + 1)) 0))

/-- `moveDataToKey(key, data, keylength, limit)` for a non-negative `keylength`; `data` stands
at byte `p` of its array. -/
def moveDataToKey (key data : List Nat) (p keylength limit : Nat) : List Nat :=
  let sign := if key.getD 0 0 &&& 0x80 ≠ 0 then 0xff else 0
  let r := moveDataToKey.fill sign keylength (limit * 4) (toBytes key)
  ofBytes (moveDataToKey.copy data p keylength r.1 r.2)

/-- The long-form length loop of `dataLength`, with `data` standing at byte 1 of its array:
`for (i = 0; i < (data[0] & 0x7f); i++) keylength = (keylength << 8) | data[i + 1];`.
The first argument counts the remaining iterations; `keylength` is an `int` kept as its
32-bit pattern, and each `char` is sign-extended when it is promoted. -/
def dataLength.loop (data : List Nat) : Nat → Nat → Nat → Nat
  | 0, _, keylength => keylength
  | n + 1, i, keylength =>
    let c := data.getD (1 + i + 1) 0
    let c := if c &&& 0x80 ≠ 0 then 0xffffff00 ||| c else c
    dataLength.loop data n (i + 1) (((keylength <<< 8) % 4294967296) ||| c)

/-- `dataLength(key, data, limit)`: returns the array `key`.  A long-form length whose `int`
is negative passes the test `keylength <= limit * 4`, and `moveDataToKey` then writes in
front of `key`; that run has no result. -/
def dataLength (key data : List Nat) (limit : Nat) : Option (List Nat) :=
  if data.getD 0 0 ≠ 2 then some key
  else if data.getD 1 0 &&& 0x80 ≠ 0 then
    let n := data.getD 1 0 &&& 0x7f
    let keylength := dataLength.loop data n 0 0
    if keylength ≥ 0x80000000 then none
    else if keylength ≤ limit * 4 then some (moveDataToKey key data (1 + n + 1) keylength limit)
    else some key
  else
    let keylength := data.getD 1 0
    if keylength ≤ limit * 4 then some (moveDataToKey key data 2 keylength limit)
    else some key

/-- `initPublicKey()`: the local `tempkey` is a 256-byte array, its bytes beyond the decoded
ones rendered as `0`. -/
def initPublicKey (pk : PublicKey) : Option PublicKey :=
  let key2 := initBigNumber pk.key2 0x00010001 64
  let decoded := initPublicKey.decode keystring
  let tempkey := decoded ++ List.replicate (256 - decoded.length) 0
  match dataLength pk.key1 tempkey 64 with
  | none => none
  | some key1 =>
    some { key1 := key1, key2 := key2, length := (bignumberBitLength key1 64 : Int) - 1 }

/-! ## Key derivation driver -/

/-- `predataLength()`: C integer division truncates towards zero; a zero `a` divides by
zero and has no result. -/
def predataLength (pk : PublicKey) : Option Int :=
  let a := (pk.length - 1).tdiv 8
  if a = 0 then none else some (((55 : Int).tdiv a + 1) * (a + 1))

/-- The result of `predataProcessing`: the statics, the destination bytes, and the number
of bytes the `source` and `dest` pointers have advanced by. -/
structure Predata where
  scratch : Scratch
  dest : List Nat
  consumed : Nat
  written : Nat
  deriving DecidableEq

/-- The loop of `predataProcessing`.  `sp` and `dp` are the bytes `source` and `dest` stand
at, `n2` and `n3` the two local arrays.  The first argument bounds the number of iterations;
every iteration lowers `predatalength` by `a + 1 ≥ 1`, so `predatalength` iterations are
enough.  A negative `a` would pass a negative size to `memmove`, and a failed `calculateKey`
has no result. -/
def predataProcessing.loop (pk : PublicKey) (a : Int) (source : List Nat) :
    Nat → Scratch → List Nat → List Nat → Nat → Int → List Nat → Nat → Option Predata
  | 0, s, _, _, sp, _, dest, dp => some ⟨s, dest, sp, dp⟩
  | fuel + 1, s, n2, n3, sp, predatalength, dest, dp =>
    if a + 1 ≤ predatalength then
      if a < 0 then none
      else
        let n2 := initBigNumber n2 0 64
        let n2 := ofBytes ((source.drop sp).take (a.toNat + 1) ++ (toBytes n2).drop (a.toNat + 1))
        match calculateKey s n3 n2 pk.key2 pk.key1 64 with
        | none => none
        | some r =>
          let dest := dest.take dp ++ (toBytes r.2).take a.toNat ++ dest.drop (dp + a.toNat)
          predataProcessing.loop pk a source fuel r.1 n2 r.2 (sp + (a.toNat + 1))
            (predatalength - (a + 1)) dest (dp + a.toNat)
    else some ⟨s, dest, sp, dp⟩

/-- `predataProcessing(source, predatalength, dest)`; `n2` and `n3` are the contents of the
two local arrays at entry. -/
def predataProcessing (pk : PublicKey) (s : Scratch) (n2 n3 : List Nat) (source : List Nat)
    (predatalength : Int) (dest : List Nat) : Option Predata :=
  predataProcessing.loop pk ((pk.length - 1).tdiv 8) source predatalength.toNat s n2 n3 0
    predatalength dest 0

/-- `Java_redhorizon_filetypes_mix_MixFileKey_getBlowfishKey`: `source` holds the 80 bytes
of the Java array, `key` the contents of the local 256-byte array at entry; returns the 56
bytes stored back into the Java array `dest`. -/
def getBlowfishKey (pk : PublicKey) (s : Scratch) (n2 n3 key : List Nat) (source : List Nat) :
    Option (List Nat) :=
  let sourcebytes := source.take 80
  match predataLength pk with
  | none => none
  | some n =>
    match predataProcessing pk s n2 n3 sourcebytes n key with
    | none => none
    | some r => some (r.dest.take 56)

/-! ## Specification vocabulary -/

/-- The number of consecutive zero bits of `w` counted downwards from bit `k - 1`. -/
def zeroBitsBelow (w : Nat) : Nat → Nat
  | 0 => 0
  | k + 1 => if w.testBit k then 0 else zeroBitsBelow w k + 1

/-- The number of leading zero bits of a 32-bit word. -/
def leadingZeroBits (w : Nat) : Nat := zeroBitsBelow w 32

/-! ## Concrete states -/

/-- The statics as static storage holds them at program start: all zero. -/
def Scratch.zero : Scratch :=
  { global1 := List.replicate 64 0
    g1bitlength := 0
    g1lengthx2 := 0
    g1hi := List.replicate 4 0
    g1hiinv := List.replicate 4 0
    g1hibitlength := 0
    g1hiinvlo := 0
    g1hiinvhi := 0
    global2 := List.replicate 130 0 }

/-- The value of `PublicKey` after `initPublicKey` (see `initPublicKey_production`): the
40-byte modulus `0x51bcda08...437f15`, the exponent 65537, and the bit length 319 minus 1. -/
def productionKey : PublicKey :=
  { key1 := [2856550165, 3522907965, 4172333542, 2883391082, 1719840842, 3903476986, 1366376354,
      1448173782, 1832516836, 1371331080] ++ List.replicate 54 0
    key2 := [65537] ++ List.replicate 63 0
    length := 318 }

/-- The reduction context that `initTwoInts` builds from `Scratch.zero` for the two-word
modulus `0x1000000000001` (see `calculateBigNumber_no_reduction_witness`). -/
def smallContext : Scratch :=
  { global1 := [1, 0x10000] ++ List.replicate 62 0
    g1bitlength := 49
    g1lengthx2 := 4
    g1hi := [0x80000000, 0, 0, 0]
    g1hiinv := [0x80000000, 0, 0, 0]
    g1hibitlength := 0
    g1hiinvlo := 0
    g1hiinvhi := 0x8000
    global2 := List.replicate 130 0 }

/-- A modulus of 32 significant words, `2^1023 + 1`, in a 64-word array. -/
def wideModulus : List Nat :=
  [1] ++ List.replicate 30 0 ++ [0x80000000] ++ List.replicate 32 0

/-- The base `2^512` in a 64-word array. -/
def wideBase : List Nat :=
  List.replicate 16 0 ++ [1] ++ List.replicate 47 0

/-- Two arrays agree on their first `k` elements. -/
def Agree (k : Nat) (x y : List Nat) : Prop := x.take k = y.take k

/-- Two scratch states hold the same reduction context for `limit` words: the part of the
statics that `calculateBigNumber` reads without writing it first. -/
def SameContext (limit : Nat) (s t : Scratch) : Prop :=
  Agree limit s.global1 t.global1 ∧ s.g1lengthx2 = t.g1lengthx2 ∧
    s.g1hiinvlo = t.g1hiinvlo ∧ s.g1hiinvhi = t.g1hiinvhi ∧
    s.g1hibitlength = t.g1hibitlength

/-- The sums `source2 * lane + *dest + temp` that `bignumberMultiplyWord` forms, one per
iteration of its loop and in the order it forms them, before they are reduced to the 32 bits
of `temp`; the last entry is the sum `*dest + temp` of the closing 16-bit store. -/
def bignumberMultiplyWord.sums (source2 : Nat) :
    Nat → List Nat → Nat → List Nat → Nat → Nat → List Nat
  | 0, dest, d, _, _, temp => [dest.getD d 0 + temp]
  | n + 1, dest, d, source1, s1, temp =>
    let u := source2 * source1.getD s1 0 + dest.getD d 0 + temp
    let t := u % 4294967296
    u :: bignumberMultiplyWord.sums source2 n (dest.set d (t % 65536)) (d + 1) source1 (s1 + 1)
      (t >>> 16)

/-! # Theorems -/

/-! ## Bit tests -/

theorem two_pow_and_eq_zero (k w : Nat) : 2 ^ k &&& w = 0 ↔ w.testBit k = false := by
  constructor
  · intro h
    have h2 := congrArg (fun z => Nat.testBit z k) h
    simpa [Nat.testBit_and, Nat.testBit_two_pow_self] using h2
  · intro h
    apply Nat.eq_of_testBit_eq
    intro i
    by_cases hki : k = i
    · subst hki; simp [Nat.testBit_and, h]
    · simp [Nat.testBit_and, Nat.testBit_two_pow_of_ne hki]

theorem testBit_top {k w : Nat} (hw : w < 2 ^ (k + 1)) : w.testBit k = false ↔ w < 2 ^ k := by
  rw [Nat.testBit_to_div_mod]
  have h1 : w / 2 ^ k < 2 := by
    rw [Nat.div_lt_iff_lt_mul (Nat.two_pow_pos k)]
    rw [Nat.pow_succ] at hw; omega
  have h2 : w / 2 ^ k = 0 ↔ w < 2 ^ k := Nat.div_eq_zero_iff (Nat.two_pow_pos k)
  generalize w / 2 ^ k = q at h1 h2
  rw [← h2]
  have hq : q = 0 ∨ q = 1 := by omega
  rcases hq with rfl | rfl <;> simp

theorem getD_lt_of_Words {x : List Nat} (hx : Words x) (i : Nat) : x.getD i 0 < 4294967296 := by
  rw [List.getD_eq_getElem?_getD]
  cases hg : x[i]? with
  | none => simp
  | some v => simpa using hx v (List.getElem?_mem hg)

/-! ## Significant length -/

theorem intLength_le (x : List Nat) (n : Nat) : bignumberIntLength x n ≤ n := by
  induction n with
  | zero => simp [bignumberIntLength]
  | succ n ih =>
    unfold bignumberIntLength
    split <;> omega

theorem intLength_above (x : List Nat) (n i : Nat) (h1 : bignumberIntLength x n ≤ i)
    (h2 : i < n) : x.getD i 0 = 0 := by
  induction n with
  | zero => omega
  | succ n ih =>
    unfold bignumberIntLength at h1
    split at h1
    · rename_i h0
      by_cases hi : i = n
      · subst hi; exact h0
      · exact ih h1 (by omega)
    · omega

theorem intLength_top (x : List Nat) (n : Nat) (h : bignumberIntLength x n ≠ 0) :
    x.getD (bignumberIntLength x n - 1) 0 ≠ 0 := by
  induction n with
  | zero => simp [bignumberIntLength] at h
  | succ n ih =>
    unfold bignumberIntLength at h ⊢
    split
    · rename_i h0
      simp only [h0, if_true] at h
      exact ih h
    · rename_i h0
      simpa using h0

theorem intLength_eq_zero_iff (x : List Nat) (n : Nat) :
    bignumberIntLength x n = 0 ↔ ∀ i, i < n → x.getD i 0 = 0 := by
  constructor
  · intro h i hi
    exact intLength_above x n i (by omega) hi
  · intro h
    by_contra hne
    have h1 := intLength_top x n hne
    have h2 := intLength_le x n
    exact h1 (h _ (by omega))

/-! ## Bit length -/

theorem bitLengthLoop_eq (w : Nat) (hw0 : w ≠ 0) :
    ∀ (k fuel b : Nat), w < 2 ^ (k + 1) → k < fuel →
      bignumberBitLength.loop w fuel (2 ^ k) b = b - (k - Nat.log2 w) := by
  intro k
  induction k with
  | zero =>
    intro fuel b hw hf
    have hw1 : w = 1 := by simp at hw; omega
    subst hw1
    obtain ⟨f, rfl⟩ : ∃ f, fuel = f + 1 := ⟨fuel - 1, by omega⟩
    simp [bignumberBitLength.loop]
  | succ k ih =>
    intro fuel b hw hf
    obtain ⟨f, rfl⟩ : ∃ f, fuel = f + 1 := ⟨fuel - 1, by omega⟩
    unfold bignumberBitLength.loop
    by_cases hbit : 2 ^ (k + 1) &&& w = 0
    · rw [if_pos hbit]
      have hlt : w < 2 ^ (k + 1) := (testBit_top hw).1 ((two_pow_and_eq_zero _ _).1 hbit)
      have hsh : 2 ^ (k + 1) >>> 1 = 2 ^ k := by
        rw [Nat.shiftRight_eq_div_pow, Nat.pow_succ]; simp
      rw [hsh, ih f (b - 1) hlt (by omega)]
      have hlog : Nat.log2 w < k + 1 := (Nat.log2_lt hw0).2 hlt
      omega
    · rw [if_neg hbit]
      have hge : 2 ^ (k + 1) ≤ w := by
        by_contra hc
        exact hbit ((two_pow_and_eq_zero _ _).2 ((testBit_top hw).2 (by omega)))
      have hlog : k + 1 ≤ Nat.log2 w := (Nat.le_log2 hw0).2 hge
      omega

theorem zeroBitsBelow_eq (w : Nat) (hw0 : w ≠ 0) :
    ∀ k, w < 2 ^ k → zeroBitsBelow w k = k - (Nat.log2 w + 1) := by
  intro k
  induction k with
  | zero => intro hw; simp at hw; omega
  | succ k ih =>
    intro hw
    unfold zeroBitsBelow
    by_cases hbit : w.testBit k = true
    · rw [if_pos hbit]
      have hge : 2 ^ k ≤ w := by
        by_contra hc
        have := (testBit_top hw).2 (by omega)
        rw [this] at hbit; exact Bool.noConfusion hbit
      have hlog : k ≤ Nat.log2 w := (Nat.le_log2 hw0).2 hge
      omega
    · rw [if_neg hbit]
      have hlt : w < 2 ^ k := (testBit_top hw).1 (by simpa using hbit)
      have hlog : Nat.log2 w < k := (Nat.log2_lt hw0).2 hlt
      rw [ih hlt]
      omega

theorem leadingZeroBits_eq {w : Nat} (hw0 : w ≠ 0) (hw : w < 4294967296) :
    leadingZeroBits w = 31 - Nat.log2 w := by
  unfold leadingZeroBits
  rw [zeroBitsBelow_eq w hw0 32 (by simpa using hw)]
  omega

/-- The loop of `bignumberBitLength` leaves on its own: on a non-zero 32-bit word any bound
of at least 32 iterations gives the same result. -/
theorem bitLengthLoop_fuel (w b fuel : Nat) (hw0 : w ≠ 0) (hw : w < 4294967296)
    (hf : 32 ≤ fuel) :
    bignumberBitLength.loop w fuel 0x80000000 b = bignumberBitLength.loop w 32 0x80000000 b := by
  have h1 := bitLengthLoop_eq w hw0 31 fuel b (by simpa using hw) (by omega)
  have h2 := bitLengthLoop_eq w hw0 31 32 b (by simpa using hw) (by omega)
  simp only [Nat.reducePow] at h1 h2
  rw [h1, h2]

theorem bitLength_eq (x : List Nat) (limit : Nat) (hx : Words x)
    (h : bignumberIntLength x limit ≠ 0) :
    bignumberBitLength x limit =
      32 * (bignumberIntLength x limit - 1) +
        (Nat.log2 (x.getD (bignumberIntLength x limit - 1) 0) + 1) := by
  have htop := intLength_top x limit h
  have hlt : x.getD (bignumberIntLength x limit - 1) 0 < 2 ^ (31 + 1) := by
    simpa using getD_lt_of_Words hx (bignumberIntLength x limit - 1)
  have hlog : Nat.log2 (x.getD (bignumberIntLength x limit - 1) 0) < 32 :=
    (Nat.log2_lt htop).2 hlt
  unfold bignumberBitLength
  simp only [h, if_false]
  have := bitLengthLoop_eq _ htop 31 32 (bignumberIntLength x limit * 32) hlt (by omega)
  simp only [Nat.reducePow] at this
  rw [this]
  omega

/-- C10 (amended): `bignumberBitLength(x, limit)` returns 0 when all `limit` words of `x` are
zero, and otherwise returns `32 * bignumberIntLength(x, limit)` minus the number of leading
zero bits in the top significant word. -/
theorem bignumberBitLength_spec (x : List Nat) (limit : Nat) (hx : Words x) :
    ((∀ i, i < limit → x.getD i 0 = 0) → bignumberBitLength x limit = 0) ∧
    (¬ (∀ i, i < limit → x.getD i 0 = 0) →
      bignumberBitLength x limit =
        32 * bignumberIntLength x limit -
          leadingZeroBits (x.getD (bignumberIntLength x limit - 1) 0)) := by
  constructor
  · intro h
    have h0 := (intLength_eq_zero_iff x limit).2 h
    simp [bignumberBitLength, h0]
  · intro h
    have h0 : bignumberIntLength x limit ≠ 0 := fun hc => h ((intLength_eq_zero_iff x limit).1 hc)
    have htop := intLength_top x limit h0
    have hlog : Nat.log2 (x.getD (bignumberIntLength x limit - 1) 0) < 32 :=
      (Nat.log2_lt htop).2 (by simpa using getD_lt_of_Words hx (bignumberIntLength x limit - 1))
    rw [bitLength_eq x limit hx h0, leadingZeroBits_eq htop
      (getD_lt_of_Words hx (bignumberIntLength x limit - 1))]
    omega

/-- C10, witness: a two-word number whose top word `0x51bcda08` has one leading zero bit. -/
theorem bignumberBitLength_spec_witness :
    Words [5, 0x51bcda08] ∧
      bignumberBitLength [5, 0x51bcda08] 2 =
        32 * bignumberIntLength [5, 0x51bcda08] 2 -
          leadingZeroBits ([5, 0x51bcda08].getD (bignumberIntLength [5, 0x51bcda08] 2 - 1) 0) :=
  ⟨by unfold Words; decide,
    (bignumberBitLength_spec [5, 0x51bcda08] 2 (by unfold Words; decide)).2 (by decide)⟩

/-- C10 as stated fails: for the one-word number 1 (31 leading zero bits) the claimed
`32 * 1 + 1 - 31 = 2` is not the returned bit length, which is 1. -/
theorem bignumberBitLength_claim_counterexample :
    ¬ (∀ i, i < 1 → [1].getD i 0 = 0) ∧
      bignumberBitLength [1] 1 = 1 ∧
      32 * bignumberIntLength [1] 1 + 1 -
          leadingZeroBits ([1].getD (bignumberIntLength [1] 1 - 1) 0) = 2 := by
  decide

/-! ## Word arrays and their values -/

theorem Words.nil : Words [] := by intro w hw; cases hw

theorem Words.cons_iff {w : Nat} {x : List Nat} :
    Words (w :: x) ↔ w < 4294967296 ∧ Words x := by
  simp [Words]

theorem Words.append_iff {x y : List Nat} : Words (x ++ y) ↔ Words x ∧ Words y := by
  simp only [Words, List.mem_append]
  constructor
  · intro h; exact ⟨fun w hw => h w (Or.inl hw), fun w hw => h w (Or.inr hw)⟩
  · rintro ⟨h1, h2⟩ w (hw | hw)
    · exact h1 w hw
    · exact h2 w hw

theorem Words.take {x : List Nat} (hx : Words x) (n : Nat) : Words (x.take n) :=
  fun w hw => hx w (List.mem_of_mem_take hw)

theorem Words.drop {x : List Nat} (hx : Words x) (n : Nat) : Words (x.drop n) :=
  fun w hw => hx w (List.mem_of_mem_drop hw)

theorem Words.replicate_zero (n : Nat) : Words (List.replicate n 0) := by
  intro w hw
  rw [List.mem_replicate] at hw
  omega

theorem Words.set {x : List Nat} (hx : Words x) (i : Nat) {v : Nat} (hv : v < 4294967296) :
    Words (x.set i v) := by
  intro w hw
  rcases List.mem_or_eq_of_mem_set hw with h | h
  · exact hx w h
  · omega

theorem getD_set (x : List Nat) (i j v : Nat) :
    (x.set i v).getD j 0 = if i = j ∧ i < x.length then v else x.getD j 0 := by
  simp only [List.getD_eq_getElem?_getD, List.getElem?_set]
  by_cases hij : i = j
  · subst hij
    by_cases hi : i < x.length
    · simp [hi]
    · simp [hi, List.getElem?_eq_none (Nat.le_of_not_lt hi)]
  · simp [hij]

theorem ext_getD {x y : List Nat} (hlen : x.length = y.length)
    (h : ∀ i, i < x.length → x.getD i 0 = y.getD i 0) : x = y := by
  apply List.ext_getElem hlen
  intro i h1 h2
  have := h i h1
  rwa [List.getD_eq_getElem _ _ h1, List.getD_eq_getElem _ _ h2] at this

theorem value_append (x y : List Nat) :
    value (x ++ y) = value x + 4294967296 ^ x.length * value y := by
  induction x with
  | nil => simp [value]
  | cons w x ih =>
    rw [List.cons_append]
    simp only [value, List.length_cons, Nat.pow_succ]
    rw [ih]
    ring

theorem value_lt {x : List Nat} (hx : Words x) : value x < 4294967296 ^ x.length := by
  induction x with
  | nil => simp [value]
  | cons w x ih =>
    rw [Words.cons_iff] at hx
    have := ih hx.2
    simp only [value, List.length_cons, Nat.pow_succ]
    nlinarith [hx.1]

theorem value_replicate_zero (n : Nat) : value (List.replicate n 0) = 0 := by
  induction n with
  | zero => rfl
  | succ n ih => simp [List.replicate_succ, value, ih]

theorem value_take_add_drop (x : List Nat) (n : Nat) :
    value x = value (x.take n) + 4294967296 ^ (min n x.length) * value (x.drop n) := by
  conv_lhs => rw [← List.take_append_drop n x]
  rw [value_append, List.length_take]

theorem value_take {x : List Nat} (hx : Words x) (n : Nat) (hn : n ≤ x.length) :
    value (x.take n) = value x % 4294967296 ^ n := by
  have h1 := value_take_add_drop x n
  have h2 := value_lt (hx.take n)
  rw [List.length_take, Nat.min_eq_left hn] at h2
  rw [Nat.min_eq_left hn] at h1
  rw [h1, Nat.add_mul_mod_self_left, Nat.mod_eq_of_lt h2]

theorem value_drop {x : List Nat} (hx : Words x) (n : Nat) (hn : n ≤ x.length) :
    value (x.drop n) = value x / 4294967296 ^ n := by
  have h1 := value_take_add_drop x n
  have h2 := value_lt (hx.take n)
  rw [List.length_take, Nat.min_eq_left hn] at h2
  rw [Nat.min_eq_left hn] at h1
  rw [h1, Nat.add_mul_div_left _ _ (Nat.pos_pow_of_pos n (by decide)), Nat.div_eq_of_lt h2,
    Nat.zero_add]

theorem pow32 (n : Nat) : 4294967296 ^ n = 2 ^ (32 * n) := by
  rw [Nat.pow_mul]

theorem pow16 (n : Nat) : 65536 ^ n = 2 ^ (16 * n) := by
  rw [Nat.pow_mul]

/-! ## Shifts: the whole-word loops -/

theorem shiftLeftWords_length (i2 : Nat) :
    ∀ (n : Nat) (x : List Nat), (bignumberShiftLeft.words i2 n x).length = x.length := by
  intro n
  induction n with
  | zero => intro x; rfl
  | succ n ih =>
    intro x
    unfold bignumberShiftLeft.words
    split <;> rw [ih] <;> simp

theorem shiftLeftWords_getD (i2 : Nat) :
    ∀ (n : Nat) (x : List Nat) (j : Nat), n ≤ x.length →
      (bignumberShiftLeft.words i2 n x).getD j 0 =
        if j < n then (if i2 ≤ j then x.getD (j - i2) 0 else 0) else x.getD j 0 := by
  intro n
  induction n with
  | zero => intro x j _; simp [bignumberShiftLeft.words]
  | succ n ih =>
    intro x j hn
    unfold bignumberShiftLeft.words
    by_cases hge : n ≥ i2
    · rw [if_pos hge, ih _ _ (by simpa using Nat.le_of_succ_le hn)]
      by_cases hj : j < n
      · rw [if_pos hj, if_pos (by omega : j < n + 1), getD_set]
        have : ¬ (n = j - i2 ∧ n < x.length) := by omega
        rw [if_neg this]
      · rw [if_neg hj, getD_set]
        by_cases hjn : n = j
        · subst hjn
          rw [if_pos ⟨rfl, by omega⟩, if_pos (by omega : n < n + 1), if_pos hge]
        · rw [if_neg (by omega), if_neg (by omega : ¬ j < n + 1)]
    · rw [if_neg hge, ih _ _ (by simpa using Nat.le_of_succ_le hn)]
      by_cases hj : j < n
      · rw [if_pos hj, if_pos (by omega : j < n + 1), getD_set]
        have : ¬ (n = j - i2 ∧ n < x.length) := by omega
        rw [if_neg this]
      · rw [if_neg hj, getD_set]
        by_cases hjn : n = j
        · subst hjn
          rw [if_pos ⟨rfl, by omega⟩, if_pos (by omega : n < n + 1), if_neg (by omega)]
        · rw [if_neg (by omega), if_neg (by omega : ¬ j < n + 1)]

theorem shiftRightWords_length (i2 limit : Nat) :
    ∀ (n i1 : Nat) (x : List Nat),
      (bignumberShiftRight.words i2 limit n i1 x).length = x.length := by
  intro n
  induction n with
  | zero => intro i1 x; rfl
  | succ n ih =>
    intro i1 x
    unfold bignumberShiftRight.words
    split <;> rw [ih] <;> simp

theorem shiftRightWords_getD (i2 limit : Nat) :
    ∀ (n i1 : Nat) (x : List Nat) (j : Nat), i1 + n = limit → limit ≤ x.length →
      (bignumberShiftRight.words i2 limit n i1 x).getD j 0 =
        if i1 ≤ j ∧ j < limit then (if j + i2 < limit then x.getD (j + i2) 0 else 0)
        else x.getD j 0 := by
  intro n
  induction n with
  | zero =>
    intro i1 x j h1 _
    have : ¬ (i1 ≤ j ∧ j < limit) := by omega
    simp [bignumberShiftRight.words, this]
  | succ n ih =>
    intro i1 x j h1 h2
    unfold bignumberShiftRight.words
    by_cases hlt : i1 + i2 < limit
    · rw [if_pos hlt, ih (i1 + 1) _ j (by omega) (by simpa using h2), getD_set, getD_set]
      by_cases hj : i1 + 1 ≤ j ∧ j < limit
      · rw [if_pos hj, if_pos (by omega : i1 ≤ j ∧ j < limit),
          if_neg (by omega : ¬ (i1 = j + i2 ∧ i1 < x.length))]
      · rw [if_neg hj]
        by_cases hji : i1 = j
        · subst hji
          rw [if_pos ⟨rfl, by omega⟩, if_pos (by omega : i1 ≤ i1 ∧ i1 < limit), if_pos hlt]
        · rw [if_neg (by omega), if_neg (by omega : ¬ (i1 ≤ j ∧ j < limit))]
    · rw [if_neg hlt, ih (i1 + 1) _ j (by omega) (by simpa using h2), getD_set, getD_set]
      by_cases hj : i1 + 1 ≤ j ∧ j < limit
      · rw [if_pos hj, if_pos (by omega : i1 ≤ j ∧ j < limit),
          if_neg (by omega : ¬ (i1 = j + i2 ∧ i1 < x.length))]
      · rw [if_neg hj]
        by_cases hji : i1 = j
        · subst hji
          rw [if_pos ⟨rfl, by omega⟩, if_pos (by omega : i1 ≤ i1 ∧ i1 < limit), if_neg hlt]
        · rw [if_neg (by omega), if_neg (by omega : ¬ (i1 ≤ j ∧ j < limit))]

/-- C5: shift boundary property.  For every limit `L ≥ 1`, every `k` and every array of at
least `L` words, `bignumberShiftLeft(x, 32 * k, L)` sets word `i < L` to 0 when `i < k`
(word 0 included) and to the old word `i - k` otherwise, and `bignumberShiftRight(x, 32 * k, L)`
sets word `i < L` to the old word `i + k` when `i < L - k` and to 0 otherwise (the top word
included). -/
theorem shift_boundary (x : List Nat) (k L : Nat) (hlen : L ≤ x.length) :
    (∀ i, i < L → (bignumberShiftLeft x (32 * k) L).getD i 0 =
        if i < k then 0 else x.getD (i - k) 0) ∧
    (∀ i, i < L → (bignumberShiftRight x (32 * k) L).getD i 0 =
        if i + k < L then x.getD (i + k) 0 else 0) := by
  have hdiv : 32 * k / 32 = k := by omega
  have hmod : 32 * k % 32 = 0 := by omega
  constructor
  · intro i hi
    unfold bignumberShiftLeft
    simp only [hdiv, hmod]
    by_cases hk : k > 0
    · simp only [hk, if_true]
      rw [shiftLeftWords_getD k L x i hlen, if_pos hi]
      by_cases hik : i < k
      · rw [if_pos hik, if_neg (by omega)]
      · rw [if_neg hik, if_pos (by omega)]
    · have hk0 : k = 0 := by omega
      subst hk0
      simp
  · intro i hi
    unfold bignumberShiftRight
    simp only [hdiv, hmod]
    by_cases hk : k > 0
    · simp only [hk, if_true]
      rw [shiftRightWords_getD k L L 0 x i (by omega) hlen, if_pos ⟨by omega, hi⟩]
    · have hk0 : k = 0 := by omega
      subst hk0
      simp [hi]

/-- C5, witness: a three-word array shifted by 32 bits in both directions. -/
theorem shift_boundary_witness :
    (∀ i, i < 3 → (bignumberShiftLeft [7, 8, 9] (32 * 1) 3).getD i 0 =
        if i < 1 then 0 else [7, 8, 9].getD (i - 1) 0) ∧
    (∀ i, i < 3 → (bignumberShiftRight [7, 8, 9] (32 * 1) 3).getD i 0 =
        if i + 1 < 3 then [7, 8, 9].getD (i + 1) 0 else 0) :=
  shift_boundary [7, 8, 9] 1 3 (by decide)

/-! ## Shifts: the sub-word loops -/

theorem two_pow_split {s : Nat} (hs : s ≤ 32) : 2 ^ s * 2 ^ (32 - s) = 4294967296 := by
  rw [← Nat.pow_add]
  have : s + (32 - s) = 32 := by omega
  rw [this]

theorem or_eq_add_of_mul {P a c : Nat} {s : Nat} (hP : P = 2 ^ s) (hc : c < P) :
    P * a ||| c = P * a + c := by
  subst hP
  exact (Nat.mul_add_lt_is_or hc a).symm

theorem shiftLeftBits_length (s : Nat) :
    ∀ (n : Nat) (x : List Nat), (bignumberShiftLeft.bits s n x).length = x.length := by
  intro n
  induction n with
  | zero => intro x; simp [bignumberShiftLeft.bits]
  | succ n ih => intro x; unfold bignumberShiftLeft.bits; rw [ih]; simp

theorem shiftLeftBits_getD (s : Nat) :
    ∀ (n : Nat) (x : List Nat) (j : Nat), n < x.length →
      (bignumberShiftLeft.bits s n x).getD j 0 =
        if j ≤ n then
          ((x.getD j 0 <<< s) % 4294967296) |||
            (if j = 0 then 0 else x.getD (j - 1) 0 >>> (32 - s))
        else x.getD j 0 := by
  intro n
  induction n with
  | zero =>
    intro x j hn
    unfold bignumberShiftLeft.bits
    rw [getD_set]
    by_cases hj : j = 0
    · subst hj; simp [hn]
    · rw [if_neg (by omega), if_neg (by omega)]
  | succ n ih =>
    intro x j hn
    unfold bignumberShiftLeft.bits
    rw [ih _ _ (by simpa using Nat.lt_of_succ_lt hn)]
    by_cases hj : j ≤ n
    · rw [if_pos hj, if_pos (by omega : j ≤ n + 1), getD_set, getD_set,
        if_neg (by omega : ¬ (n + 1 = j ∧ n + 1 < x.length)),
        if_neg (by omega : ¬ (n + 1 = j - 1 ∧ n + 1 < x.length))]
    · rw [if_neg hj, getD_set]
      by_cases hjn : n + 1 = j
      · subst hjn
        rw [if_pos ⟨rfl, hn⟩, if_pos (Nat.le_refl _), if_neg (by omega)]
        simp
      · rw [if_neg (by omega), if_neg (by omega : ¬ j ≤ n + 1)]

theorem shiftRightBits_length (s : Nat) :
    ∀ (n i1 : Nat) (x : List Nat), (bignumberShiftRight.bits s n i1 x).length = x.length := by
  intro n
  induction n with
  | zero => intro i1 x; simp [bignumberShiftRight.bits]
  | succ n ih => intro i1 x; unfold bignumberShiftRight.bits; rw [ih]; simp

theorem shiftRightBits_getD (s : Nat) :
    ∀ (n i1 : Nat) (x : List Nat) (j : Nat), i1 + n < x.length →
      (bignumberShiftRight.bits s n i1 x).getD j 0 =
        if i1 ≤ j ∧ j < i1 + n then
          (x.getD j 0 >>> s) ||| ((x.getD (j + 1) 0 <<< (32 - s)) % 4294967296)
        else if j = i1 + n then x.getD j 0 >>> s
        else x.getD j 0 := by
  intro n
  induction n with
  | zero =>
    intro i1 x j hn
    unfold bignumberShiftRight.bits
    rw [getD_set, if_neg (by omega : ¬ (i1 ≤ j ∧ j < i1 + 0))]
    by_cases hj : i1 = j
    · subst hj; rw [if_pos ⟨rfl, by omega⟩, if_pos (by omega)]
    · rw [if_neg (by omega), if_neg (by omega)]
  | succ n ih =>
    intro i1 x j hn
    unfold bignumberShiftRight.bits
    rw [ih _ _ _ (by simp only [List.length_set]; omega)]
    by_cases hj : i1 + 1 ≤ j ∧ j < i1 + 1 + n
    · rw [if_pos hj, if_pos (by omega : i1 ≤ j ∧ j < i1 + (n + 1)), getD_set, getD_set,
        if_neg (by omega : ¬ (i1 = j ∧ i1 < x.length)),
        if_neg (by omega : ¬ (i1 = j + 1 ∧ i1 < x.length))]
    · rw [if_neg hj]
      by_cases hje : j = i1 + 1 + n
      · rw [if_pos hje, getD_set, if_neg (by omega : ¬ (i1 = j ∧ i1 < x.length)),
          if_neg (by omega : ¬ (i1 ≤ j ∧ j < i1 + (n + 1))), if_pos (by omega)]
      · rw [if_neg hje, getD_set]
        by_cases hji : i1 = j
        · subst hji
          rw [if_pos ⟨rfl, by omega⟩, if_pos (by omega : i1 ≤ i1 ∧ i1 < i1 + (n + 1))]
        · rw [if_neg (by omega), if_neg (by omega : ¬ (i1 ≤ j ∧ j < i1 + (n + 1))),
            if_neg (by omega)]

theorem add_mul_mod_mul {B a t M : Nat} (ha : a < B) :
    (a + B * t) % (B * M) = a + B * (t % M) := by
  have hB : 0 < B := by omega
  rw [Nat.mod_mul, Nat.add_mul_mod_self_left, Nat.mod_eq_of_lt ha,
    Nat.add_mul_div_left _ _ hB, Nat.div_eq_of_lt ha, Nat.zero_add]

theorem value_shiftLeft_aux (s : Nat) (hs2 : s < 32) :
    ∀ (x y : List Nat) (c : Nat), Words x → c < 2 ^ s → y.length = x.length →
      (∀ j, j < x.length → y.getD j 0 =
        ((x.getD j 0 <<< s) % 4294967296) |||
          (if j = 0 then c else x.getD (j - 1) 0 >>> (32 - s))) →
      value y = (value x * 2 ^ s + c) % 4294967296 ^ x.length := by
  intro x
  induction x with
  | nil =>
    intro y c _ _ hlen _
    have : y = [] := List.length_eq_zero.1 (by simpa using hlen)
    subst this
    simp [value, Nat.mod_one]
  | cons w ws ih =>
    intro y c hx hc hlen h
    match y, hlen with
    | y0 :: y', hlen =>
      rw [Words.cons_iff] at hx
      have hPQ := two_pow_split (Nat.le_of_lt hs2)
      have hQpos : 0 < 2 ^ (32 - s) := Nat.two_pow_pos _
      have hPpos : 0 < 2 ^ s := Nat.two_pow_pos _
      have hc' : w >>> (32 - s) < 2 ^ s := by
        rw [Nat.shiftRight_eq_div_pow, Nat.div_lt_iff_lt_mul hQpos, hPQ]
        exact hx.1
      have hy' := ih y' (w >>> (32 - s)) hx.2 hc' (by simpa using hlen) (by
        intro j hj
        have := h (j + 1) (by simpa using hj)
        simp only [List.getD_cons_succ, Nat.add_sub_cancel, Nat.succ_ne_zero, if_false] at this
        rw [this]
        cases j with
        | zero => simp
        | succ j => simp)
      have h0 := h 0 (by simp)
      simp only [List.getD_cons_zero, if_true] at h0
      have hmod : (w <<< s) % 4294967296 = 2 ^ s * (w % 2 ^ (32 - s)) := by
        rw [Nat.shiftLeft_eq, Nat.mul_comm w, ← hPQ, Nat.mul_mod_mul_left]
      rw [hmod, or_eq_add_of_mul rfl hc] at h0
      have hwlt : w % 2 ^ (32 - s) < 2 ^ (32 - s) := Nat.mod_lt _ hQpos
      have ha : 2 ^ s * (w % 2 ^ (32 - s)) + c < 4294967296 := by
        have : 2 ^ s * (w % 2 ^ (32 - s)) + 2 ^ s ≤ 2 ^ s * 2 ^ (32 - s) := by
          have h3 : w % 2 ^ (32 - s) + 1 ≤ 2 ^ (32 - s) := hwlt
          calc 2 ^ s * (w % 2 ^ (32 - s)) + 2 ^ s = 2 ^ s * (w % 2 ^ (32 - s) + 1) := by ring
            _ ≤ 2 ^ s * 2 ^ (32 - s) := Nat.mul_le_mul_left _ h3
        omega
      have hsplit : (w + 4294967296 * value ws) * 2 ^ s + c =
          (2 ^ s * (w % 2 ^ (32 - s)) + c) +
            4294967296 * (value ws * 2 ^ s + w >>> (32 - s)) := by
        rw [Nat.shiftRight_eq_div_pow]
        have hw := Nat.div_add_mod w (2 ^ (32 - s))
        generalize w / 2 ^ (32 - s) = q at hw ⊢
        generalize w % 2 ^ (32 - s) = r at hw ⊢
        rw [← hw, ← hPQ]
        ring
      simp only [value, List.length_cons, Nat.pow_succ]
      rw [hsplit, Nat.mul_comm (4294967296 ^ ws.length) 4294967296, add_mul_mod_mul ha,
        ← hy', h0]

theorem value_mod_word (x : List Nat) : value x % 4294967296 = x.getD 0 0 % 4294967296 := by
  cases x with
  | nil => rfl
  | cons w ws => simp [value, Nat.add_mul_mod_self_left]

theorem value_shiftRight_aux (s : Nat) (hs2 : s < 32) :
    ∀ (x y : List Nat), Words x → y.length = x.length →
      (∀ j, j < x.length → y.getD j 0 =
        (x.getD j 0 >>> s) ||| ((x.getD (j + 1) 0 <<< (32 - s)) % 4294967296)) →
      value y = value x / 2 ^ s := by
  intro x
  induction x with
  | nil =>
    intro y _ hlen _
    have : y = [] := List.length_eq_zero.1 (by simpa using hlen)
    subst this
    simp [value]
  | cons w ws ih =>
    intro y hx hlen h
    match y, hlen with
    | y0 :: y', hlen =>
      rw [Words.cons_iff] at hx
      have hPQ := two_pow_split (Nat.le_of_lt hs2)
      have hQpos : 0 < 2 ^ (32 - s) := Nat.two_pow_pos _
      have hPpos : 0 < 2 ^ s := Nat.two_pow_pos _
      have hy' := ih y' hx.2 (by simpa using hlen) (by
        intro j hj
        have := h (j + 1) (by simpa using hj)
        simpa only [List.getD_cons_succ] using this)
      have h0 := h 0 (by simp)
      simp only [List.getD_cons_zero, List.getD_cons_succ, Nat.zero_add] at h0
      have hmod : (ws.getD 0 0 <<< (32 - s)) % 4294967296 =
          2 ^ (32 - s) * (value ws % 2 ^ s) := by
        have hdvd : 2 ^ s ∣ 4294967296 := ⟨2 ^ (32 - s), hPQ.symm⟩
        rw [Nat.shiftLeft_eq, Nat.mul_comm (ws.getD 0 0), ← hPQ, Nat.mul_comm (2 ^ s),
          Nat.mul_mod_mul_left, ← Nat.mod_mod_of_dvd (value ws) hdvd, value_mod_word,
          Nat.mod_mod_of_dvd _ hdvd]
      have hlo : w >>> s < 2 ^ (32 - s) := by
        rw [Nat.shiftRight_eq_div_pow, Nat.div_lt_iff_lt_mul hPpos, Nat.mul_comm, hPQ]
        exact hx.1
      rw [hmod, Nat.lor_comm, or_eq_add_of_mul rfl hlo, Nat.shiftRight_eq_div_pow] at h0
      simp only [value]
      rw [hy', h0]
      have hU := Nat.div_add_mod (value ws) (2 ^ s)
      have hrhs : (w + 4294967296 * value ws) / 2 ^ s = w / 2 ^ s + 2 ^ (32 - s) * value ws := by
        rw [← hPQ, Nat.mul_assoc, Nat.add_mul_div_left _ _ hPpos]
      rw [hrhs]
      generalize value ws / 2 ^ s = q at hU ⊢
      generalize value ws % 2 ^ s = r at hU ⊢
      rw [← hU, ← hPQ]
      ring

theorem shiftLeftWords_eq (k : Nat) (x : List Nat) :
    bignumberShiftLeft.words k x.length x = (List.replicate k 0 ++ x).take x.length := by
  apply ext_getD
  · simp [shiftLeftWords_length]
  · intro i hi
    rw [shiftLeftWords_length] at hi
    rw [shiftLeftWords_getD k _ _ _ (Nat.le_refl _), if_pos hi]
    rw [List.getD_eq_getElem?_getD, List.getD_eq_getElem?_getD, List.getElem?_take_of_lt hi]
    by_cases hik : k ≤ i
    · rw [if_pos hik, List.getElem?_append_right (by simpa using hik)]
      simp
    · rw [if_neg hik, List.getElem?_append_left (by simpa using Nat.lt_of_not_le hik)]
      simp [Nat.lt_of_not_le hik]

theorem shiftRightWords_eq (k : Nat) (x : List Nat) :
    bignumberShiftRight.words k x.length x.length 0 x =
      x.drop k ++ List.replicate (min k x.length) 0 := by
  apply ext_getD
  · simp [shiftRightWords_length]; omega
  · intro i hi
    rw [shiftRightWords_length] at hi
    rw [shiftRightWords_getD k _ _ 0 x i (by omega) (Nat.le_refl _), if_pos ⟨by omega, hi⟩]
    rw [List.getD_eq_getElem?_getD, List.getD_eq_getElem?_getD]
    by_cases hik : i + k < x.length
    · rw [if_pos hik, List.getElem?_append_left (by simp; omega), List.getElem?_drop,
        Nat.add_comm]
    · rw [if_neg hik, List.getElem?_append_right (by simp; omega)]
      rw [List.getElem?_replicate]
      split <;> simp

theorem Words_of_getD {x : List Nat} (h : ∀ i, i < x.length → x.getD i 0 < 4294967296) :
    Words x := by
  intro w hw
  obtain ⟨i, hi, rfl⟩ := List.getElem_of_mem hw
  have := h i hi
  rwa [List.getD_eq_getElem _ _ hi] at this

theorem value_drop_any {x : List Nat} (hx : Words x) (n : Nat) :
    value (x.drop n) = value x / 4294967296 ^ n := by
  by_cases hn : n ≤ x.length
  · exact value_drop hx n hn
  · rw [List.drop_eq_nil_of_le (by omega)]
    have h1 := value_lt hx
    have h2 : 4294967296 ^ x.length ≤ 4294967296 ^ n :=
      Nat.pow_le_pow_right (by decide) (by omega)
    rw [Nat.div_eq_of_lt (by omega)]
    rfl

theorem value_shiftLeft_bits (x : List Nat) (r : Nat) (hr2 : r < 32)
    (hL : 1 ≤ x.length) (hx : Words x) :
    value (bignumberShiftLeft.bits r (x.length - 1) x) =
      (value x * 2 ^ r) % 4294967296 ^ x.length := by
  have h := value_shiftLeft_aux r hr2 x (bignumberShiftLeft.bits r (x.length - 1) x) 0 hx
    (Nat.two_pow_pos r) (shiftLeftBits_length _ _ _) (by
      intro j hj
      rw [shiftLeftBits_getD r _ x j (by omega), if_pos (by omega)])
  simpa using h

theorem value_shiftRight_bits (x : List Nat) (r : Nat) (hr2 : r < 32)
    (hL : 1 ≤ x.length) (hx : Words x) :
    value (bignumberShiftRight.bits r (x.length - 1) 0 x) = value x / 2 ^ r := by
  apply value_shiftRight_aux r hr2 x _ hx (shiftRightBits_length _ _ _ _)
  intro j hj
  rw [shiftRightBits_getD r _ 0 x j (by omega)]
  by_cases hj2 : 0 ≤ j ∧ j < 0 + (x.length - 1)
  · rw [if_pos hj2]
  · rw [if_neg hj2, if_pos (by omega)]
    have : x.getD (j + 1) 0 = 0 := List.getD_eq_default _ _ (by omega)
    rw [this]
    simp

theorem Words_shiftLeft_words (k : Nat) (x : List Nat) (hx : Words x) :
    Words (bignumberShiftLeft.words k x.length x) := by
  rw [shiftLeftWords_eq]
  exact (Words.append_iff.2 ⟨Words.replicate_zero k, hx⟩).take _

theorem Words_shiftRight_words (k : Nat) (x : List Nat) (hx : Words x) :
    Words (bignumberShiftRight.words k x.length x.length 0 x) := by
  rw [shiftRightWords_eq]
  exact Words.append_iff.2 ⟨hx.drop k, Words.replicate_zero _⟩

theorem value_shiftLeft_words (k : Nat) (x : List Nat) (hx : Words x) :
    value (bignumberShiftLeft.words k x.length x) =
      (value x * 4294967296 ^ k) % 4294967296 ^ x.length := by
  rw [shiftLeftWords_eq, value_take (Words.append_iff.2 ⟨Words.replicate_zero k, hx⟩) _
    (by simp), value_append, value_replicate_zero]
  simp [Nat.mul_comm]

theorem value_shiftRight_words (k : Nat) (x : List Nat) (hx : Words x) :
    value (bignumberShiftRight.words k x.length x.length 0 x) =
      value x / 4294967296 ^ k := by
  rw [shiftRightWords_eq, value_append, value_replicate_zero, value_drop_any hx]
  simp

theorem value_shiftLeft (x : List Nat) (s : Nat) (hL : 1 ≤ x.length) (hx : Words x) :
    value (bignumberShiftLeft x s x.length) = (value x * 2 ^ s) % 2 ^ (32 * x.length) := by
  have hs := Nat.div_add_mod s 32
  have hpow : (2 : Nat) ^ s = 4294967296 ^ (s / 32) * 2 ^ (s % 32) := by
    conv_lhs => rw [← hs]
    rw [Nat.pow_add, pow32]
  unfold bignumberShiftLeft
  rw [← pow32]
  by_cases hk : s / 32 > 0
  · simp only [hk, if_true]
    by_cases hr : s % 32 = 0
    · simp only [hr, if_true]
      rw [value_shiftLeft_words _ _ hx, hpow, hr]
      simp
    · simp only [hr, if_false]
      have hlen := shiftLeftWords_length (s / 32) x.length x
      have h1 := value_shiftLeft_bits (bignumberShiftLeft.words (s / 32) x.length x) (s % 32)
        (Nat.mod_lt _ (by decide)) (by omega) (Words_shiftLeft_words _ _ hx)
      rw [hlen] at h1
      rw [h1, value_shiftLeft_words _ _ hx, hpow, Nat.mod_mul_mod, Nat.mul_assoc]
  · have hk0 : s / 32 = 0 := by omega
    have hsr : s % 32 = s := by omega
    simp only [hk0, gt_iff_lt, Nat.lt_irrefl, if_false]
    by_cases hr : s = 0
    · subst hr
      simp [Nat.mod_eq_of_lt (value_lt hx)]
    · simp only [hr, if_false]
      exact value_shiftLeft_bits x s (by omega) hL hx

theorem value_shiftRight (x : List Nat) (s : Nat) (hL : 1 ≤ x.length) (hx : Words x) :
    value (bignumberShiftRight x s x.length) = value x / 2 ^ s := by
  have hs := Nat.div_add_mod s 32
  have hpow : (2 : Nat) ^ s = 4294967296 ^ (s / 32) * 2 ^ (s % 32) := by
    conv_lhs => rw [← hs]
    rw [Nat.pow_add, pow32]
  unfold bignumberShiftRight
  by_cases hk : s / 32 > 0
  · simp only [hk, if_true]
    by_cases hr : s % 32 = 0
    · simp only [hr, if_true]
      rw [value_shiftRight_words _ _ hx, hpow, hr]
      simp
    · simp only [hr, if_false]
      have hlen := shiftRightWords_length (s / 32) x.length x.length 0 x
      have h1 := value_shiftRight_bits (bignumberShiftRight.words (s / 32) x.length x.length 0 x)
        (s % 32) (Nat.mod_lt _ (by decide)) (by omega)
        (Words_shiftRight_words _ _ hx)
      rw [hlen] at h1
      rw [h1, value_shiftRight_words _ _ hx, hpow, Nat.div_div_eq_div_mul]
  · have hk0 : s / 32 = 0 := by omega
    have hsr : s % 32 = s := by omega
    simp only [hk0, gt_iff_lt, Nat.lt_irrefl, if_false]
    by_cases hr : s = 0
    · subst hr
      simp
    · simp only [hr, if_false]
      exact value_shiftRight_bits x s (by omega) hL hx

/-- C6: shifts are logical shifts of the whole integer.  For every limit `L ≥ 1`, every bit
count `s` and every `L`-word `x`, `bignumberShiftLeft(x, s, L)` leaves the value
`(value(x) * 2^s) mod 2^(32*L)` and `bignumberShiftRight(x, s, L)` leaves
`floor(value(x) / 2^s)`. -/
theorem shift_value (x : List Nat) (s L : Nat) (hL : 1 ≤ L) (hlen : x.length = L)
    (hx : Words x) :
    value (bignumberShiftLeft x s L) = (value x * 2 ^ s) % 2 ^ (32 * L) ∧
    value (bignumberShiftRight x s L) = value x / 2 ^ s := by
  subst hlen
  exact ⟨value_shiftLeft x s hL hx, value_shiftRight x s hL hx⟩

/-- C6, witness: a two-word number shifted by 37 bits, a whole word and five bits. -/
theorem shift_value_witness :
    value (bignumberShiftLeft [0x80000001, 0x12345678] 37 2) =
        (value [0x80000001, 0x12345678] * 2 ^ 37) % 2 ^ (32 * 2) ∧
    value (bignumberShiftRight [0x80000001, 0x12345678] 37 2) =
        value [0x80000001, 0x12345678] / 2 ^ 37 :=
  shift_value [0x80000001, 0x12345678] 37 2 (by decide) (by decide) (by unfold Words; decide)

/-! ## Lane arrays and their values -/

theorem Lanes.empty : Lanes [] := by intro w hw; cases hw

theorem Lanes.cons_lane_iff {w : Nat} {x : List Nat} :
    Lanes (w :: x) ↔ w < 65536 ∧ Lanes x := by
  simp [Lanes]

theorem Lanes.append_lane_iff {x y : List Nat} : Lanes (x ++ y) ↔ Lanes x ∧ Lanes y := by
  simp only [Lanes, List.mem_append]
  constructor
  · intro h; exact ⟨fun w hw => h w (Or.inl hw), fun w hw => h w (Or.inr hw)⟩
  · rintro ⟨h1, h2⟩ w (hw | hw)
    · exact h1 w hw
    · exact h2 w hw

theorem Lanes.takeLanes {x : List Nat} (hx : Lanes x) (n : Nat) : Lanes (x.take n) :=
  fun w hw => hx w (List.mem_of_mem_take hw)

theorem Lanes.dropLanes {x : List Nat} (hx : Lanes x) (n : Nat) : Lanes (x.drop n) :=
  fun w hw => hx w (List.mem_of_mem_drop hw)

theorem Lanes.zeros (n : Nat) : Lanes (List.replicate n 0) := by
  intro w hw
  rw [List.mem_replicate] at hw
  omega

theorem Lanes.setLane {x : List Nat} (hx : Lanes x) (i : Nat) {v : Nat} (hv : v < 65536) :
    Lanes (x.set i v) := by
  intro w hw
  rcases List.mem_or_eq_of_mem_set hw with h | h
  · exact hx w h
  · omega

theorem laneValue_append (x y : List Nat) :
    laneValue (x ++ y) = laneValue x + 65536 ^ x.length * laneValue y := by
  induction x with
  | nil => simp [laneValue]
  | cons w x ih =>
    rw [List.cons_append]
    simp only [laneValue, List.length_cons, Nat.pow_succ]
    rw [ih]
    ring

theorem laneValue_lt {x : List Nat} (hx : Lanes x) : laneValue x < 65536 ^ x.length := by
  induction x with
  | nil => simp [laneValue]
  | cons w x ih =>
    rw [Lanes.cons_lane_iff] at hx
    have := ih hx.2
    simp only [laneValue, List.length_cons, Nat.pow_succ]
    nlinarith [hx.1]

theorem laneValue_replicate_zero (n : Nat) : laneValue (List.replicate n 0) = 0 := by
  induction n with
  | zero => rfl
  | succ n ih => simp [List.replicate_succ, laneValue, ih]

theorem laneValue_take_add_drop (x : List Nat) (n : Nat) :
    laneValue x = laneValue (x.take n) + 65536 ^ (min n x.length) * laneValue (x.drop n) := by
  conv_lhs => rw [← List.take_append_drop n x]
  rw [laneValue_append, List.length_take]

theorem laneValue_take {x : List Nat} (hx : Lanes x) (n : Nat) (hn : n ≤ x.length) :
    laneValue (x.take n) = laneValue x % 65536 ^ n := by
  have h1 := laneValue_take_add_drop x n
  have h2 := laneValue_lt (hx.takeLanes n)
  rw [List.length_take, Nat.min_eq_left hn] at h2
  rw [Nat.min_eq_left hn] at h1
  rw [h1, Nat.add_mul_mod_self_left, Nat.mod_eq_of_lt h2]

theorem laneValue_drop {x : List Nat} (hx : Lanes x) (n : Nat) (hn : n ≤ x.length) :
    laneValue (x.drop n) = laneValue x / 65536 ^ n := by
  have h1 := laneValue_take_add_drop x n
  have h2 := laneValue_lt (hx.takeLanes n)
  rw [List.length_take, Nat.min_eq_left hn] at h2
  rw [Nat.min_eq_left hn] at h1
  rw [h1, Nat.add_mul_div_left _ _ (Nat.pos_pow_of_pos n (by decide)), Nat.div_eq_of_lt h2,
    Nat.zero_add]

theorem getD_lt_of_Lanes {x : List Nat} (hx : Lanes x) (i : Nat) : x.getD i 0 < 65536 := by
  rw [List.getD_eq_getElem?_getD]
  cases hg : x[i]? with
  | none => simp
  | some v => simpa using hx v (List.getElem?_mem hg)

theorem laneValue_drop_any {x : List Nat} (hx : Lanes x) (n : Nat) :
    laneValue (x.drop n) = laneValue x / 65536 ^ n := by
  by_cases hn : n ≤ x.length
  · exact laneValue_drop hx n hn
  · rw [List.drop_eq_nil_of_le (by omega)]
    have h1 := laneValue_lt hx
    have h2 : 65536 ^ x.length ≤ 65536 ^ n := Nat.pow_le_pow_right (by decide) (by omega)
    rw [Nat.div_eq_of_lt (by omega)]
    rfl

/-! ## The half-word view -/

theorem toLanes_length (x : List Nat) : (toLanes x).length = 2 * x.length := by
  induction x with
  | nil => rfl
  | cons w x ih => simp only [toLanes, List.length_cons, ih]; omega

theorem toLanes_append (x y : List Nat) : toLanes (x ++ y) = toLanes x ++ toLanes y := by
  induction x with
  | nil => rfl
  | cons w x ih => simp [toLanes, ih]

theorem Lanes_toLanes {x : List Nat} (hx : Words x) : Lanes (toLanes x) := by
  induction x with
  | nil => exact Lanes.empty
  | cons w x ih =>
    rw [Words.cons_iff] at hx
    simp only [toLanes]
    rw [Lanes.cons_lane_iff, Lanes.cons_lane_iff]
    exact ⟨Nat.mod_lt _ (by decide), by omega, ih hx.2⟩

theorem laneValue_toLanes (x : List Nat) : laneValue (toLanes x) = value x := by
  induction x with
  | nil => rfl
  | cons w x ih =>
    simp only [toLanes, laneValue, value, ih]
    omega

theorem ofLanes_toLanes (x : List Nat) : ofLanes (toLanes x) = x := by
  induction x with
  | nil => rfl
  | cons w x ih =>
    simp only [toLanes, ofLanes, ih]
    congr 1
    omega

theorem ofLanes_append (x y : List Nat) (hx : x.length % 2 = 0) :
    ofLanes (x ++ y) = ofLanes x ++ ofLanes y := by
  match x, hx with
  | [], _ => simp [ofLanes]
  | [_], hx => simp at hx
  | a :: b :: x', hx =>
    have hx' : x'.length % 2 = 0 := by simp at hx; omega
    have := ofLanes_append x' y hx'
    rw [List.cons_append, List.cons_append]
    simp only [ofLanes, this, List.cons_append]

theorem ofLanes_length (x : List Nat) : (ofLanes x).length = x.length / 2 := by
  match x with
  | [] => rfl
  | [_] => simp [ofLanes]
  | a :: b :: x' =>
    have := ofLanes_length x'
    simp only [ofLanes, List.length_cons, this]
    omega

theorem value_ofLanes (x : List Nat) (hx : x.length % 2 = 0) :
    value (ofLanes x) = laneValue x := by
  match x, hx with
  | [], _ => rfl
  | [_], hx => simp at hx
  | a :: b :: x', hx =>
    have hx' : x'.length % 2 = 0 := by simp at hx; omega
    have := value_ofLanes x' hx'
    simp only [ofLanes, value, laneValue, this]
    omega

theorem Words_ofLanes {x : List Nat} (hx : Lanes x) : Words (ofLanes x) := by
  match x, hx with
  | [], _ => exact Words.nil
  | [_], _ => exact Words.nil
  | a :: b :: x', hx =>
    rw [Lanes.cons_lane_iff, Lanes.cons_lane_iff] at hx
    have := Words_ofLanes hx.2.2
    simp only [ofLanes]
    rw [Words.cons_iff]
    exact ⟨by omega, this⟩

/-! ## Multiply by a half-word -/

theorem set_eq_window (l : List Nat) (d v : Nat) (hd : d < l.length) :
    l.set d v = l.take d ++ [v] ++ l.drop (d + 1) := by
  rw [List.set_eq_take_append_cons_drop, if_pos hd, List.append_assoc]
  rfl

theorem laneValue_drop_take_succ (l : List Nat) (d n : Nat) :
    laneValue ((l.drop d).take (n + 1)) =
      l.getD d 0 + 65536 * laneValue ((l.drop (d + 1)).take n) := by
  by_cases hd : d < l.length
  · rw [List.drop_eq_getElem_cons hd, List.take_succ_cons, List.getD_eq_getElem _ _ hd]
    rfl
  · rw [List.drop_eq_nil_of_le (by omega), List.drop_eq_nil_of_le (by omega),
      List.getD_eq_default _ _ (by omega)]
    simp [laneValue]

theorem multiplyWordLoop_spec (w : Nat) (hw : w < 65536) (src : List Nat) (hsrc : Lanes src) :
    ∀ (n : Nat) (dest : List Nat) (d s1 temp : Nat), Lanes dest → d + n < dest.length →
      temp < 65536 →
      ∃ R, R.length = n + 1 ∧ Lanes R ∧
        bignumberMultiplyWord.loop w n dest d src s1 temp =
          dest.take d ++ R ++ dest.drop (d + n + 1) ∧
        laneValue R =
          (laneValue ((dest.drop d).take (n + 1)) + w * laneValue ((src.drop s1).take n) + temp)
            % 65536 ^ (n + 1) := by
  intro n
  induction n with
  | zero =>
    intro dest d s1 temp hdest hd htemp
    refine ⟨[(dest.getD d 0 + temp) % 65536], rfl, ?_, ?_, ?_⟩
    · rw [Lanes.cons_lane_iff]; exact ⟨Nat.mod_lt _ (by decide), Lanes.empty⟩
    · unfold bignumberMultiplyWord.loop
      exact set_eq_window dest d _ (by omega)
    · rw [laneValue_drop_take_succ]
      simp [laneValue]
  | succ n ih =>
    intro dest d s1 temp hdest hd htemp
    have hs := getD_lt_of_Lanes hsrc s1
    have hdd := getD_lt_of_Lanes hdest d
    have hprod : w * src.getD s1 0 ≤ 65535 * 65535 :=
      Nat.mul_le_mul (by omega) (by omega)
    have hsum : w * src.getD s1 0 + dest.getD d 0 + temp < 4294967296 := by omega
    unfold bignumberMultiplyWord.loop
    simp only [Nat.mod_eq_of_lt hsum]
    generalize ht : w * src.getD s1 0 + dest.getD d 0 + temp = t at hsum
    have hwin := set_eq_window dest d (t % 65536) (by omega)
    have hlen' : (dest.set d (t % 65536)).length = dest.length := by simp
    have hL : Lanes (dest.set d (t % 65536)) := hdest.setLane d (Nat.mod_lt _ (by decide))
    have htemp' : t >>> 16 < 65536 := by
      rw [Nat.shiftRight_eq_div_pow]; omega
    obtain ⟨R', hR1, hR2, hR3, hR4⟩ := ih (dest.set d (t % 65536)) (d + 1) (s1 + 1) (t >>> 16)
      hL (by omega) htemp'
    have htk : (dest.set d (t % 65536)).take (d + 1) = dest.take d ++ [t % 65536] := by
      rw [hwin, List.append_assoc, List.take_append_eq_append_take]
      simp [Nat.min_eq_left (Nat.le_of_lt (by omega : d < dest.length))]
    have hdr1 : (dest.set d (t % 65536)).drop (d + 1) = dest.drop (d + 1) := by
      rw [List.drop_set_of_lt _ _ (by omega)]
    have hdr2 : (dest.set d (t % 65536)).drop (d + 1 + n + 1) = dest.drop (d + (n + 1) + 1) := by
      rw [List.drop_set_of_lt _ _ (by omega)]
      congr 1; omega
    refine ⟨(t % 65536) :: R', by simp [hR1], ?_, ?_, ?_⟩
    · rw [Lanes.cons_lane_iff]; exact ⟨Nat.mod_lt _ (by decide), hR2⟩
    · rw [hR3, htk, hdr2]
      simp
    · rw [hdr1] at hR4
      rw [laneValue_drop_take_succ dest d (n + 1), laneValue_drop_take_succ src s1 n]
      simp only [laneValue]
      rw [hR4, Nat.shiftRight_eq_div_pow]
      have h16 : (2 : Nat) ^ 16 = 65536 := by norm_num
      rw [h16]
      generalize laneValue ((dest.drop (d + 1)).take (n + 1)) = Wd
      generalize laneValue ((src.drop (s1 + 1)).take n) = S
      have hsplit : dest.getD d 0 + 65536 * Wd + w * (src.getD s1 0 + 65536 * S) + temp
          = t % 65536 + 65536 * (Wd + w * S + t / 65536) := by
        have := Nat.div_add_mod t 65536
        rw [← ht] at this ⊢
        generalize (w * src.getD s1 0 + dest.getD d 0 + temp) / 65536 = q at this ⊢
        generalize (w * src.getD s1 0 + dest.getD d 0 + temp) % 65536 = r at this ⊢
        nlinarith [this]
      have hp : 65536 ^ (n + 1 + 1) = 65536 * 65536 ^ (n + 1) := by
        rw [Nat.pow_succ, Nat.mul_comm]
      rw [hsplit, hp, add_mul_mod_mul (Nat.mod_lt _ (by decide))]

/-! ## Schoolbook multiplication -/

theorem toLanes_take (x : List Nat) (n : Nat) : (toLanes x).take (2 * n) = toLanes (x.take n) := by
  induction x generalizing n with
  | nil => simp [toLanes]
  | cons w x ih =>
    cases n with
    | zero => simp [toLanes]
    | succ n =>
      have : 2 * (n + 1) = (2 * n + 1) + 1 := by omega
      rw [this]
      simp only [toLanes, List.take_succ_cons, ih]

theorem toLanes_replicate_zero (n : Nat) :
    toLanes (List.replicate n 0) = List.replicate (2 * n) 0 := by
  induction n with
  | zero => rfl
  | succ n ih =>
    have : 2 * (n + 1) = (2 * n + 1) + 1 := by omega
    rw [this]
    simp only [List.replicate_succ, toLanes, ih]

theorem laneValue_take_succ (b : List Nat) (i : Nat) :
    laneValue (b.take (i + 1)) = laneValue (b.take i) + 65536 ^ i * b.getD i 0 := by
  by_cases hi : i < b.length
  · rw [List.take_succ, laneValue_append, List.length_take, Nat.min_eq_left (Nat.le_of_lt hi),
      List.getD_eq_getElem _ _ hi, List.getElem?_eq_getElem hi]
    simp [laneValue]
  · rw [List.take_of_length_le (by omega), List.take_of_length_le (by omega),
      List.getD_eq_default _ _ (by omega)]
    simp

theorem laneValue_take_lt {x : List Nat} (hx : Lanes x) (n : Nat) :
    laneValue (x.take n) < 65536 ^ n := by
  have h1 := laneValue_lt (hx.takeLanes n)
  have h2 : 65536 ^ (x.take n).length ≤ 65536 ^ n :=
    Nat.pow_le_pow_right (by decide) (by simp)
  omega

theorem multiply_step_arith {A Bi lo Wd hi X w PN Pi : Nat} (hPi : 0 < Pi) (hA : A < PN)
    (hB : Bi < Pi) (hval : lo + Pi * X = A * Bi) (s2 : X = Wd + (PN * 65536) * hi)
    (hw : w < 65536) : hi = 0 ∧ Wd = X ∧ Wd + w * A < PN * 65536 := by
  have hXlt : X < PN := by
    have h1 : A * Bi < PN * Pi := by
      calc A * Bi ≤ A * Pi := Nat.mul_le_mul_left _ (Nat.le_of_lt hB)
        _ < PN * Pi := Nat.mul_lt_mul_of_pos_right hA hPi
    have h2 : Pi * X < Pi * PN := by
      rw [Nat.mul_comm Pi PN]; omega
    exact Nat.lt_of_mul_lt_mul_left h2
  have hhi : hi = 0 := by
    by_contra hne
    have : (PN * 65536) * 1 ≤ (PN * 65536) * hi := Nat.mul_le_mul_left _ (by omega)
    omega
  subst hhi
  have hwA : w * A ≤ 65535 * PN := by
    calc w * A ≤ 65535 * A := Nat.mul_le_mul_right _ (by omega)
      _ ≤ 65535 * PN := Nat.mul_le_mul_left _ (Nat.le_of_lt hA)
  refine ⟨rfl, by omega, by omega⟩

theorem multiplyLoop_spec (a b : List Nat) (ha : Lanes a) (hb : Lanes b) (limit : Nat)
    (T : List Nat) (hT : Lanes T) :
    ∀ (n i : Nat) (H : List Nat), i + n = limit * 2 → H.length = 2 * (limit * 2) → Lanes H →
      laneValue H = laneValue (a.take (limit * 2)) * laneValue (b.take i) →
      ∃ H', H'.length = 2 * (limit * 2) ∧ Lanes H' ∧
        bignumberMultiply.loop a limit n i (H ++ T) b = H' ++ T ∧
        laneValue H' = laneValue (a.take (limit * 2)) * laneValue (b.take (limit * 2)) := by
  intro n
  induction n with
  | zero =>
    intro i H hi hlen hH hval
    have : i = limit * 2 := by omega
    subst this
    exact ⟨H, hlen, hH, rfl, hval⟩
  | succ n ih =>
    intro i H hi hlen hH hval
    unfold bignumberMultiply.loop bignumberMultiplyWord
    have hw := getD_lt_of_Lanes hb i
    obtain ⟨R, hR1, hR2, hR3, hR4⟩ := multiplyWordLoop_spec (b.getD i 0) hw a ha (limit * 2)
      (H ++ T) i 0 0 (Lanes.append_lane_iff.2 ⟨hH, hT⟩) (by simp; omega) (by decide)
    have e1 : (H ++ T).take i = H.take i := List.take_append_of_le_length (by omega)
    have e2 : (H ++ T).drop (i + limit * 2 + 1) = H.drop (i + limit * 2 + 1) ++ T :=
      List.drop_append_of_le_length (by omega)
    have e3 : ((H ++ T).drop i).take (limit * 2 + 1) = (H.drop i).take (limit * 2 + 1) := by
      rw [List.drop_append_of_le_length (by omega), List.take_append_of_le_length
        (by simp; omega)]
    rw [e1, e2] at hR3
    rw [e3] at hR4
    simp only [List.drop_zero, Nat.add_zero] at hR4
    -- the value of the array splits at lanes `i` and `i + limit * 2 + 1`
    have s1 := laneValue_take_add_drop H i
    rw [Nat.min_eq_left (by omega : i ≤ H.length)] at s1
    have s2 := laneValue_take_add_drop (H.drop i) (limit * 2 + 1)
    rw [Nat.min_eq_left (by simp; omega : limit * 2 + 1 ≤ (H.drop i).length), List.drop_drop,
      ← Nat.add_assoc, Nat.pow_succ] at s2
    obtain ⟨hz, hWX, hlt⟩ := multiply_step_arith (Nat.pos_pow_of_pos i (by decide))
      (laneValue_take_lt ha (limit * 2)) (laneValue_take_lt hb i) (hval ▸ s1.symm) s2 hw
    rw [Nat.pow_succ, Nat.mod_eq_of_lt hlt] at hR4
    obtain ⟨H', h1, h2, h3, h4⟩ := ih (i + 1)
      (H.take i ++ R ++ H.drop (i + limit * 2 + 1)) (by omega)
      (by simp [hR1]; omega)
      (Lanes.append_lane_iff.2 ⟨Lanes.append_lane_iff.2 ⟨hH.takeLanes i, hR2⟩, hH.dropLanes _⟩)
      (by
        rw [laneValue_take_succ, laneValue_append, laneValue_append, List.length_append,
          List.length_take, Nat.min_eq_left (by omega : i ≤ H.length), hR1, hR4, hz, hWX]
        simp only [Nat.mul_zero, Nat.add_zero]
        rw [Nat.mul_add, ← Nat.add_assoc, ← s1, hval]
        ring)
    refine ⟨H', h1, h2, ?_, h4⟩
    rw [hR3]
    simpa [List.append_assoc] using h3

theorem initBigNumber_zero (dest : List Nat) (n : Nat) (hn : 1 ≤ n) :
    initBigNumber dest 0 n = List.replicate n 0 ++ dest.drop n := by
  unfold initBigNumber
  obtain ⟨m, rfl⟩ : ∃ m, n = m + 1 := ⟨n - 1, by omega⟩
  simp [List.replicate_succ]

theorem bignumberMultiply_eq (dest a b : List Nat) (L : Nat) (hL : 1 ≤ L) (ha : Words a)
    (hb : Words b) (hd : Words dest) :
    ∃ P, P.length = 2 * L ∧ Words P ∧
      bignumberMultiply dest a b L = P ++ dest.drop (2 * L) ∧
      value P = value (a.take L) * value (b.take L) := by
  obtain ⟨H', h1, h2, h3, h4⟩ := multiplyLoop_spec (toLanes a) (toLanes b) (Lanes_toLanes ha)
    (Lanes_toLanes hb) L (toLanes (dest.drop (L * 2))) (Lanes_toLanes (hd.drop _)) (L * 2) 0
    (List.replicate (2 * (L * 2)) 0) (by omega) (by simp) (Lanes.zeros _)
    (by simp [laneValue_replicate_zero, laneValue])
  have heven : H'.length % 2 = 0 := by omega
  refine ⟨ofLanes H', by rw [ofLanes_length]; omega, Words_ofLanes h2, ?_, ?_⟩
  · unfold bignumberMultiply
    rw [initBigNumber_zero _ _ (by omega), toLanes_append, toLanes_replicate_zero, h3,
      ofLanes_append _ _ heven, ofLanes_toLanes, Nat.mul_comm L 2]
  · rw [value_ofLanes _ heven, h4, Nat.mul_comm L 2, toLanes_take, toLanes_take,
      laneValue_toLanes, laneValue_toLanes]

/-- C3: `bignumberMultiply` is an exact double-width product.  For every limit `L ≥ 1`, all
operands `a` and `b` of (at least) `L` words and any prior contents of a destination of at
least `2 * L` words, after `bignumberMultiply(dest, a, b, L)` the low `2 * L` words of `dest`
hold exactly `value(a) * value(b)` (so no carry is lost), and no word at index `2 * L` or
above is changed. -/
theorem bignumberMultiply_spec (dest a b : List Nat) (L : Nat) (hL : 1 ≤ L) (ha : Words a)
    (hb : Words b) (hd : Words dest) (hld : 2 * L ≤ dest.length) :
    (bignumberMultiply dest a b L).length = dest.length ∧
    value ((bignumberMultiply dest a b L).take (2 * L)) = value (a.take L) * value (b.take L) ∧
    (bignumberMultiply dest a b L).drop (2 * L) = dest.drop (2 * L) := by
  obtain ⟨P, h1, _, h3, h4⟩ := bignumberMultiply_eq dest a b L hL ha hb hd
  rw [h3]
  refine ⟨by simp [h1]; omega, ?_, ?_⟩
  · rw [List.take_left' h1, h4]
  · rw [List.drop_left' h1]

/-- C3, witness: two two-word operands with all bits set, into a destination holding other
data; the product needs all four words. -/
theorem bignumberMultiply_spec_witness :
    (bignumberMultiply [1, 2, 3, 4, 5] [0xffffffff, 0xffffffff] [0xffffffff, 0xffffffff] 2).length
        = [1, 2, 3, 4, 5].length ∧
    value ((bignumberMultiply [1, 2, 3, 4, 5] [0xffffffff, 0xffffffff]
        [0xffffffff, 0xffffffff] 2).take (2 * 2)) =
      value ([0xffffffff, 0xffffffff].take 2) * value ([0xffffffff, 0xffffffff].take 2) ∧
    (bignumberMultiply [1, 2, 3, 4, 5] [0xffffffff, 0xffffffff] [0xffffffff, 0xffffffff] 2).drop
        (2 * 2) = [1, 2, 3, 4, 5].drop (2 * 2) :=
  bignumberMultiply_spec [1, 2, 3, 4, 5] [0xffffffff, 0xffffffff] [0xffffffff, 0xffffffff] 2
    (by decide) (by unfold Words; decide) (by unfold Words; decide) (by unfold Words; decide)
    (by decide)

/-! ## Significant length and bit length, on values -/

theorem value_take_succ (b : List Nat) (i : Nat) :
    value (b.take (i + 1)) = value (b.take i) + 4294967296 ^ i * b.getD i 0 := by
  by_cases hi : i < b.length
  · rw [List.take_succ, value_append, List.length_take, Nat.min_eq_left (Nat.le_of_lt hi),
      List.getD_eq_getElem _ _ hi, List.getElem?_eq_getElem hi]
    simp [value]
  · rw [List.take_of_length_le (by omega), List.take_of_length_le (by omega),
      List.getD_eq_default _ _ (by omega)]
    simp

theorem value_take_lt {x : List Nat} (hx : Words x) (n : Nat) :
    value (x.take n) < 4294967296 ^ n := by
  have h1 := value_lt (hx.take n)
  have h2 : 4294967296 ^ (x.take n).length ≤ 4294967296 ^ n :=
    Nat.pow_le_pow_right (by decide) (by simp)
  omega

theorem value_take_intLength (x : List Nat) (L : Nat) :
    value (x.take L) = value (x.take (bignumberIntLength x L)) := by
  induction L with
  | zero => rfl
  | succ L ih =>
    unfold bignumberIntLength
    split
    · rename_i h0
      rw [value_take_succ, h0, ih]
      simp
    · rfl

theorem intLength_eq_zero_iff_value {x : List Nat} (L : Nat) :
    bignumberIntLength x L = 0 ↔ value (x.take L) = 0 := by
  constructor
  · intro h
    rw [value_take_intLength, h]
    rfl
  · intro h
    by_contra hne
    have htop := intLength_top x L hne
    have h1 := value_take_intLength x L
    obtain ⟨k, hk⟩ : ∃ k, bignumberIntLength x L = k + 1 := ⟨_, (Nat.succ_pred hne).symm⟩
    rw [hk] at h1 htop
    rw [h, value_take_succ] at h1
    have hp : 0 < 4294967296 ^ k := Nat.pos_pow_of_pos k (by decide)
    simp only [Nat.add_sub_cancel] at htop
    have : 0 < 4294967296 ^ k * x.getD k 0 := Nat.mul_pos hp (by omega)
    omega

theorem bitLength_bounds {x : List Nat} (hx : Words x) (L : Nat)
    (hne : value (x.take L) ≠ 0) :
    2 ^ (bignumberBitLength x L - 1) ≤ value (x.take L) ∧
      value (x.take L) < 2 ^ bignumberBitLength x L ∧ 0 < bignumberBitLength x L := by
  have hil : bignumberIntLength x L ≠ 0 := fun h => hne ((intLength_eq_zero_iff_value L).1 h)
  have hB := bitLength_eq x L hx hil
  have htop := intLength_top x L hil
  obtain ⟨k, hk⟩ : ∃ k, bignumberIntLength x L = k + 1 := ⟨_, (Nat.succ_pred hil).symm⟩
  rw [hk] at hB htop
  simp only [Nat.add_sub_cancel] at hB htop
  rw [value_take_intLength, hk, value_take_succ, hB]
  have h1 := Nat.log2_self_le htop
  have h2 := @Nat.lt_log2_self (x.getD k 0)
  have h3 := value_take_lt hx k
  have e1 : 32 * k + (Nat.log2 (x.getD k 0) + 1) - 1 = 32 * k + Nat.log2 (x.getD k 0) := by omega
  rw [e1, Nat.pow_add, Nat.pow_add, ← pow32]
  generalize Nat.log2 (x.getD k 0) = lg at *
  generalize x.getD k 0 = top at *
  generalize value (x.take k) = lo at *
  have hp : 0 < 4294967296 ^ k := Nat.pos_pow_of_pos k (by decide)
  refine ⟨?_, ?_, by omega⟩
  · calc 4294967296 ^ k * 2 ^ lg ≤ 4294967296 ^ k * top := Nat.mul_le_mul_left _ h1
      _ ≤ lo + 4294967296 ^ k * top := Nat.le_add_left _ _
  · calc lo + 4294967296 ^ k * top < 4294967296 ^ k + 4294967296 ^ k * top := by omega
      _ = 4294967296 ^ k * (top + 1) := by ring
      _ ≤ 4294967296 ^ k * 2 ^ (lg + 1) := Nat.mul_le_mul_left _ h2

/-! ## Comparison -/

theorem bignumberCompare_spec (a b : List Nat) (ha : Words a) (hb : Words b) :
    ∀ L, bignumberCompare a b L =
      if value (a.take L) < value (b.take L) then -1
      else if value (a.take L) > value (b.take L) then 1 else 0 := by
  intro L
  induction L with
  | zero => simp [bignumberCompare, value]
  | succ L ih =>
    unfold bignumberCompare
    rw [value_take_succ, value_take_succ, ih]
    have h1 := value_take_lt ha L
    have h2 := value_take_lt hb L
    generalize value (a.take L) = la at *
    generalize value (b.take L) = lb at *
    generalize a.getD L 0 = ta
    generalize b.getD L 0 = tb
    generalize 4294967296 ^ L = P at *
    by_cases hlt : ta < tb
    · have : P * (ta + 1) ≤ P * tb := Nat.mul_le_mul_left _ hlt
      have hh : la + P * ta < lb + P * tb := by
        rw [Nat.mul_add] at this; omega
      rw [if_pos hlt, if_pos hh]
    · rw [if_neg hlt]
      by_cases hgt : ta > tb
      · have : P * (tb + 1) ≤ P * ta := Nat.mul_le_mul_left _ hgt
        have hh : lb + P * tb < la + P * ta := by
          rw [Nat.mul_add] at this; omega
        rw [if_pos hgt, if_neg (by omega), if_pos hh]
      · rw [if_neg hgt]
        have : ta = tb := by omega
        subst this
        have e1 : (la + P * ta < lb + P * ta) ↔ (la < lb) := by simp
        have e2 : (la + P * ta > lb + P * ta) ↔ (la > lb) := by simp
        simp only [e1, e2]

/-! ## Subtraction with borrow -/

theorem and_65536_eq_zero (r : Nat) : r &&& 65536 = 0 ↔ r / 65536 % 2 = 0 := by
  have h := two_pow_and_eq_zero 16 r
  rw [Nat.land_comm] at h
  have h16 : (2 : Nat) ^ 16 = 65536 := by norm_num
  rw [h16] at h
  rw [h, Nat.testBit_to_div_mod, h16]
  have : r / 65536 % 2 < 2 := Nat.mod_lt _ (by decide)
  generalize r / 65536 % 2 = q at *
  have hq : q = 0 ∨ q = 1 := by omega
  rcases hq with rfl | rfl <;> simp

theorem subtract_lane (i1 i2 carry : Nat) (h1 : i1 < 65536) (h2 : i2 < 65536)
    (hc : carry ≤ 1) :
    ∃ c', c' ≤ 1 ∧
      (if ((i1 + 4294967296 - i2 - carry) % 4294967296) &&& 0x00010000 ≠ 0 then 1 else 0) = c' ∧
      (i1 + 4294967296 - i2 - carry) % 4294967296 % 65536 + i2 + carry = i1 + 65536 * c' := by
  by_cases hge : i2 + carry ≤ i1
  · refine ⟨0, by omega, ?_, by omega⟩
    have : ((i1 + 4294967296 - i2 - carry) % 4294967296) &&& 0x00010000 = 0 := by
      rw [and_65536_eq_zero]; omega
    rw [this]; simp
  · refine ⟨1, by omega, ?_, by omega⟩
    have : ¬ (((i1 + 4294967296 - i2 - carry) % 4294967296) &&& 0x00010000 = 0) := by
      rw [and_65536_eq_zero]; omega
    rw [if_pos this]

theorem subtractLoop_spec (a b : List Nat) (ha : Lanes a) (hb : Lanes b) :
    ∀ (n : Nat) (dest : List Nat) (d s1 s2 carry : Nat), carry ≤ 1 → d + n ≤ dest.length →
      ∃ R c', R.length = n ∧ Lanes R ∧ c' ≤ 1 ∧
        bignumberSubtract.loop n dest d a s1 b s2 carry =
          (dest.take d ++ R ++ dest.drop (d + n), c') ∧
        laneValue R + laneValue ((b.drop s2).take n) + carry =
          laneValue ((a.drop s1).take n) + 65536 ^ n * c' := by
  intro n
  induction n with
  | zero =>
    intro dest d s1 s2 carry hc hd
    refine ⟨[], carry, rfl, Lanes.empty, hc, ?_, ?_⟩
    · simp [bignumberSubtract.loop]
    · simp [laneValue]
  | succ n ih =>
    intro dest d s1 s2 carry hc hd
    have h1 := getD_lt_of_Lanes ha s1
    have h2 := getD_lt_of_Lanes hb s2
    obtain ⟨c1, hc1, hcarry, hlane⟩ := subtract_lane _ _ carry h1 h2 hc
    unfold bignumberSubtract.loop
    simp only [hcarry]
    generalize hv : (a.getD s1 0 + 4294967296 - b.getD s2 0 - carry) % 4294967296 % 65536 = v
      at hlane ⊢
    have hvlt : v < 65536 := by rw [← hv]; exact Nat.mod_lt _ (by decide)
    obtain ⟨R', c', hR1, hR2, hc', hR3, hR4⟩ := ih (dest.set d v) (d + 1) (s1 + 1) (s2 + 1) c1
      hc1 (by simp; omega)
    have hwin := set_eq_window dest d v (by omega)
    have htk : (dest.set d v).take (d + 1) = dest.take d ++ [v] := by
      rw [hwin, List.append_assoc, List.take_append_eq_append_take]
      simp [Nat.min_eq_left (Nat.le_of_lt (by omega : d < dest.length))]
    have hdr : (dest.set d v).drop (d + 1 + n) = dest.drop (d + (n + 1)) := by
      rw [List.drop_set_of_lt _ _ (by omega)]
      congr 1; omega
    refine ⟨v :: R', c', by simp [hR1], ?_, hc', ?_, ?_⟩
    · rw [Lanes.cons_lane_iff]; exact ⟨hvlt, hR2⟩
    · rw [hR3, htk, hdr]; simp
    · rw [laneValue_drop_take_succ b s2 n, laneValue_drop_take_succ a s1 n]
      simp only [laneValue]
      generalize laneValue ((b.drop (s2 + 1)).take n) = B' at *
      generalize laneValue ((a.drop (s1 + 1)).take n) = A' at *
      generalize laneValue R' = r' at *
      rw [Nat.pow_succ]
      generalize 65536 ^ n = P at *
      nlinarith [hR4, hlane]

/-! ## Operations touch only the first `limit` words -/

theorem getD_append' (x t : List Nat) (j : Nat) :
    (x ++ t).getD j 0 = if j < x.length then x.getD j 0 else t.getD (j - x.length) 0 := by
  by_cases hj : j < x.length
  · rw [if_pos hj, List.getD_append _ _ _ _ hj]
  · rw [if_neg hj, List.getD_append_right _ _ _ _ (by omega)]

theorem shiftLeftWords_append (k : Nat) (x t : List Nat) :
    bignumberShiftLeft.words k x.length (x ++ t) = bignumberShiftLeft.words k x.length x ++ t := by
  apply ext_getD
  · simp [shiftLeftWords_length]
  · intro j _
    rw [shiftLeftWords_getD k _ (x ++ t) j (by simp)]
    conv_rhs =>
      rw [getD_append', shiftLeftWords_length, shiftLeftWords_getD k _ x _ (Nat.le_refl _)]
    simp only [getD_append']
    split_ifs <;> first | rfl | (exfalso; omega)

theorem shiftLeftBits_append (r : Nat) (x t : List Nat) (hx : 1 ≤ x.length) :
    bignumberShiftLeft.bits r (x.length - 1) (x ++ t) =
      bignumberShiftLeft.bits r (x.length - 1) x ++ t := by
  apply ext_getD
  · simp [shiftLeftBits_length]
  · intro j _
    rw [shiftLeftBits_getD r _ (x ++ t) j (by simp; omega)]
    conv_rhs =>
      rw [getD_append', shiftLeftBits_length, shiftLeftBits_getD r _ x _ (by omega)]
    simp only [getD_append']
    split_ifs <;> first | rfl | (exfalso; omega)

theorem shiftLeft_append (x t : List Nat) (s : Nat) (hx : 1 ≤ x.length) :
    bignumberShiftLeft (x ++ t) s x.length = bignumberShiftLeft x s x.length ++ t := by
  unfold bignumberShiftLeft
  by_cases hk : s / 32 > 0
  · simp only [hk, if_true]
    rw [shiftLeftWords_append]
    by_cases hr : s % 32 = 0
    · simp only [hr, if_true]
    · simp only [hr, if_false]
      have := shiftLeftBits_append (s % 32) (bignumberShiftLeft.words (s / 32) x.length x) t
        (by rw [shiftLeftWords_length]; exact hx)
      rw [shiftLeftWords_length] at this
      exact this
  · simp only [hk, if_false]
    by_cases hr : s = 0
    · simp only [hr, if_true]
    · simp only [hr, if_false]
      exact shiftLeftBits_append s x t hx

theorem bignumberShiftLeft_length (x : List Nat) (s L : Nat) :
    (bignumberShiftLeft x s L).length = x.length := by
  unfold bignumberShiftLeft
  by_cases hk : s / 32 > 0
  · simp only [hk, if_true]
    by_cases hr : s % 32 = 0
    · simp only [hr, if_true, shiftLeftWords_length]
    · simp only [hr, if_false, shiftLeftBits_length, shiftLeftWords_length]
  · simp only [hk, if_false]
    by_cases hr : s = 0
    · simp only [hr, if_true]
    · simp only [hr, if_false, shiftLeftBits_length]

theorem Words_shiftLeft_bits (r : Nat) (x : List Nat) (hx : Words x) (hL : 1 ≤ x.length) :
    Words (bignumberShiftLeft.bits r (x.length - 1) x) := by
  apply Words_of_getD
  intro i hi
  rw [shiftLeftBits_length] at hi
  rw [shiftLeftBits_getD r _ _ _ (by omega), if_pos (by omega)]
  apply Nat.or_lt_two_pow (n := 32)
  · exact Nat.mod_lt _ (by decide)
  · split
    · decide
    · rw [Nat.shiftRight_eq_div_pow]
      exact Nat.lt_of_le_of_lt (Nat.div_le_self _ _) (getD_lt_of_Words hx _)

theorem Words_shiftLeft (x : List Nat) (s : Nat) (hx : Words x) (hL : 1 ≤ x.length) :
    Words (bignumberShiftLeft x s x.length) := by
  unfold bignumberShiftLeft
  by_cases hk : s / 32 > 0
  · simp only [hk, if_true]
    by_cases hr : s % 32 = 0
    · simp only [hr, if_true]; exact Words_shiftLeft_words _ _ hx
    · simp only [hr, if_false]
      have := Words_shiftLeft_bits (s % 32) _ (Words_shiftLeft_words (s / 32) _ hx)
        (by rw [shiftLeftWords_length]; exact hL)
      rw [shiftLeftWords_length] at this
      exact this
  · simp only [hk, if_false]
    by_cases hr : s = 0
    · simp only [hr, if_true]; exact hx
    · simp only [hr, if_false]
      exact Words_shiftLeft_bits s x hx hL

/-! ## Setting one bit of a word array -/

theorem getD_eq_digit {x : List Nat} (hx : Words x) (d : Nat) (hd : d < x.length) :
    x.getD d 0 = value x / 4294967296 ^ d % 4294967296 := by
  rw [← value_drop hx d (Nat.le_of_lt hd), value_mod_word, List.getD_eq_getElem?_getD,
    List.getD_eq_getElem?_getD, List.getElem?_drop, Nat.add_zero, ← List.getD_eq_getElem?_getD,
    Nat.mod_eq_of_lt (getD_lt_of_Words hx d)]

theorem value_set_add {x : List Nat} (d v : Nat) (hd : d < x.length) :
    value (x.set d v) + 4294967296 ^ d * x.getD d 0 = value x + 4294967296 ^ d * v := by
  have h1 := set_eq_window x d v hd
  have h2 : x = x.take d ++ [x.getD d 0] ++ x.drop (d + 1) := by
    conv_lhs => rw [← List.take_append_drop d x, List.drop_eq_getElem_cons hd]
    rw [List.getD_eq_getElem _ _ hd]
    simp
  rw [h1]
  conv_rhs => rw [h2]
  simp only [value_append, value, List.length_append, List.length_take, List.length_cons,
    List.length_nil, Nat.min_eq_left (Nat.le_of_lt hd)]
  ring

theorem set_bit_spec {D : List Nat} (hD : Words D) (p Q : Nat) (hp : p / 32 < D.length)
    (hval : value D = Q * 2 ^ (p + 1)) :
    Words (D.set (p / 32) (D.getD (p / 32) 0 ||| 2 ^ (p % 32))) ∧
      value (D.set (p / 32) (D.getD (p / 32) 0 ||| 2 ^ (p % 32))) = value D + 2 ^ p := by
  have hdig := getD_eq_digit hD (p / 32) hp
  have hpd := Nat.div_add_mod p 32
  have hr : p % 32 < 32 := Nat.mod_lt _ (by decide)
  -- the word is a multiple of `2 ^ (p % 32 + 1)`
  have hpow : (2 : Nat) ^ (p + 1) = 4294967296 ^ (p / 32) * 2 ^ (p % 32 + 1) := by
    conv_lhs => rw [← hpd]
    rw [Nat.add_assoc, Nat.pow_add, pow32]
  have hsplit : 2 ^ (p % 32 + 1) * 2 ^ (31 - p % 32) = 4294967296 := by
    rw [← Nat.pow_add]
    have : p % 32 + 1 + (31 - p % 32) = 32 := by omega
    rw [this]
  have hword : D.getD (p / 32) 0 = 2 ^ (p % 32 + 1) * (Q % 2 ^ (31 - p % 32)) := by
    rw [hdig, hval, hpow, ← Nat.mul_assoc, Nat.mul_comm Q, Nat.mul_assoc,
      Nat.mul_div_cancel_left _ (Nat.pos_pow_of_pos _ (by decide)), Nat.mul_comm Q,
      ← hsplit, Nat.mul_mod_mul_left]
  have hor : D.getD (p / 32) 0 ||| 2 ^ (p % 32) = D.getD (p / 32) 0 + 2 ^ (p % 32) := by
    rw [hword]
    exact or_eq_add_of_mul rfl (Nat.pow_lt_pow_right (by decide) (by omega))
  have hlt : D.getD (p / 32) 0 + 2 ^ (p % 32) < 4294967296 := by
    rw [hword, ← hsplit]
    have h1 : Q % 2 ^ (31 - p % 32) + 1 ≤ 2 ^ (31 - p % 32) :=
      Nat.mod_lt _ (Nat.two_pow_pos _)
    have h2 : 2 ^ (p % 32 + 1) * (Q % 2 ^ (31 - p % 32) + 1) ≤
        2 ^ (p % 32 + 1) * 2 ^ (31 - p % 32) := Nat.mul_le_mul_left _ h1
    have h3 : 2 ^ (p % 32) < 2 ^ (p % 32 + 1) := Nat.pow_lt_pow_right (by decide) (by omega)
    rw [Nat.mul_add] at h2
    omega
  rw [hor]
  refine ⟨hD.set _ hlt, ?_⟩
  have h := value_set_add (x := D) (p / 32) (D.getD (p / 32) 0 + 2 ^ (p % 32)) hp
  have hpp : (2 : Nat) ^ p = 4294967296 ^ (p / 32) * 2 ^ (p % 32) := by
    conv_lhs => rw [← hpd]
    rw [Nat.pow_add, pow32]
  rw [hpp]
  rw [Nat.mul_add] at h
  omega

/-! ## The reciprocal by long division -/

theorem inverse_subtract (T1 src tt : List Nat) (L : Nat) (hT1 : T1.length = L)
    (hW : Words T1) (htt : Words tt) (hsrc : Words src)
    (hge : value (src.take L) ≤ value T1) :
    ∃ T2, T2.length = L ∧ Words T2 ∧
      ofLanes (bignumberSubtract (toLanes (T1 ++ tt)) 0 (toLanes (T1 ++ tt)) 0 (toLanes src) 0 0
        L).1 = T2 ++ tt ∧
      value T2 = value T1 - value (src.take L) := by
  obtain ⟨R, c', hR1, hR2, hc', hR3, hR4⟩ := subtractLoop_spec (toLanes (T1 ++ tt)) (toLanes src)
    (Lanes_toLanes (Words.append_iff.2 ⟨hW, htt⟩)) (Lanes_toLanes hsrc) (L + L)
    (toLanes (T1 ++ tt)) 0 0 0 0 (by omega) (by rw [toLanes_length]; simp; omega)
  have hLL : L + L = 2 * L := by omega
  have e1 : (toLanes src).take (L + L) = toLanes (src.take L) := by rw [hLL, toLanes_take]
  have e2 : (toLanes (T1 ++ tt)).take (L + L) = toLanes T1 := by
    rw [hLL, toLanes_take, List.take_left' hT1]
  have e3 : (toLanes (T1 ++ tt)).drop (0 + (L + L)) = toLanes tt := by
    rw [toLanes_append, Nat.zero_add]
    exact List.drop_left' (by rw [toLanes_length]; omega)
  simp only [List.drop_zero, List.take_zero, List.nil_append] at hR3 hR4
  rw [e1, e2, laneValue_toLanes, laneValue_toLanes] at hR4
  rw [e3] at hR3
  have hRlt := laneValue_lt hR2
  rw [hR1] at hRlt
  have hc0 : c' = 0 := by
    by_contra hne
    have : c' = 1 := by omega
    subst this
    omega
  subst hc0
  have heven : R.length % 2 = 0 := by omega
  refine ⟨ofLanes R, by rw [ofLanes_length]; omega, Words_ofLanes hR2, ?_, ?_⟩
  · unfold bignumberSubtract
    rw [hR3, ofLanes_append _ _ heven, ofLanes_toLanes]
  · rw [value_ofLanes _ heven]
    omega

theorem shiftLeft_one_window (Tm tt : List Nat) (L : Nat) (hL : 1 ≤ L) (hTl : Tm.length = L)
    (hT : Words Tm) (hlt : 2 * value Tm < 4294967296 ^ L) :
    ∃ T1, T1.length = L ∧ Words T1 ∧ bignumberShiftLeft (Tm ++ tt) 1 L = T1 ++ tt ∧
      value T1 = 2 * value Tm := by
  subst hTl
  refine ⟨bignumberShiftLeft Tm 1 Tm.length, bignumberShiftLeft_length _ _ _,
    Words_shiftLeft _ _ hT hL, shiftLeft_append _ _ _ hL, ?_⟩
  rw [value_shiftLeft _ _ hL hT, ← pow32, Nat.pow_one, Nat.mul_comm, Nat.mod_eq_of_lt hlt]

theorem bit_step (n : Nat) :
    (if 2 ^ ((n + 1) % 32) >>> 1 = 0 then (n + 1) / 32 - 1 else (n + 1) / 32) = n / 32 ∧
    (if 2 ^ ((n + 1) % 32) >>> 1 = 0 then 0x80000000 else 2 ^ ((n + 1) % 32) >>> 1) =
      2 ^ (n % 32) := by
  by_cases h : (n + 1) % 32 = 0
  · have h1 : n % 32 = 31 := by omega
    have h2 : (n + 1) / 32 - 1 = n / 32 := by omega
    simp [h, h1, h2]
  · obtain ⟨k, hk⟩ : ∃ k, (n + 1) % 32 = k + 1 := ⟨(n + 1) % 32 - 1, by omega⟩
    have h1 : n % 32 = k := by omega
    have h2 : (n + 1) / 32 = n / 32 := by omega
    have h3 : (2 : Nat) ^ (k + 1) >>> 1 = 2 ^ k := by
      rw [Nat.shiftRight_eq_div_pow, Nat.pow_succ]; simp
    have h4 : (2 : Nat) ^ k ≠ 0 := Nat.pos_iff_ne_zero.1 (Nat.two_pow_pos k)
    rw [hk, h3, h1, h2]
    simp [h4]

theorem inverseLoop_spec (src : List Nat) (L : Nat) (hL : 1 ≤ L) (hsrc : Words src)
    (tt dt : List Nat) (htt : Words tt)
    (hm2 : 2 * value (src.take L) < 4294967296 ^ L) :
    ∀ (n : Nat) (Tm D : List Nat) (Q : Nat), Tm.length = L → Words Tm → D.length = L →
      Words D → n < 32 * L → value Tm ≤ value (src.take L) → value D = Q * 2 ^ (n + 1) →
      ∃ D' Q' R', D'.length = L ∧ Words D' ∧
        bignumberInverse.loop src L n (Tm ++ tt) (D ++ dt) (n / 32) (2 ^ (n % 32)) = D' ++ dt ∧
        value D' = 2 * Q' ∧ R' ≤ value (src.take L) ∧
        2 ^ n * (Q * value (src.take L) + value Tm) = Q' * value (src.take L) + R' := by
  intro n
  induction n with
  | zero =>
    intro Tm D Q _ _ hDl hD _ hR hval
    refine ⟨D, Q, value Tm, hDl, hD, rfl, ?_, hR, by simp⟩
    rw [hval]; ring
  | succ n ih =>
    intro Tm D Q hTl hT hDl hD hn hR hval
    obtain ⟨T1, hT1l, hT1, hsh, hT1v⟩ := shiftLeft_one_window Tm tt L hL hTl hT (by omega)
    obtain ⟨hd', hbit'⟩ := bit_step n
    have hcmp := bignumberCompare_spec (T1 ++ tt) src (Words.append_iff.2 ⟨hT1, htt⟩) hsrc L
    rw [List.take_left' hT1l] at hcmp
    unfold bignumberInverse.loop
    simp only [hsh, hcmp]
    by_cases hlt : value T1 < value (src.take L)
    · -- the remainder stays, the quotient bit is 0
      have hhit : ¬ ((if value T1 < value (src.take L) then (-1 : Int)
          else if value T1 > value (src.take L) then 1 else 0) ≠ -1) := by
        rw [if_pos hlt]; simp
      simp only [hhit, if_false]
      obtain ⟨D', Q', R', h1, h2, h3, h4, h5, h6⟩ := ih T1 D (2 * Q) hT1l hT1 hDl hD (by omega)
        (Nat.le_of_lt hlt) (by rw [hval, Nat.pow_succ]; ring)
      refine ⟨D', Q', R', h1, h2, ?_, h4, h5, ?_⟩
      · rw [← h3]
        split
        · rename_i hz
          have e1 := hd'; have e2 := hbit'
          rw [if_pos hz] at e1 e2
          rw [e1, ← e2]
        · rename_i hz
          have e1 := hd'; have e2 := hbit'
          rw [if_neg hz] at e1 e2
          rw [e1, ← e2]
      · rw [← h6, hT1v, Nat.pow_succ]; ring
    · -- the divisor is subtracted, the quotient bit is 1
      have hhit : (if value T1 < value (src.take L) then (-1 : Int)
          else if value T1 > value (src.take L) then 1 else 0) ≠ -1 := by
        rw [if_neg hlt]; split <;> decide
      simp only [if_pos hhit]
      obtain ⟨T2, hT2l, hT2, hsub, hT2v⟩ := inverse_subtract T1 src tt L hT1l hT1 htt hsrc
        (by omega)
      have hd : (n + 1) / 32 < D.length := by rw [hDl]; omega
      obtain ⟨hDs, hDv⟩ := set_bit_spec hD (n + 1) Q hd hval
      have hset : (D ++ dt).set ((n + 1) / 32) ((D ++ dt).getD ((n + 1) / 32) 0 |||
          2 ^ ((n + 1) % 32)) =
          D.set ((n + 1) / 32) (D.getD ((n + 1) / 32) 0 ||| 2 ^ ((n + 1) % 32)) ++ dt := by
        rw [List.set_append_left _ _ hd, List.getD_append _ _ _ _ hd]
      simp only [hsub, hset]
      obtain ⟨D', Q', R', h1, h2, h3, h4, h5, h6⟩ := ih T2
        (D.set ((n + 1) / 32) (D.getD ((n + 1) / 32) 0 ||| 2 ^ ((n + 1) % 32))) (2 * Q + 1)
        hT2l hT2 (by simp [hDl]) hDs (by omega) (by omega)
        (by rw [hDv, hval, Nat.pow_succ]; ring)
      refine ⟨D', Q', R', h1, h2, ?_, h4, h5, ?_⟩
      · rw [← h3]
        split
        · rename_i hz
          have e1 := hd'; have e2 := hbit'
          rw [if_pos hz] at e1 e2
          rw [e1, ← e2]
        · rename_i hz
          have e1 := hd'; have e2 := hbit'
          rw [if_neg hz] at e1 e2
          rw [e1, ← e2]
      · rw [← h6, hT2v, hT1v, Nat.pow_succ]
        have hge : value (src.take L) ≤ 2 * value Tm := by omega
        generalize value (src.take L) = m at *
        generalize value Tm = r at *
        obtain ⟨k, hk⟩ : ∃ k, 2 * r = m + k := ⟨2 * r - m, by omega⟩
        rw [hk, Nat.add_sub_cancel_left]
        have : 2 ^ n * 2 * (Q * m + r) = 2 ^ n * (2 * Q * m + 2 * r) := by ring
        rw [this, hk]; ring

theorem inverse_temp (L : Nat) (hL : 1 ≤ L) :
    initBigNumber (List.replicate 64 0) 0 L = List.replicate L 0 ++ List.replicate (64 - L) 0 := by
  rw [initBigNumber_zero _ _ hL, List.drop_replicate]

theorem bignumberInverse_eq (dest source : List Nat) (L : Nat) (hL : 1 ≤ L) (hs : Words source)
    (hne : value (source.take L) ≠ 0)
    (hB : bignumberBitLength source L < 32 * L) :
    ∃ D' Q' R', D'.length = L ∧ Words D' ∧
      bignumberInverse dest source L = D' ++ dest.drop L ∧
      value D' = 2 * Q' ∧ R' ≤ value (source.take L) ∧
      2 ^ (2 * bignumberBitLength source L - 1) = Q' * value (source.take L) + R' := by
  obtain ⟨hb1, hb2, hb3⟩ := bitLength_bounds hs L hne
  generalize hBdef : bignumberBitLength source L = B at *
  have hm2 : 2 * value (source.take L) < 4294967296 ^ L := by
    have h1 : 2 ^ (B + 1) ≤ 2 ^ (32 * L) := Nat.pow_le_pow_right (by decide) (by omega)
    rw [pow32]
    rw [Nat.pow_succ] at h1
    omega
  -- the working register: bit `B - 1` set in an array of zeros
  have hZ : Words (List.replicate L 0) := Words.replicate_zero L
  have hp : (B - 1) / 32 < (List.replicate L 0).length := by simp; omega
  obtain ⟨hTs, hTv⟩ := set_bit_spec hZ (B - 1) 0 hp (by simp [value_replicate_zero])
  rw [value_replicate_zero, Nat.zero_add] at hTv
  obtain ⟨D', Q', R', h1, h2, h3, h4, h5, h6⟩ := inverseLoop_spec source L hL hs
    (List.replicate (64 - L) 0) (dest.drop L) (Words.replicate_zero _) hm2 B
    ((List.replicate L 0).set ((B - 1) / 32)
      ((List.replicate L 0).getD ((B - 1) / 32) 0 ||| 2 ^ ((B - 1) % 32)))
    (List.replicate L 0) 0 (by simp) hTs (by simp) hZ hB (by rw [hTv]; exact hb1)
    (by simp [value_replicate_zero])
  refine ⟨D', Q', R', h1, h2, ?_, h4, h5, ?_⟩
  · unfold bignumberInverse
    simp only [hBdef]
    rw [inverse_temp L hL, initBigNumber_zero _ _ hL, ← h3]
    have e1 : (1 <<< (B % 32)) % 4294967296 = 2 ^ (B % 32) := by
      rw [Nat.shiftLeft_eq, Nat.one_mul]
      exact Nat.mod_eq_of_lt (Nat.pow_lt_pow_right (by decide) (Nat.mod_lt _ (by decide)))
    have e2 : (B + 32) / 32 - 1 = B / 32 := by omega
    have e3 : (B - 1) / 32 * 4 / 4 = (B - 1) / 32 := by omega
    have e4 : (B - 1) &&& 0x1f = (B - 1) % 32 := Nat.and_pow_two_sub_one_eq_mod (B - 1) 5
    have e5 : (1 <<< ((B - 1) % 32)) % 4294967296 = 2 ^ ((B - 1) % 32) := by
      rw [Nat.shiftLeft_eq, Nat.one_mul]
      exact Nat.mod_eq_of_lt (Nat.pow_lt_pow_right (by decide) (Nat.mod_lt _ (by decide)))
    rw [e1, e2, e3, e4, e5, List.set_append_left _ _ hp, List.getD_append _ _ _ _ hp]
  · rw [← h6, hTv, Nat.zero_mul, Nat.zero_add, ← Nat.pow_add]
    congr 1
    omega

theorem inverse_arith {m Q R B V : Nat} (hm : 0 < m) (hB : 0 < B) (hR : R ≤ m)
    (h : 2 ^ (2 * B - 1) = Q * m + R) (hV : V = 2 * Q) :
    V ≤ 2 ^ (2 * B) / m ∧ 2 ^ (2 * B) / m ≤ V + 2 ∧
      ((¬ ∃ j, m = 2 ^ j) → 2 ^ (2 * B) / m ≤ V + 1) := by
  have h2 : 2 ^ (2 * B) = V * m + 2 * R := by
    have : 2 * B = (2 * B - 1) + 1 := by omega
    rw [this, Nat.pow_succ, h, hV]; ring
  rw [h2]
  refine ⟨?_, ?_, ?_⟩
  · rw [Nat.le_div_iff_mul_le hm]; omega
  · rw [Nat.div_le_iff_le_mul_add_pred hm]
    have : m * (V + 2) = V * m + 2 * m := by ring
    rw [this]; omega
  · intro hnp
    have hRm : R ≠ m := by
      intro hRm
      apply hnp
      have hdvd : m ∣ 2 ^ (2 * B - 1) := ⟨Q + 1, by rw [h, hRm]; ring⟩
      obtain ⟨j, _, hj⟩ := (Nat.dvd_prime_pow Nat.prime_two).1 hdvd
      exact ⟨j, hj⟩
    rw [Nat.div_le_iff_le_mul_add_pred hm]
    have : m * (V + 1) = V * m + m := by ring
    rw [this]; omega

/-- C9 (amended): what `bignumberInverse` leaves in `dest` is a reciprocal scaled by
`2^(2 * bitLength)`.  For every limit `1 ≤ L ≤ 64` and every non-zero `L`-word `m` whose bit
length `B` is smaller than `32 * L`, the value `V` that `bignumberInverse(dest, m, L)` leaves
in the `L` words of `dest` satisfies `V ≤ floor(2^(2*B) / m) ≤ V + 2`, and
`floor(2^(2*B) / m) ≤ V + 1` when `m` is not a power of two; the words of `dest` above `L`
are unchanged. -/
theorem bignumberInverse_spec (dest source : List Nat) (L : Nat) (hL : 1 ≤ L) (_hL64 : L ≤ 64)
    (hs : Words source) (_hld : L ≤ dest.length)
    (hne : value (source.take L) ≠ 0) (hB : bignumberBitLength source L < 32 * L) :
    value ((bignumberInverse dest source L).take L) ≤
        2 ^ (2 * bignumberBitLength source L) / value (source.take L) ∧
    2 ^ (2 * bignumberBitLength source L) / value (source.take L) ≤
        value ((bignumberInverse dest source L).take L) + 2 ∧
    ((¬ ∃ j, value (source.take L) = 2 ^ j) →
      2 ^ (2 * bignumberBitLength source L) / value (source.take L) ≤
        value ((bignumberInverse dest source L).take L) + 1) ∧
    (bignumberInverse dest source L).drop L = dest.drop L := by
  obtain ⟨D', Q', R', h1, _, h3, h4, h5, h6⟩ := bignumberInverse_eq dest source L hL hs
    hne hB
  obtain ⟨_, _, hb3⟩ := bitLength_bounds hs L hne
  rw [h3, List.take_left' h1, List.drop_left' h1]
  obtain ⟨a1, a2, a3⟩ := inverse_arith (Nat.pos_of_ne_zero hne) hb3 h5 h6 h4
  exact ⟨a1, a2, a3, rfl⟩

/-- C9, witness: the reciprocal of the two-word number `0x1_0000_0003` (33 bits). -/
theorem bignumberInverse_spec_witness :
    value ((bignumberInverse [9, 9, 9] [3, 1] 2).take 2) ≤
        2 ^ (2 * bignumberBitLength [3, 1] 2) / value ([3, 1].take 2) ∧
    2 ^ (2 * bignumberBitLength [3, 1] 2) / value ([3, 1].take 2) ≤
        value ((bignumberInverse [9, 9, 9] [3, 1] 2).take 2) + 2 ∧
    ((¬ ∃ j, value ([3, 1].take 2) = 2 ^ j) →
      2 ^ (2 * bignumberBitLength [3, 1] 2) / value ([3, 1].take 2) ≤
        value ((bignumberInverse [9, 9, 9] [3, 1] 2).take 2) + 1) ∧
    (bignumberInverse [9, 9, 9] [3, 1] 2).drop 2 = [9, 9, 9].drop 2 :=
  bignumberInverse_spec [9, 9, 9] [3, 1] 2 (by decide) (by decide) (by unfold Words; decide)
    (by decide) (by decide) (by decide)

/-- C9 as stated fails: for the one-word number 3 (bit length 2) `bignumberInverse` leaves 4
in `dest`, while `floor(2^2 / 3) = 1`; the two differ by 3. -/
theorem bignumberInverse_claim_counterexample :
    value ([3].take 1) ≠ 0 ∧ bignumberBitLength [3] 1 = 2 ∧
      value ((bignumberInverse [0] [3] 1).take 1) = 4 ∧
      2 ^ bignumberBitLength [3] 1 / value ([3].take 1) = 1 := by
  decide

/-! ## The modular multiplier on concrete inputs -/

set_option maxRecDepth 1000000 in
/-- C1, evaluated at its failing input.  Modulus `m = 0xffff000000000001` (odd, both words and
the top bit set, `L = 2`), reduction context established by `initTwoInts(m, 2)` from zeroed
statics, `a = 0x10000`, `b = 0xffff000000000000 = m - 1`.  `calculateBigNumber` leaves 0 in
the two words of the result, while `(a * b) mod m = 0xfffeffffffff0001`. -/
theorem calculateBigNumber_wrong_product :
    (initTwoInts Scratch.zero [1, 0xffff0000] 2).map
        (fun s => (calculateBigNumber s [0, 0] [0x10000, 0] [0, 0xffff0000] 2).2) = some [0, 0] ∧
      (value [0x10000, 0] * value [0, 0xffff0000]) % value [1, 0xffff0000] =
        0xfffeffffffff0001 := by
  decide

set_option maxRecDepth 1000000 in
/-- The estimate behind the failure above.  In the last reduction step the complemented
remainder has the lanes `ffff ffff ffff ffff 0000 ffff ...` and the pointer stands at lane 4;
with `g1hiinvlo = 0x8001`, `g1hiinvhi = 0x8000`, `g1hibitlength = 16` the last sum of
`getMulShort` is `0x10001 + 0xffff0000 = 0x100000001`, which wraps to 1 in 32 bits, so the
estimate is 0 where the quotient lane is `0xffff` (the clamp `i > 0xffff` never sees it). -/
theorem getMulShort_wraps :
    (initTwoInts Scratch.zero [1, 0xffff0000] 2).map
        (fun s => (s.g1hiinvlo, s.g1hiinvhi, s.g1hibitlength,
          getMulShort s [0xffff, 0xffff, 0xffff, 0xffff, 0, 0xffff, 0xffff, 0xffff, 0xffff,
            0xffff] 4)) = some (0x8001, 0x8000, 16, 0) ∧
      0x10001 + 0x8000 * 0xffff * 2 = 0x100000001 := by
  decide

set_option maxRecDepth 1000000 in
/-- A second defect of `calculateBigNumber`, on a modulus whose top half-word is zero:
`m = 0x100000001`, `a = 0x400000`, `b = 0x20000`.  Here `g1lengthx2 = 3`, the lane `edi`
lies inside the window that `bignumberSubtract` corrects, and the borrow is taken from the
wrong lane: the result is `0x10000ffffff81`, while `(a * b) mod m = 0xffffff81`. -/
theorem calculateBigNumber_wrong_borrow :
    (initTwoInts Scratch.zero [1, 1] 2).map
        (fun s => (calculateBigNumber s [0, 0] [0x400000, 0] [0x20000, 0] 2).2) =
        some [0xffffff81, 0x10000] ∧
      (value [0x400000, 0] * value [0x20000, 0]) % value [1, 1] = 0xffffff81 := by
  decide

set_option maxRecDepth 1000000 in
set_option exponentiation.threshold 100000 in
/-- C2, evaluated at its failing input.  Modulus `m = 0xffff000000000001` (two significant
words), base `m - 1 = 0xffff000000000000`, exponent 65537, limit 64, zeroed statics.
`calculateKey` leaves `0xd0e0383c94a12e8d` in the result, while
`base^65537 mod m = m - 1 = 0xffff000000000000`. -/
theorem calculateKey_wrong_power :
    (calculateKey Scratch.zero (List.replicate 64 0) ([0, 0xffff0000] ++ List.replicate 62 0)
        ([65537] ++ List.replicate 63 0) ([1, 0xffff0000] ++ List.replicate 62 0) 64).map
        (fun r => value r.2) = some 0xd0e0383c94a12e8d ∧
      value ([0, 0xffff0000] ++ List.replicate 62 0) ^ 65537 %
        value ([1, 0xffff0000] ++ List.replicate 62 0) = 0xffff000000000000 := by
  decide

/-! ## When the key calculation has a result -/

theorem intLength_congr (x y : List Nat) :
    ∀ n, (∀ i, i < n → x.getD i 0 = y.getD i 0) →
      bignumberIntLength x n = bignumberIntLength y n := by
  intro n
  induction n with
  | zero => intro _; rfl
  | succ n ih =>
    intro h
    unfold bignumberIntLength
    rw [h n (by omega), ih (fun i hi => h i (by omega))]

theorem intLength_idem (x : List Nat) (n : Nat) :
    bignumberIntLength x (bignumberIntLength x n) = bignumberIntLength x n := by
  induction n with
  | zero => rfl
  | succ n ih =>
    by_cases h0 : x.getD n 0 = 0
    · have : bignumberIntLength x (n + 1) = bignumberIntLength x n := by
        show (if x.getD n 0 = 0 then bignumberIntLength x n else n + 1) = _
        rw [if_pos h0]
      rw [this, ih]
    · have : bignumberIntLength x (n + 1) = n + 1 := by
        show (if x.getD n 0 = 0 then bignumberIntLength x n else n + 1) = _
        rw [if_neg h0]
      rw [this, this]

theorem getD_move (dest src : List Nat) (L i : Nat) (hL : L ≤ src.length) (hi : i < L) :
    (bignumberMove dest src L).getD i 0 = src.getD i 0 := by
  unfold bignumberMove
  rw [getD_append', List.length_take, Nat.min_eq_left hL, if_pos hi,
    List.getD_eq_getElem?_getD, List.getD_eq_getElem?_getD, List.getElem?_take_of_lt hi]

theorem intLength_move (dest src : List Nat) (L : Nat) (hL : L ≤ src.length) :
    bignumberIntLength (bignumberMove dest src L) L = bignumberIntLength src L :=
  intLength_congr _ _ L (fun i hi => getD_move dest src L i hL hi)

theorem initTwoInts_isSome (s : Scratch) (m : List Nat) (L : Nat) (hL : L ≤ m.length)
    (h2 : 2 ≤ bignumberIntLength m L) : ∃ s', initTwoInts s m L = some s' := by
  unfold initTwoInts
  simp only [intLength_move _ _ _ hL]
  rw [if_neg (by omega)]
  exact ⟨_, rfl⟩

theorem calculateKey_isSome (s : Scratch) (n1 n2 n3 n4 : List Nat) (limit : Nat)
    (hL : limit ≤ n4.length) (h2 : 2 ≤ bignumberIntLength n4 limit)
    (h3 : bignumberBitLength n3 (bignumberIntLength n4 limit) ≠ 0) :
    ∃ r, calculateKey s n1 n2 n3 n4 limit = some r := by
  obtain ⟨s', hs'⟩ := initTwoInts_isSome s n4 (bignumberIntLength n4 limit)
    (Nat.le_trans (intLength_le _ _) hL)
    (by rw [intLength_idem]; exact h2)
  unfold calculateKey
  simp only [hs', if_neg h3]
  exact ⟨_, rfl⟩

/-! ## The derivation driver under the production key -/

theorem production_a : (productionKey.length - 1).tdiv 8 = 39 := by decide

theorem production_calculateKey (s : Scratch) (n1 n2 : List Nat) :
    ∃ r, calculateKey s n1 n2 productionKey.key2 productionKey.key1 64 = some r :=
  calculateKey_isSome s n1 n2 _ _ 64 (by decide) (by decide) (by decide)

/-- Under the production key `predataProcessing` with length 80 runs exactly two blocks: it
lifts source bytes 0..39 and 40..79 and stores 39 result bytes for each. -/
theorem production_predata (s : Scratch) (n2 n3 source dest : List Nat) :
    ∃ r1 r2,
      calculateKey s n3
        (ofBytes ((source.drop 0).take 40 ++ (toBytes (initBigNumber n2 0 64)).drop 40))
        productionKey.key2 productionKey.key1 64 = some r1 ∧
      calculateKey r1.1 r1.2
        (ofBytes ((source.drop 40).take 40 ++
          (toBytes (initBigNumber (ofBytes ((source.drop 0).take 40 ++
            (toBytes (initBigNumber n2 0 64)).drop 40)) 0 64)).drop 40))
        productionKey.key2 productionKey.key1 64 = some r2 ∧
      predataProcessing productionKey s n2 n3 source 80 dest =
        some ⟨r2.1,
          (dest.take 0 ++ (toBytes r1.2).take 39 ++ dest.drop 39).take 39 ++
            (toBytes r2.2).take 39 ++
            (dest.take 0 ++ (toBytes r1.2).take 39 ++ dest.drop 39).drop 78, 80, 78⟩ := by
  obtain ⟨r1, h1⟩ := production_calculateKey s n3
    (ofBytes ((source.drop 0).take 40 ++ (toBytes (initBigNumber n2 0 64)).drop 40))
  obtain ⟨r2, h2⟩ := production_calculateKey r1.1 r1.2
    (ofBytes ((source.drop 40).take 40 ++
      (toBytes (initBigNumber (ofBytes ((source.drop 0).take 40 ++
        (toBytes (initBigNumber n2 0 64)).drop 40)) 0 64)).drop 40))
  refine ⟨r1, r2, h1, h2, ?_⟩
  unfold predataProcessing
  rw [production_a]
  have e80 : ((80 : Int)).toNat = 78 + 1 + 1 := by decide
  rw [e80]
  unfold predataProcessing.loop
  rw [if_pos (by decide), if_neg (by decide)]
  have e39 : ((39 : Int)).toNat = 39 := by decide
  simp only [e39, h1]
  unfold predataProcessing.loop
  rw [if_pos (by decide), if_neg (by decide)]
  simp only [e39, h2]
  unfold predataProcessing.loop
  rw [if_neg (by decide)]

set_option maxRecDepth 100000 in
theorem initPublicKey_production : initPublicKey PublicKey.zero = some productionKey := by
  decide

/-- C8 (amended): for the production modulus and the 80-byte source, `predataProcessing`
writes 78 bytes to its destination, 39 for each of its two blocks; the entry point then copies
the first 56 bytes of that buffer into the 56-byte result. -/
theorem production_writes_78 (s : Scratch) (n2 n3 key source : List Nat) :
    ∃ r, predataProcessing productionKey s n2 n3 (source.take 80) 80 key = some r ∧
      r.written = 2 * 39 ∧
      getBlowfishKey productionKey s n2 n3 key source = some (r.dest.take 56) := by
  obtain ⟨r1, r2, _, _, h3⟩ := production_predata s n2 n3 (source.take 80) key
  refine ⟨_, h3, rfl, ?_⟩
  unfold getBlowfishKey
  have hlen : predataLength productionKey = some 80 := by decide
  simp only [hlen, h3]

set_option maxRecDepth 1000000 in
/-- C8 as stated fails: on the all-zero 80-byte source, from zeroed statics, the destination
pointer of `predataProcessing` has advanced by 78 bytes, not 56. -/
theorem production_writes_counterexample :
    (predataProcessing productionKey Scratch.zero (List.replicate 64 0) (List.replicate 64 0)
        (List.replicate 80 0) 80 (List.replicate 256 0)).map (fun r => r.written) = some 78 ∧
      (78 : Nat) ≠ 56 := by
  decide

/-! ## Agreement on a prefix

The statics and the result arrays are read only after they have been written.  The lemmas
below follow two runs of an operation on arrays that agree on their first `k` elements. -/

theorem Agree.rfl' {k : Nat} {x : List Nat} : Agree k x x := Eq.refl _

theorem Agree.of_zero {x y : List Nat} : Agree 0 x y := by simp [Agree]

theorem Agree.mono {k j : Nat} {x y : List Nat} (h : Agree k x y) (hj : j ≤ k) : Agree j x y := by
  unfold Agree at *
  have := congrArg (List.take j) h
  rwa [List.take_take, List.take_take, Nat.min_eq_left hj] at this

theorem Agree.set_both {k : Nat} {x y : List Nat} (h : Agree k x y) (i v : Nat) :
    Agree k (x.set i v) (y.set i v) := by
  unfold Agree at *
  rw [List.set_take, List.set_take, h]

theorem Agree.getD_eq {k : Nat} {x y : List Nat} (h : Agree k x y) {i : Nat} (hi : i < k) :
    x.getD i 0 = y.getD i 0 := by
  unfold Agree at h
  rw [List.getD_eq_getElem?_getD, List.getD_eq_getElem?_getD, ← List.getElem?_take_of_lt hi, h,
    List.getElem?_take_of_lt hi]

theorem Agree.length_le {k : Nat} {x y : List Nat} (h : Agree k x y) (hx : k ≤ x.length) :
    k ≤ y.length := by
  unfold Agree at h
  have := congrArg List.length h
  simp only [List.length_take] at this
  omega

theorem Agree.of_take {k : Nat} {x y : List Nat} (h : x.take k = y.take k) : Agree k x y := h

theorem Agree.cons_agree_iff {k : Nat} {w v : Nat} {x y : List Nat} :
    Agree (k + 1) (w :: x) (v :: y) ↔ w = v ∧ Agree k x y := by
  unfold Agree
  simp [List.take_succ_cons]

theorem Agree.append_left {k : Nat} {a b x y : List Nat} (hab : a = b)
    (h : Agree (k - a.length) x y) : Agree k (a ++ x) (b ++ y) := by
  subst hab
  unfold Agree at *
  rw [List.take_append_eq_append_take, List.take_append_eq_append_take, h]

theorem agree_toLanes {k : Nat} {x y : List Nat} (h : Agree k x y) :
    Agree (2 * k) (toLanes x) (toLanes y) := by
  unfold Agree at *
  rw [toLanes_take, toLanes_take, h]

theorem ofLanes_take (X : List Nat) (k : Nat) : (ofLanes X).take k = ofLanes (X.take (2 * k)) := by
  match X, k with
  | _, 0 => simp [ofLanes]
  | [], k + 1 => simp [ofLanes]
  | [_], k + 1 =>
    have : 2 * (k + 1) = (2 * k + 1) + 1 := by omega
    rw [this]
    simp [ofLanes]
  | a :: b :: X', k + 1 =>
    have h := ofLanes_take X' k
    have : 2 * (k + 1) = (2 * k + 1) + 1 := by omega
    rw [this]
    simp only [ofLanes, List.take_succ_cons, h]

theorem agree_ofLanes {k : Nat} {X Y : List Nat} (h : Agree (2 * k) X Y) :
    Agree k (ofLanes X) (ofLanes Y) := by
  unfold Agree at *
  rw [ofLanes_take, ofLanes_take, h]

theorem agree_increment :
    ∀ (x y : List Nat) (n k : Nat), Agree k x y →
      Agree k (bignumberIncrement x n) (bignumberIncrement y n) := by
  intro x
  induction x with
  | nil =>
    intro y n k h
    cases k with
    | zero => exact Agree.of_zero
    | succ k =>
      cases y with
      | nil => rfl
      | cons v y => simp [Agree] at h
  | cons w x ih =>
    intro y n k h
    cases k with
    | zero => exact Agree.of_zero
    | succ k =>
      cases y with
      | nil => simp [Agree] at h
      | cons v y =>
        obtain ⟨hwv, hxy⟩ := Agree.cons_agree_iff.1 h
        subst hwv
        unfold bignumberIncrement
        split
        · exact Agree.cons_agree_iff.2 ⟨rfl, ih y _ k hxy⟩
        · exact Agree.cons_agree_iff.2 ⟨rfl, hxy⟩

theorem agree_decrement :
    ∀ (x y : List Nat) (n k : Nat), Agree k x y →
      Agree k (bignumberDecrement x n) (bignumberDecrement y n) := by
  intro x
  induction x with
  | nil =>
    intro y n k h
    cases k with
    | zero => exact Agree.of_zero
    | succ k =>
      cases y with
      | nil => rfl
      | cons v y => simp [Agree] at h
  | cons w x ih =>
    intro y n k h
    cases k with
    | zero => exact Agree.of_zero
    | succ k =>
      cases y with
      | nil => simp [Agree] at h
      | cons v y =>
        obtain ⟨hwv, hxy⟩ := Agree.cons_agree_iff.1 h
        subst hwv
        simp only [bignumberDecrement]
        split
        · exact Agree.cons_agree_iff.2 ⟨rfl, ih y _ k hxy⟩
        · exact Agree.cons_agree_iff.2 ⟨rfl, hxy⟩

theorem agree_not :
    ∀ (x y : List Nat) (n k : Nat), Agree k x y →
      Agree k (bignumberNot x n) (bignumberNot y n) := by
  intro x
  induction x with
  | nil =>
    intro y n k h
    cases k with
    | zero => exact Agree.of_zero
    | succ k =>
      cases y with
      | nil => rfl
      | cons v y => simp [Agree] at h
  | cons w x ih =>
    intro y n k h
    cases k with
    | zero => exact Agree.of_zero
    | succ k =>
      cases y with
      | nil => simp [Agree] at h
      | cons v y =>
        obtain ⟨hwv, hxy⟩ := Agree.cons_agree_iff.1 h
        subst hwv
        cases n with
        | zero => simpa [bignumberNot] using h
        | succ n =>
          simp only [bignumberNot]
          exact Agree.cons_agree_iff.2 ⟨rfl, ih y _ k hxy⟩

theorem agree_negate (x y : List Nat) (n k : Nat) (h : Agree k x y) :
    Agree k (bignumberNegate x n) (bignumberNegate y n) :=
  agree_increment _ _ _ _ (agree_not _ _ _ _ h)

theorem length_increment : ∀ (x : List Nat) (n : Nat), (bignumberIncrement x n).length = x.length := by
  intro x
  induction x with
  | nil => intro n; rfl
  | cons w x ih =>
    intro n
    unfold bignumberIncrement
    split <;> simp [ih]

theorem length_decrement : ∀ (x : List Nat) (n : Nat), (bignumberDecrement x n).length = x.length := by
  intro x
  induction x with
  | nil => intro n; rfl
  | cons w x ih =>
    intro n
    simp only [bignumberDecrement]
    split <;> simp [ih]

theorem length_not : ∀ (x : List Nat) (n : Nat), (bignumberNot x n).length = x.length := by
  intro x
  induction x with
  | nil => intro n; simp [bignumberNot]
  | cons w x ih =>
    intro n
    cases n with
    | zero => rfl
    | succ n => simp [bignumberNot, ih]

theorem length_negate (x : List Nat) (n : Nat) : (bignumberNegate x n).length = x.length := by
  unfold bignumberNegate
  rw [length_increment, length_not]

theorem agree_intLength {k : Nat} {x y : List Nat} (h : Agree k x y) (n : Nat) (hn : n ≤ k) :
    bignumberIntLength x n = bignumberIntLength y n :=
  intLength_congr x y n (fun _ hi => h.getD_eq (by omega))

theorem agree_bitLength {k : Nat} {x y : List Nat} (h : Agree k x y) (n : Nat) (hn : n ≤ k) :
    bignumberBitLength x n = bignumberBitLength y n := by
  unfold bignumberBitLength
  rw [agree_intLength h n hn]
  by_cases h0 : bignumberIntLength y n = 0
  · simp [h0]
  · have hle := intLength_le y n
    simp only [h.getD_eq (by omega : bignumberIntLength y n - 1 < k)]

theorem agree_compare_right (a : List Nat) {k : Nat} {b b' : List Nat} (h : Agree k b b') :
    ∀ n, n ≤ k → bignumberCompare a b n = bignumberCompare a b' n := by
  intro n
  induction n with
  | zero => intro _; rfl
  | succ n ih =>
    intro hn
    unfold bignumberCompare
    rw [h.getD_eq (by omega : n < k), ih (by omega)]

theorem agree_shiftRight_words (i2 limit k : Nat) (hk : limit ≤ k) :
    ∀ (n i1 : Nat) (x y : List Nat), Agree k x y →
      Agree k (bignumberShiftRight.words i2 limit n i1 x)
        (bignumberShiftRight.words i2 limit n i1 y) := by
  intro n
  induction n with
  | zero => intro i1 x y h; exact h
  | succ n ih =>
    intro i1 x y h
    unfold bignumberShiftRight.words
    by_cases hlt : i1 + i2 < limit
    · rw [if_pos hlt, if_pos hlt, h.getD_eq (by omega : i1 + i2 < k)]
      exact ih _ _ _ (h.set_both _ _)
    · rw [if_neg hlt, if_neg hlt]
      exact ih _ _ _ (h.set_both _ _)

theorem agree_shiftRight_bits (s k : Nat) :
    ∀ (n i1 : Nat) (x y : List Nat), i1 + n < k → Agree k x y →
      Agree k (bignumberShiftRight.bits s n i1 x) (bignumberShiftRight.bits s n i1 y) := by
  intro n
  induction n with
  | zero =>
    intro i1 x y hi h
    unfold bignumberShiftRight.bits
    rw [h.getD_eq (by omega : i1 < k)]
    exact h.set_both _ _
  | succ n ih =>
    intro i1 x y hi h
    unfold bignumberShiftRight.bits
    rw [h.getD_eq (by omega : i1 < k), h.getD_eq (by omega : i1 + 1 < k)]
    exact ih _ _ _ (by omega) (h.set_both _ _)

theorem agree_shiftRight (shift limit k : Nat) (hl : 1 ≤ limit) (hk : limit ≤ k)
    (x y : List Nat) (h : Agree k x y) :
    Agree k (bignumberShiftRight x shift limit) (bignumberShiftRight y shift limit) := by
  unfold bignumberShiftRight
  by_cases hi : shift / 32 > 0
  · simp only [hi, if_true]
    have h1 := agree_shiftRight_words (shift / 32) limit k hk limit 0 x y h
    by_cases hs : shift % 32 = 0
    · simp only [hs, if_true]; exact h1
    · simp only [hs, if_false]
      exact agree_shiftRight_bits _ k _ 0 _ _ (by omega) h1
  · simp only [hi, if_false]
    by_cases hs : shift = 0
    · simp only [hs, if_true]; exact h
    · simp only [hs, if_false]
      exact agree_shiftRight_bits _ k _ 0 _ _ (by omega) h

theorem length_shiftRight (x : List Nat) (shift limit : Nat) :
    (bignumberShiftRight x shift limit).length = x.length := by
  unfold bignumberShiftRight
  by_cases hi : shift / 32 > 0
  · simp only [hi, if_true]
    by_cases hs : shift % 32 = 0
    · simp only [hs, if_true, shiftRightWords_length]
    · simp only [hs, if_false, shiftRightBits_length, shiftRightWords_length]
  · simp only [hi, if_false]
    by_cases hs : shift = 0
    · simp only [hs, if_true]
    · simp only [hs, if_false, shiftRightBits_length]

/-! ### Half-word loops -/

theorem agree_subtractLoop (k : Nat) :
    ∀ (n : Nat) (dest dest' : List Nat) (d : Nat) (a a' : List Nat) (s1 : Nat)
      (b b' : List Nat) (s2 carry : Nat), Agree k dest dest' →
      (∀ i, s1 ≤ i → i < s1 + n → a.getD i 0 = a'.getD i 0) →
      (∀ i, s2 ≤ i → i < s2 + n → b.getD i 0 = b'.getD i 0) →
      Agree k (bignumberSubtract.loop n dest d a s1 b s2 carry).1
          (bignumberSubtract.loop n dest' d a' s1 b' s2 carry).1 ∧
        (bignumberSubtract.loop n dest d a s1 b s2 carry).2 =
          (bignumberSubtract.loop n dest' d a' s1 b' s2 carry).2 := by
  intro n
  induction n with
  | zero => intro dest dest' d a a' s1 b b' s2 carry h _ _; exact ⟨h, rfl⟩
  | succ n ih =>
    intro dest dest' d a a' s1 b b' s2 carry h ha hb
    unfold bignumberSubtract.loop
    simp only []
    rw [ha s1 (Nat.le_refl _) (by omega), hb s2 (Nat.le_refl _) (by omega)]
    exact ih _ _ _ _ _ _ _ _ _ _ (h.set_both _ _) (fun i h1 h2 => ha i (by omega) (by omega))
      (fun i h1 h2 => hb i (by omega) (by omega))

theorem length_subtractLoop :
    ∀ (n : Nat) (dest : List Nat) (d : Nat) (a : List Nat) (s1 : Nat) (b : List Nat)
      (s2 carry : Nat), (bignumberSubtract.loop n dest d a s1 b s2 carry).1.length = dest.length := by
  intro n
  induction n with
  | zero => intro dest d a s1 b s2 carry; rfl
  | succ n ih =>
    intro dest d a s1 b s2 carry
    unfold bignumberSubtract.loop
    simp only []
    rw [ih]; simp

theorem agree_multiplyWordLoop (w k : Nat) :
    ∀ (n : Nat) (dest dest' : List Nat) (d : Nat) (src src' : List Nat) (s1 temp : Nat),
      Agree k dest dest' → d + n < k →
      (∀ i, s1 ≤ i → i < s1 + n → src.getD i 0 = src'.getD i 0) →
      Agree k (bignumberMultiplyWord.loop w n dest d src s1 temp)
        (bignumberMultiplyWord.loop w n dest' d src' s1 temp) := by
  intro n
  induction n with
  | zero =>
    intro dest dest' d src src' s1 temp h hd _
    unfold bignumberMultiplyWord.loop
    rw [h.getD_eq (by omega : d < k)]
    exact h.set_both _ _
  | succ n ih =>
    intro dest dest' d src src' s1 temp h hd hs
    unfold bignumberMultiplyWord.loop
    simp only []
    rw [h.getD_eq (by omega : d < k), hs s1 (Nat.le_refl _) (by omega)]
    exact ih _ _ _ _ _ _ _ (h.set_both _ _) (by omega)
      (fun i h1 h2 => hs i (by omega) (by omega))

theorem length_multiplyWordLoop (w : Nat) :
    ∀ (n : Nat) (dest : List Nat) (d : Nat) (src : List Nat) (s1 temp : Nat),
      (bignumberMultiplyWord.loop w n dest d src s1 temp).length = dest.length := by
  intro n
  induction n with
  | zero => intro dest d src s1 temp; simp [bignumberMultiplyWord.loop]
  | succ n ih =>
    intro dest d src s1 temp
    unfold bignumberMultiplyWord.loop
    simp only []
    rw [ih]; simp

theorem agree_multiplyLoop (limit k : Nat) (a a' b b' : List Nat)
    (ha : ∀ i, i < limit * 2 → a.getD i 0 = a'.getD i 0)
    (hb : ∀ i, i < limit * 2 → b.getD i 0 = b'.getD i 0) :
    ∀ (n i : Nat) (H H' : List Nat), Agree k H H' → i + n + limit * 2 ≤ k →
      i + n ≤ limit * 2 →
      Agree k (bignumberMultiply.loop a limit n i H b) (bignumberMultiply.loop a' limit n i H' b') := by
  intro n
  induction n with
  | zero => intro i H H' h _ _; exact h
  | succ n ih =>
    intro i H H' h hk hi
    unfold bignumberMultiply.loop bignumberMultiplyWord
    rw [hb i (by omega)]
    exact ih _ _ _ (agree_multiplyWordLoop _ k _ _ _ _ _ _ _ _ h (by omega)
      (fun j _ h2 => ha j (by omega))) (by omega) (by omega)

theorem length_multiplyLoop (limit : Nat) (a b : List Nat) :
    ∀ (n i : Nat) (H : List Nat), (bignumberMultiply.loop a limit n i H b).length = H.length := by
  intro n
  induction n with
  | zero => intro i H; rfl
  | succ n ih =>
    intro i H
    unfold bignumberMultiply.loop bignumberMultiplyWord
    rw [ih, length_multiplyWordLoop]
theorem Agree.set_left {k : Nat} {x y : List Nat} (h : Agree k x y) {i : Nat} (hi : k ≤ i)
    (v : Nat) : Agree k (x.set i v) y := by
  unfold Agree at *
  rw [List.set_take, List.set_eq_of_length_le (by simp; omega), h]

theorem Agree.symm' {k : Nat} {x y : List Nat} (h : Agree k x y) : Agree k y x := Eq.symm h

theorem Agree.trans' {k : Nat} {x y z : List Nat} (h : Agree k x y) (h' : Agree k y z) :
    Agree k x z := Eq.trans h h'

theorem Agree.set_far {k : Nat} {x y : List Nat} (h : Agree k x y) {i : Nat} (hi : k ≤ i)
    (v w : Nat) : Agree k (x.set i v) (y.set i w) :=
  (h.set_left hi v).trans' ((h.symm'.set_left hi w).trans' h).symm' |>.trans' Agree.rfl'

theorem agree_getMulShort {k : Nat} {s t : Scratch} {g g' : List Nat} (h : Agree k g g')
    (hlo : s.g1hiinvlo = t.g1hiinvlo) (hhi : s.g1hiinvhi = t.g1hiinvhi)
    (hb : s.g1hibitlength = t.g1hibitlength) {wn : Nat} (hwn : wn < k) :
    getMulShort s g wn = getMulShort t g' wn := by
  unfold getMulShort
  rw [h.getD_eq hwn, h.getD_eq (by omega : wn - 1 < k), h.getD_eq (by omega : wn - 2 < k),
    hlo, hhi, hb]

theorem agree_reductionLoop (L k : Nat) (s t : Scratch) (hc : SameContext L s t) :
    ∀ (n : Nat) (g g' : List Nat) (esi edi : Nat), Agree k g g' →
      esi - 1 + L * 2 < k → edi - 1 < k →
      Agree k (calculateBigNumber.loop s L n g esi edi)
        (calculateBigNumber.loop t L n g' esi edi) := by
  obtain ⟨hg1, _, hlo, hhi, hb⟩ := hc
  have hm : ∀ i, i < L * 2 → (toLanes s.global1).getD i 0 = (toLanes t.global1).getD i 0 :=
    fun i hi => (agree_toLanes hg1).getD_eq (by omega)
  intro n
  induction n with
  | zero => intro g g' esi edi h _ _; exact h
  | succ n ih =>
    intro g g' esi edi h he hd
    unfold calculateBigNumber.loop
    simp only []
    rw [agree_getMulShort h hlo hhi hb hd]
    refine ih _ _ _ _ ?_ (by omega) (by omega)
    by_cases h0 : getMulShort t g' (edi - 1) > 0
    · simp only [if_pos h0]
      have hw : Agree k
          (bignumberMultiplyWord g (esi - 1) (toLanes s.global1) (getMulShort t g' (edi - 1)) (L * 2))
          (bignumberMultiplyWord g' (esi - 1) (toLanes t.global1) (getMulShort t g' (edi - 1))
            (L * 2)) :=
        agree_multiplyWordLoop _ k _ _ _ _ _ _ _ _ h he (fun i _ hi => hm i (by omega))
      rw [hw.getD_eq hd]
      split
      · have hsub := agree_subtractLoop k (L + L) _ _ (esi - 1) _ _ (esi - 1) _ _ 0 0 hw
          (fun i _ hi => hw.getD_eq (by omega)) (fun i _ hi => hm i (by omega))
        unfold bignumberSubtract
        rw [hsub.2]
        split
        · rw [hsub.1.getD_eq hd]
          exact hsub.1.set_both _ _
        · exact hsub.1
      · exact hw
    · simp only [if_neg h0]
      exact h

theorem length_reductionLoop (s : Scratch) (L : Nat) :
    ∀ (n : Nat) (g : List Nat) (esi edi : Nat),
      (calculateBigNumber.loop s L n g esi edi).length = g.length := by
  intro n
  induction n with
  | zero => intro g esi edi; rfl
  | succ n ih =>
    intro g esi edi
    unfold calculateBigNumber.loop
    simp only []
    rw [ih]
    split
    · split
      · unfold bignumberSubtract
        split
        · rw [List.length_set, length_subtractLoop]
          exact length_multiplyWordLoop _ _ _ _ _ _ _
        · rw [length_subtractLoop]
          exact length_multiplyWordLoop _ _ _ _ _ _ _
      · exact length_multiplyWordLoop _ _ _ _ _ _ _
    · rfl

theorem length_initBigNumber (x : List Nat) (v n : Nat) :
    (initBigNumber x v n).length = n + (x.length - n) := by
  simp [initBigNumber]

theorem agree_initBigNumber (x y : List Nat) (v n : Nat) :
    Agree n (initBigNumber x v n) (initBigNumber y v n) := by
  unfold initBigNumber
  refine Agree.set_both ?_ _ _
  unfold Agree
  rw [List.take_append_of_le_length (by simp), List.take_append_of_le_length (by simp)]

theorem agree_multiply (d d' a b : List Nat) (L : Nat) :
    Agree (2 * L) (bignumberMultiply d a b L) (bignumberMultiply d' a b L) := by
  unfold bignumberMultiply
  refine agree_ofLanes ?_
  refine agree_multiplyLoop L (2 * (2 * L)) _ _ _ _ (fun _ _ => rfl) (fun _ _ => rfl) _ _ _ _ ?_
    (by omega) (by omega)
  have := agree_toLanes (agree_initBigNumber d d' 0 (L * 2))
  have e : 2 * (L * 2) = 2 * (2 * L) := by omega
  rwa [e] at this

theorem length_multiply (d a b : List Nat) (L : Nat) (hd : 2 * L ≤ d.length) :
    (bignumberMultiply d a b L).length = d.length := by
  unfold bignumberMultiply
  rw [ofLanes_length, length_multiplyLoop, toLanes_length, length_initBigNumber]
  omega

theorem intLength_succ_zero (x : List Nat) (n : Nat) (h : x.getD n 0 = 0) :
    bignumberIntLength x (n + 1) = bignumberIntLength x n := by
  show (if x.getD n 0 = 0 then bignumberIntLength x n else n + 1) = _
  rw [if_pos h]

theorem intLength_le_length (x : List Nat) (n : Nat) : bignumberIntLength x n ≤ x.length := by
  induction n with
  | zero => exact Nat.zero_le _
  | succ n ih =>
    show (if x.getD n 0 = 0 then bignumberIntLength x n else n + 1) ≤ _
    split
    · exact ih
    · rename_i h
      by_contra hlt
      exact h (List.getD_eq_default _ _ (by omega))

theorem Agree.set_next {k : Nat} {x y : List Nat} (h : Agree k x y) (hx : k < x.length)
    (hy : k < y.length) (v : Nat) : Agree (k + 1) (x.set k v) (y.set k v) := by
  unfold Agree at *
  rw [List.take_succ, List.take_succ, List.set_take, List.set_take, h]
  simp [hx, hy]

theorem agree_calculateBigNumber_global2 (L : Nat) (s t : Scratch) (hc : SameContext L s t)
    (hs : s.global2.length = 130) (ht : t.global2.length = 130) (hL : L ≤ 64)
    (hg : 2 * L ≤ s.g1lengthx2 + 1) (n1 n2 n3 : List Nat) :
    Agree (2 * L + 1) (calculateBigNumber s n1 n2 n3 L).1.global2
      (calculateBigNumber t n1 n2 n3 L).1.global2 := by
  have hl2 := hc.2.1
  have hM := agree_multiply s.global2 t.global2 n2 n3 L
  have hMs := length_multiply s.global2 n2 n3 L (by omega)
  have hMt := length_multiply t.global2 n2 n3 L (by omega)
  unfold calculateBigNumber
  simp only []
  generalize bignumberMultiply s.global2 n2 n3 L = M at *
  generalize bignumberMultiply t.global2 n2 n3 L = M' at *
  have e2 : L * 2 = 2 * L := by omega
  rw [e2]
  have h0 : Agree (2 * L + 1) (M.set (2 * L) 0) (M'.set (2 * L) 0) :=
    hM.set_next (by omega) (by omega) 0
  have hz : (M'.set (2 * L) 0).getD (2 * L) 0 = 0 := by
    rw [getD_set, if_pos ⟨rfl, by omega⟩]
  have hi : bignumberIntLength (M'.set (2 * L) 0) (2 * L + 1) ≤ 2 * L := by
    rw [intLength_succ_zero _ _ hz]
    exact intLength_le _ _
  rw [agree_intLength h0 _ (Nat.le_refl _), ← hl2]
  generalize M.set (2 * L) 0 = X at *
  generalize M'.set (2 * L) 0 = X' at *
  generalize bignumberIntLength X' (2 * L + 1) = il at *
  split
  · refine agree_decrement _ _ _ _ (agree_negate _ _ _ _ (agree_ofLanes ?_))
    refine agree_reductionLoop L _ s t hc _ _ _ _ _
      (agree_toLanes (agree_negate _ _ _ _ (agree_increment _ _ _ _ h0))) (by omega) (by omega)
  · exact h0
theorem length_calculateBigNumber_global2 (L : Nat) (s : Scratch) (hs : s.global2.length = 130)
    (hL : L ≤ 64) (n1 n2 n3 : List Nat) :
    (calculateBigNumber s n1 n2 n3 L).1.global2.length = 130 := by
  have hMs := length_multiply s.global2 n2 n3 L (by omega)
  unfold calculateBigNumber
  simp only []
  split
  · rw [length_decrement, length_negate, ofLanes_length, length_reductionLoop, toLanes_length,
      length_negate, length_increment, List.length_set, hMs, hs]
  · rw [List.length_set, hMs, hs]

theorem calculateBigNumber_snd (s : Scratch) (n1 n2 n3 : List Nat) (L : Nat) :
    (calculateBigNumber s n1 n2 n3 L).2 =
      bignumberMove n1 (calculateBigNumber s n1 n2 n3 L).1.global2 L := rfl

theorem calculateBigNumber_context (s : Scratch) (n1 n2 n3 : List Nat) (L : Nat) :
    SameContext L (calculateBigNumber s n1 n2 n3 L).1 s ∧
      (calculateBigNumber s n1 n2 n3 L).1.g1lengthx2 = s.g1lengthx2 :=
  ⟨⟨Agree.rfl', rfl, rfl, rfl, rfl⟩, rfl⟩

theorem SameContext.flip {L : Nat} {s t : Scratch} (h : SameContext L s t) :
    SameContext L t s :=
  ⟨h.1.symm', h.2.1.symm, h.2.2.1.symm, h.2.2.2.1.symm, h.2.2.2.2.symm⟩

theorem SameContext.chain {L : Nat} {s t u : Scratch} (h : SameContext L s t)
    (h' : SameContext L t u) : SameContext L s u :=
  ⟨h.1.trans' h'.1, h.2.1.trans h'.2.1, h.2.2.1.trans h'.2.2.1, h.2.2.2.1.trans h'.2.2.2.1,
    h.2.2.2.2.trans h'.2.2.2.2⟩

theorem agree_move (d x y : List Nat) (L : Nat) (h : Agree L x y) :
    bignumberMove d x L = bignumberMove d y L := by
  unfold bignumberMove
  rw [show x.take L = y.take L from h]

theorem length_move (d x : List Nat) (L : Nat) (hx : L ≤ x.length) (hd : L ≤ d.length) :
    (bignumberMove d x L).length = d.length := by
  unfold bignumberMove
  rw [List.length_append, List.length_take, List.length_drop]
  omega

/-- Two runs of `calculateBigNumber` from scratch states with the same reduction context
return the same array and leave the same context. -/
theorem agree_calculateBigNumber (L : Nat) (s t : Scratch) (hc : SameContext L s t)
    (hs : s.global2.length = 130) (ht : t.global2.length = 130) (hL : L ≤ 64)
    (hg : 2 * L ≤ s.g1lengthx2 + 1) (n1 n2 n3 : List Nat) :
    (calculateBigNumber s n1 n2 n3 L).2 = (calculateBigNumber t n1 n2 n3 L).2 ∧
      SameContext L (calculateBigNumber s n1 n2 n3 L).1 (calculateBigNumber t n1 n2 n3 L).1 ∧
      (calculateBigNumber s n1 n2 n3 L).1.global2.length = 130 ∧
      (calculateBigNumber t n1 n2 n3 L).1.global2.length = 130 ∧
      2 * L ≤ (calculateBigNumber s n1 n2 n3 L).1.g1lengthx2 + 1 := by
  refine ⟨?_, ?_, length_calculateBigNumber_global2 L s hs hL _ _ _,
    length_calculateBigNumber_global2 L t ht hL _ _ _, ?_⟩
  · rw [calculateBigNumber_snd, calculateBigNumber_snd]
    exact agree_move _ _ _ _
      ((agree_calculateBigNumber_global2 L s t hc hs ht hL hg n1 n2 n3).mono (by omega))
  · exact (calculateBigNumber_context s n1 n2 n3 L).1.chain
      (hc.chain (calculateBigNumber_context t n1 n2 n3 L).1.flip)
  · rw [(calculateBigNumber_context s n1 n2 n3 L).2]; exact hg

theorem length_calculateBigNumber_snd (L : Nat) (s : Scratch) (hs : s.global2.length = 130)
    (hL : L ≤ 64) (n1 n2 n3 : List Nat) (h1 : L ≤ n1.length) :
    (calculateBigNumber s n1 n2 n3 L).2.length = n1.length := by
  rw [calculateBigNumber_snd]
  exact length_move _ _ _ (by rw [length_calculateBigNumber_global2 L s hs hL]; omega) h1

/-- Two runs of the square-and-multiply loop from scratch states with the same reduction
context return the same arrays. -/
theorem agree_calculateKeyLoop (n2 n3 : List Nat) (L : Nat) (hL : L ≤ 64) :
    ∀ (n : Nat) (s t : Scratch) (n1 temp : List Nat) (n3i bitmask : Nat),
      SameContext L s t → s.global2.length = 130 → t.global2.length = 130 →
      2 * L ≤ s.g1lengthx2 + 1 →
      (calculateKey.loop n2 n3 L n s n1 temp n3i bitmask).2 =
          (calculateKey.loop n2 n3 L n t n1 temp n3i bitmask).2 ∧
        (calculateKey.loop n2 n3 L n s n1 temp n3i bitmask).1.global2.length = 130 ∧
        (calculateKey.loop n2 n3 L n t n1 temp n3i bitmask).1.global2.length = 130 := by
  intro n
  induction n with
  | zero => intro s t n1 temp n3i bitmask _ hs ht _; exact ⟨rfl, hs, ht⟩
  | succ n ih =>
    intro s t n1 temp n3i bitmask hc hs ht hg
    unfold calculateKey.loop
    simp only []
    obtain ⟨e1, c1, s1, t1, g1⟩ := agree_calculateBigNumber L s t hc hs ht hL hg temp n1 n1
    rw [← e1]
    generalize (if bitmask = 0 then n3i - 1 else n3i) = i'
    generalize (if bitmask = 0 then 2147483648 else bitmask) = b'
    by_cases hbit : n3.getD i' 0 &&& b' ≠ 0
    on_goal 1 => simp only [if_pos hbit]
    on_goal 2 => simp only [if_neg hbit]
    · obtain ⟨e2, c2, s2, t2, g2⟩ := agree_calculateBigNumber L _ _ c1 s1 t1 hL g1 n1
        (calculateBigNumber s temp n1 n1 L).2 n2
      rw [← e2]
      exact ih _ _ _ _ _ _ c2 s2 t2 g2
    · exact ih _ _ _ _ _ _ c1 s1 t1 g1

theorem length_calculateKeyLoop (n2 n3 : List Nat) (L : Nat) (hL : L ≤ 64) :
    ∀ (n : Nat) (s : Scratch) (n1 temp : List Nat) (n3i bitmask : Nat),
      s.global2.length = 130 → L ≤ n1.length → L ≤ temp.length →
      (calculateKey.loop n2 n3 L n s n1 temp n3i bitmask).2.1.length = n1.length := by
  intro n
  induction n with
  | zero => intro s n1 temp n3i bitmask _ _ _; rfl
  | succ n ih =>
    intro s n1 temp n3i bitmask hs h1 ht
    unfold calculateKey.loop
    simp only []
    have s1 := length_calculateBigNumber_global2 L s hs hL temp n1 n1
    have l1 := length_calculateBigNumber_snd L s hs hL temp n1 n1 ht
    generalize (if bitmask = 0 then n3i - 1 else n3i) = i'
    generalize (if bitmask = 0 then 2147483648 else bitmask) = b'
    by_cases hbit : n3.getD i' 0 &&& b' ≠ 0
    on_goal 1 => simp only [if_pos hbit]
    on_goal 2 => simp only [if_neg hbit]
    · have s2 := length_calculateBigNumber_global2 L _ s1 hL n1
        (calculateBigNumber s temp n1 n1 L).2 n2
      have l2 := length_calculateBigNumber_snd L _ s1 hL n1
        (calculateBigNumber s temp n1 n1 L).2 n2 h1
      rw [ih _ _ _ _ _ s2 (by omega) (by omega), l2]
    · have l2 : (bignumberMove n1 (calculateBigNumber s temp n1 n1 L).2 L).length = n1.length :=
        length_move _ _ _ (by omega) h1
      rw [ih _ _ _ _ _ s1 (by omega) (by omega), l2]
theorem Agree.eq_of_length {k : Nat} {x y : List Nat} (h : Agree k x y) (hx : x.length ≤ k)
    (hy : y.length ≤ k) : x = y := by
  unfold Agree at h
  rwa [List.take_of_length_le hx, List.take_of_length_le hy] at h

theorem Agree.drop_take {k : Nat} {x y : List Nat} (h : Agree k x y) (a b : Nat)
    (hab : a + b ≤ k) : (x.drop a).take b = (y.drop a).take b := by
  rw [List.take_drop, List.take_drop, show x.take (a + b) = y.take (a + b) from h.mono hab]

/-! ### The reciprocal and the reduction context -/

theorem agree_inverseLoop (L k : Nat) (src src' : List Nat) (hsrc : Agree L src src') :
    ∀ (n : Nat) (temp dest dest' : List Nat) (d bit : Nat), Agree k dest dest' →
      Agree k (bignumberInverse.loop src L n temp dest d bit)
        (bignumberInverse.loop src' L n temp dest' d bit) := by
  have hsub : ∀ T : List Nat,
      (bignumberSubtract (toLanes T) 0 (toLanes T) 0 (toLanes src) 0 0 L).1 =
        (bignumberSubtract (toLanes T) 0 (toLanes T) 0 (toLanes src') 0 0 L).1 := by
    intro T
    unfold bignumberSubtract
    have h := (agree_subtractLoop (toLanes T).length (L + L) (toLanes T) (toLanes T) 0
      (toLanes T) (toLanes T) 0 (toLanes src) (toLanes src') 0 0 Agree.rfl' (fun _ _ _ => rfl)
      (fun i _ hi => (agree_toLanes hsrc).getD_eq (by omega))).1
    exact h.eq_of_length (by rw [length_subtractLoop]) (by rw [length_subtractLoop])
  intro n
  induction n with
  | zero => intro temp dest dest' d bit h; exact h
  | succ n ih =>
    intro temp dest dest' d bit h
    unfold bignumberInverse.loop
    simp only []
    rw [← agree_compare_right _ hsrc L (Nat.le_refl _), ← hsub]
    have hd : Agree k
        (if bignumberCompare (bignumberShiftLeft temp 1 L) src L ≠ -1 then
          dest.set d (dest.getD d 0 ||| bit) else dest)
        (if bignumberCompare (bignumberShiftLeft temp 1 L) src L ≠ -1 then
          dest'.set d (dest'.getD d 0 ||| bit) else dest') := by
      split
      · by_cases hdk : d < k
        · rw [h.getD_eq hdk]; exact h.set_both _ _
        · exact h.set_far (by omega) _ _
      · exact h
    split
    · exact ih _ _ _ _ _ hd
    · exact ih _ _ _ _ _ hd

theorem agree_inverse (L : Nat) (dest dest' src src' : List Nat) (hsrc : Agree L src src') :
    Agree L (bignumberInverse dest src L) (bignumberInverse dest' src' L) := by
  unfold bignumberInverse
  simp only []
  rw [agree_bitLength hsrc L (Nat.le_refl _)]
  exact agree_inverseLoop L L src src' hsrc _ _ _ _ _ _ (agree_initBigNumber _ _ _ _)

theorem agree_move_left (d d' x : List Nat) (L : Nat) (hx : L ≤ x.length) :
    Agree L (bignumberMove d x L) (bignumberMove d' x L) := by
  unfold bignumberMove Agree
  rw [List.take_append_of_le_length (by simp; omega),
    List.take_append_of_le_length (by simp; omega)]

theorem agree_move_source (d x : List Nat) (L : Nat) (hx : L ≤ x.length) :
    Agree L (bignumberMove d x L) x := by
  unfold bignumberMove Agree
  rw [List.take_append_of_le_length (by simp; omega), List.take_take, Nat.min_self]

theorem length_move_ge (d x : List Nat) (L : Nat) (hx : L ≤ x.length) :
    L ≤ (bignumberMove d x L).length := by
  unfold bignumberMove
  rw [List.length_append, List.length_take]
  omega

/-- Two runs of `initTwoInts` for the same modulus from any two scratch states: both have a
result or neither has, and the results hold the same reduction context. -/
theorem agree_initTwoInts (s t : Scratch) (m : List Nat) (L : Nat) (hL : L ≤ m.length)
    (hi : bignumberIntLength m L = L) :
    (initTwoInts s m L = none ∧ initTwoInts t m L = none) ∨
      ∃ s' t', initTwoInts s m L = some s' ∧ initTwoInts t m L = some t' ∧
        SameContext L s' t' ∧ s'.global2 = s.global2 ∧ t'.global2 = t.global2 ∧
        s'.g1lengthx2 = (bignumberBitLength m L + 15) / 16 := by
  unfold initTwoInts
  simp only [intLength_move _ _ _ hL, hi]
  by_cases h2 : L < 2
  · left; simp only [if_pos h2, and_self]
  · right
    simp only [if_neg h2]
    refine ⟨_, _, rfl, rfl, ?_, rfl, rfl, ?_⟩
    · have hG : Agree L (bignumberMove s.global1 m L) (bignumberMove t.global1 m L) :=
        agree_move_left _ _ _ _ hL
      have hH : Agree 2 (bignumberMove s.g1hi ((bignumberMove s.global1 m L).drop (L - 2)) 2)
          (bignumberMove t.g1hi ((bignumberMove t.global1 m L).drop (L - 2)) 2) := by
        have e := hG.drop_take (L - 2) 2 (by omega)
        have hlen : ((bignumberMove s.global1 m L).drop (L - 2)).length ≥ 2 := by
          have := length_move_ge s.global1 m L hL
          rw [List.length_drop]; omega
        unfold bignumberMove at e ⊢
        rw [e]
        refine Agree.append_left rfl ?_
        have : ((List.drop (L - 2) (List.take L m ++ List.drop L t.global1)).take 2).length = 2 := by
          rw [← e, List.length_take]
          unfold bignumberMove at hlen
          omega
        rw [this]
        exact Agree.of_zero
      have hb := agree_bitLength hH 2 (Nat.le_refl _)
      have hH1 := agree_shiftRight
        (bignumberBitLength (bignumberMove s.g1hi ((bignumberMove s.global1 m L).drop (L - 2)) 2) 2
          - 32) 2 2 (by omega) (Nat.le_refl _) _ _ hH
      have hI := agree_increment _ _ 2 2 (agree_shiftRight 1 2 2 (by omega) (Nat.le_refl _) _ _
        (agree_inverse 2 s.g1hiinv t.g1hiinv _ _ hH1))
      have hov := agree_bitLength hI 2 (Nat.le_refl _)
      rw [hb] at hH1 hI hov
      have hI3 : Agree 2
          (if bignumberBitLength (bignumberIncrement (bignumberShiftRight (bignumberInverse
              s.g1hiinv (bignumberShiftRight (bignumberMove s.g1hi
                ((bignumberMove s.global1 m L).drop (L - 2)) 2)
              (bignumberBitLength (bignumberMove t.g1hi
                ((bignumberMove t.global1 m L).drop (L - 2)) 2) 2 - 32) 2) 2) 1 2) 2) 2 > 32
            then bignumberShiftRight (bignumberIncrement (bignumberShiftRight (bignumberInverse
              s.g1hiinv (bignumberShiftRight (bignumberMove s.g1hi
                ((bignumberMove s.global1 m L).drop (L - 2)) 2)
              (bignumberBitLength (bignumberMove t.g1hi
                ((bignumberMove t.global1 m L).drop (L - 2)) 2) 2 - 32) 2) 2) 1 2) 2) 1 2
            else bignumberIncrement (bignumberShiftRight (bignumberInverse
              s.g1hiinv (bignumberShiftRight (bignumberMove s.g1hi
                ((bignumberMove s.global1 m L).drop (L - 2)) 2)
              (bignumberBitLength (bignumberMove t.g1hi
                ((bignumberMove t.global1 m L).drop (L - 2)) 2) 2 - 32) 2) 2) 1 2) 2)
          (if bignumberBitLength (bignumberIncrement (bignumberShiftRight (bignumberInverse
              t.g1hiinv (bignumberShiftRight (bignumberMove t.g1hi
                ((bignumberMove t.global1 m L).drop (L - 2)) 2)
              (bignumberBitLength (bignumberMove t.g1hi
                ((bignumberMove t.global1 m L).drop (L - 2)) 2) 2 - 32) 2) 2) 1 2) 2) 2 > 32
            then bignumberShiftRight (bignumberIncrement (bignumberShiftRight (bignumberInverse
              t.g1hiinv (bignumberShiftRight (bignumberMove t.g1hi
                ((bignumberMove t.global1 m L).drop (L - 2)) 2)
              (bignumberBitLength (bignumberMove t.g1hi
                ((bignumberMove t.global1 m L).drop (L - 2)) 2) 2 - 32) 2) 2) 1 2) 2) 1 2
            else bignumberIncrement (bignumberShiftRight (bignumberInverse
              t.g1hiinv (bignumberShiftRight (bignumberMove t.g1hi
                ((bignumberMove t.global1 m L).drop (L - 2)) 2)
              (bignumberBitLength (bignumberMove t.g1hi
                ((bignumberMove t.global1 m L).drop (L - 2)) 2) 2 - 32) 2) 2) 1 2) 2) := by
        rw [hov]
        split
        · exact agree_shiftRight 1 2 2 (by omega) (Nat.le_refl _) _ _ hI
        · exact hI
      have hI4 := agree_toLanes hI3
      unfold SameContext
      dsimp only
      refine ⟨hG, ?_, ?_, ?_, ?_⟩
      · rw [agree_bitLength hG L (Nat.le_refl _)]
      · rw [hb]
        exact hI4.getD_eq (by omega)
      · rw [hb]
        exact hI4.getD_eq (by omega)
      · rw [hb, hov]
    · dsimp only
      rw [agree_bitLength (agree_move_source s.global1 m L hL) L (Nat.le_refl _)]
theorem g1lengthx2_bound (m : List Nat) (hm : Words m) (L : Nat) (hi : bignumberIntLength m L = L)
    (h1 : 1 ≤ L) : 2 * L ≤ (bignumberBitLength m L + 15) / 16 + 1 := by
  have h := bitLength_eq m L hm (by omega)
  rw [hi] at h
  omega

theorem clearTempVars_global2 (s : Scratch) (limit : Nat) (hs : s.global2.length = 130)
    (hl : limit ≤ 130) : (clearTempVars s limit).global2.length = 130 := by
  unfold clearTempVars
  dsimp only
  rw [length_initBigNumber]
  omega

theorem initBigNumber_of_length (x : List Nat) (v n : Nat) (hx : x.length ≤ n) :
    initBigNumber x v n = (List.replicate n 0).set 0 v := by
  unfold initBigNumber
  rw [List.drop_eq_nil_of_le hx, List.append_nil]

/-- Two runs of `calculateKey` on the same numbers, from any two scratch states and with any
two result arrays of at most `limit` words: both have a result or neither has, the results are
the same array of `limit` words, and `global2` keeps its size. -/
theorem agree_calculateKey (s t : Scratch) (n1 n1' n2 n3 n4 : List Nat) (limit : Nat)
    (hs : s.global2.length = 130) (ht : t.global2.length = 130) (hl : limit ≤ 64)
    (h1 : n1.length ≤ limit) (h1' : n1'.length ≤ limit) (h4 : Words n4)
    (h2 : limit ≤ n2.length) :
    (calculateKey s n1 n2 n3 n4 limit = none ∧ calculateKey t n1' n2 n3 n4 limit = none) ∨
      ∃ r r', calculateKey s n1 n2 n3 n4 limit = some r ∧
        calculateKey t n1' n2 n3 n4 limit = some r' ∧ r.2 = r'.2 ∧ r.2.length = limit ∧
        r.1.global2.length = 130 ∧ r'.1.global2.length = 130 := by
  have hL := intLength_le n4 limit
  have hLl := intLength_le_length n4 limit
  have hidem := intLength_idem n4 limit
  unfold calculateKey
  simp only [initBigNumber_of_length _ _ _ h1, initBigNumber_of_length _ _ _ h1']
  generalize bignumberIntLength n4 limit = L at *
  rcases agree_initTwoInts s t n4 L hLl hidem with ⟨e, e'⟩ | ⟨s', t', e, e', hc, g, g', hx⟩
  · left; rw [e, e']; exact ⟨rfl, rfl⟩
  · rw [e, e']
    dsimp only
    by_cases h0 : bignumberBitLength n3 L = 0
    · left; simp only [if_pos h0, and_self]
    · right
      simp only [if_neg h0]
      have hL2 : 2 ≤ L := by
        by_contra hlt
        unfold initTwoInts at e
        simp only [intLength_move _ _ _ hLl, hidem] at e
        rw [if_pos (by omega)] at e
        exact Option.noConfusion e
      have hg : 2 * L ≤ s'.g1lengthx2 + 1 := by
        rw [hx]; exact g1lengthx2_bound n4 h4 L hidem (by omega)
      have hs' : s'.global2.length = 130 := by rw [g]; exact hs
      have ht' : t'.global2.length = 130 := by rw [g']; exact ht
      obtain ⟨k1, k2, k3⟩ := agree_calculateKeyLoop n2 n3 L (by omega)
        (bignumberBitLength n3 L - 1) s' t'
        (bignumberMove ((List.replicate limit 0).set 0 1) n2 L) (List.replicate 64 0)
        ((bignumberBitLength n3 L + 31) / 32 - 1)
        (((1 <<< ((bignumberBitLength n3 L - 1) % 32)) % 4294967296) >>> 1) hc hs' ht' hg
      refine ⟨_, _, rfl, rfl, ?_, ?_, ?_, ?_⟩
      · dsimp only
        rw [k1]
      · dsimp only
        rw [length_calculateKeyLoop n2 n3 L (by omega) _ _ _ _ _ _ hs'
          (by rw [length_move _ _ _ (by omega) (by simp; omega)]; simp; omega) (by simp; omega),
          length_move _ _ _ (by omega) (by simp; omega)]
        simp
      · exact clearTempVars_global2 _ _ k2 (by omega)
      · exact clearTempVars_global2 _ _ k3 (by omega)

/-! ### The derivation driver -/

theorem toBytes_length (x : List Nat) : (toBytes x).length = 4 * x.length := by
  induction x with
  | nil => rfl
  | cons w x ih => simp only [toBytes, List.length_cons, ih]; omega

theorem ofBytes_length : ∀ (x : List Nat), (ofBytes x).length = x.length / 4
  | [] => rfl
  | [_] => by simp [ofBytes]
  | [_, _] => by simp [ofBytes]
  | [_, _, _] => by simp [ofBytes]
  | _ :: _ :: _ :: _ :: x => by
    simp only [ofBytes, List.length_cons, ofBytes_length x]
    omega

theorem Agree.append_block {k : Nat} {x y : List Nat} (h : Agree k x y) (hx : k ≤ x.length)
    (B X Y : List Nat) : Agree (k + B.length) (x.take k ++ B ++ X) (y.take k ++ B ++ Y) := by
  refine Agree.append_left (by rw [show x.take k = y.take k from h]) ?_
  have : k + B.length - (x.take k ++ B).length = 0 := by
    rw [List.length_append, List.length_take]; omega
  rw [this]
  exact Agree.of_zero

/-- Two runs of the loop of `predataProcessing` on the same source, from any two scratch
states and any two destination arrays that agree on the bytes written so far. -/
theorem agree_predataLoop (pk : PublicKey) (a : Int) (source : List Nat) (hk : Words pk.key1)
    (ha : a ≤ 255) :
    ∀ (fuel : Nat) (s t : Scratch) (n2 n2' n3 n3' : List Nat) (sp : Nat) (plen : Int)
      (dest dest' : List Nat) (dp : Nat),
      s.global2.length = 130 → t.global2.length = 130 →
      initBigNumber n2 0 64 = initBigNumber n2' 0 64 → n3.length ≤ 64 → n3'.length ≤ 64 →
      (sp : Int) + plen ≤ source.length → Agree dp dest dest' → dp ≤ dest.length →
      (predataProcessing.loop pk a source fuel s n2 n3 sp plen dest dp = none ∧
          predataProcessing.loop pk a source fuel t n2' n3' sp plen dest' dp = none) ∨
        ∃ r r', predataProcessing.loop pk a source fuel s n2 n3 sp plen dest dp = some r ∧
          predataProcessing.loop pk a source fuel t n2' n3' sp plen dest' dp = some r' ∧
          r.consumed = r'.consumed ∧ r.written = r'.written ∧ Agree r.written r.dest r'.dest := by
  intro fuel
  induction fuel with
  | zero =>
    intro s t n2 n2' n3 n3' sp plen dest dest' dp _ _ _ _ _ _ hd _
    exact Or.inr ⟨_, _, rfl, rfl, rfl, rfl, hd⟩
  | succ fuel ih =>
    intro s t n2 n2' n3 n3' sp plen dest dest' dp hs ht h2 h3 h3' hsrc hd hdl
    unfold predataProcessing.loop
    by_cases hgo : a + 1 ≤ plen
    · simp only [if_pos hgo]
      by_cases hneg : a < 0
      · left; simp only [if_pos hneg, and_self]
      · simp only [if_neg hneg]
        rw [← h2]
        generalize hN : ofBytes ((source.drop sp).take (a.toNat + 1) ++
          (toBytes (initBigNumber n2 0 64)).drop (a.toNat + 1)) = N
        have hNl : 64 ≤ N.length := by
          rw [← hN, ofBytes_length, List.length_append, List.length_take, List.length_drop,
            List.length_drop, toBytes_length, length_initBigNumber]
          omega
        rcases agree_calculateKey s t n3 n3' N pk.key2 pk.key1 64 hs ht (Nat.le_refl _) h3 h3' hk
          hNl with ⟨e, e'⟩ | ⟨r, r', e, e', hr, hrl, hrs, hrt⟩
        · left; rw [e, e']; exact ⟨rfl, rfl⟩
        · rw [e, e']
          dsimp only
          rw [← hr]
          have hB : ((toBytes r.2).take a.toNat).length = a.toNat := by
            rw [List.length_take, toBytes_length, hrl]; omega
          have hd' := hd.append_block hdl ((toBytes r.2).take a.toNat)
            (dest.drop (dp + a.toNat)) (dest'.drop (dp + a.toNat))
          rw [hB] at hd'
          exact ih _ _ N N r.2 r.2 _ _ _ _ _ hrs hrt rfl (by omega) (by omega)
            (by push_cast; omega) hd'
            (by rw [List.length_append, List.length_append, List.length_take, hB]; omega)
    · simp only [if_neg hgo]
      exact Or.inr ⟨_, _, rfl, rfl, rfl, rfl, hd⟩

theorem tdiv_le_of_le (x : Int) (hx : x ≤ 2047) : x.tdiv 8 ≤ 255 := by
  by_cases h0 : 0 ≤ x
  · rw [Int.tdiv_eq_ediv h0 (by decide)]
    omega
  · have h1 : 0 ≤ -x := by omega
    have h2 := Int.tdiv_nonneg h1 (by decide : (0 : Int) ≤ 8)
    rw [Int.neg_tdiv] at h2
    omega

theorem calculateKey_some (s : Scratch) (n1 n2 n3 n4 : List Nat) (limit : Nat)
    (h2 : 2 ≤ bignumberIntLength n4 limit)
    (h3 : bignumberBitLength n3 (bignumberIntLength n4 limit) ≠ 0) :
    ∃ r, calculateKey s n1 n2 n3 n4 limit = some r := by
  obtain ⟨s', hs'⟩ := initTwoInts_isSome s n4 (bignumberIntLength n4 limit)
    (intLength_le_length _ _) (by rw [intLength_idem]; exact h2)
  unfold calculateKey
  simp only [hs', if_neg h3]
  exact ⟨_, rfl⟩

theorem predataLoop_some (pk : PublicKey) (a : Int) (source : List Nat) (ha : 0 ≤ a)
    (h2 : 2 ≤ bignumberIntLength pk.key1 64)
    (h3 : bignumberBitLength pk.key2 (bignumberIntLength pk.key1 64) ≠ 0) :
    ∀ (fuel : Nat) (s : Scratch) (n2 n3 : List Nat) (sp : Nat) (plen : Int) (dest : List Nat)
      (dp : Nat), ∃ r, predataProcessing.loop pk a source fuel s n2 n3 sp plen dest dp = some r := by
  intro fuel
  induction fuel with
  | zero => intro s n2 n3 sp plen dest dp; exact ⟨_, rfl⟩
  | succ fuel ih =>
    intro s n2 n3 sp plen dest dp
    unfold predataProcessing.loop
    by_cases hgo : a + 1 ≤ plen
    · simp only [if_pos hgo, if_neg (by omega : ¬ a < 0)]
      generalize ofBytes ((source.drop sp).take (a.toNat + 1) ++
          (toBytes (initBigNumber n2 0 64)).drop (a.toNat + 1)) = N
      obtain ⟨r, hr⟩ := calculateKey_some s n3 N pk.key2 pk.key1 64 h2 h3
      rw [hr]
      exact ih _ _ _ _ _ _ _
    · simp only [if_neg hgo]
      exact ⟨_, rfl⟩

/-! ## Key derivation does not depend on prior state -/

/-- C4: key derivation is a function of the key and the source alone.  For a public key with
32-bit modulus words and a length field of at most 2048, and any two scratch states whose
`global2` has its declared 130 words: (1) `calculateKey` returns the same array whatever the
64 words of the result array held before; (2) `predataProcessing` on a source holding at
least `predatalength` bytes advances both pointers by the same amounts and writes the same
bytes, whatever the 64-word locals and the destination array held before; (3) when the
modulus has at least two significant words, the exponent has a set bit below the modulus
length, and the length field is not negative, the run has a result. -/
theorem keyDerivation_pure (pk : PublicKey) (s t : Scratch) (hk : Words pk.key1)
    (hlen : pk.length ≤ 2048) (hs : s.global2.length = 130) (ht : t.global2.length = 130) :
    (∀ n1 n1' n2 : List Nat, n1.length = 64 → n1'.length = 64 → n2.length = 64 →
      (calculateKey s n1 n2 pk.key2 pk.key1 64).map Prod.snd =
        (calculateKey t n1' n2 pk.key2 pk.key1 64).map Prod.snd) ∧
    (∀ (source : List Nat) (predatalength : Int) (n2 n2' n3 n3' dest dest' : List Nat),
      predatalength ≤ source.length → n2.length = 64 → n2'.length = 64 → n3.length = 64 →
      n3'.length = 64 →
      (predataProcessing pk s n2 n3 source predatalength dest).map
          (fun r => (r.consumed, r.written, r.dest.take r.written)) =
        (predataProcessing pk t n2' n3' source predatalength dest').map
          (fun r => (r.consumed, r.written, r.dest.take r.written))) ∧
    (2 ≤ bignumberIntLength pk.key1 64 →
      bignumberBitLength pk.key2 (bignumberIntLength pk.key1 64) ≠ 0 → 0 ≤ pk.length →
      ∀ (source : List Nat) (predatalength : Int) (n2 n3 dest : List Nat),
        (predataProcessing pk s n2 n3 source predatalength dest).isSome = true) := by
  refine ⟨?_, ?_, ?_⟩
  · intro n1 n1' n2 h1 h1' h2
    rcases agree_calculateKey s t n1 n1' n2 pk.key2 pk.key1 64 hs ht (Nat.le_refl _)
      (by omega) (by omega) hk (by omega) with ⟨e, e'⟩ | ⟨r, r', e, e', hr, _, _, _⟩
    · rw [e, e']
    · rw [e, e']
      simp only [Option.map_some', hr]
  · intro source plen n2 n2' n3 n3' dest dest' hsrc h2 h2' h3 h3'
    unfold predataProcessing
    rcases agree_predataLoop pk ((pk.length - 1).tdiv 8) source hk
      (tdiv_le_of_le _ (by omega)) plen.toNat s t n2 n2' n3 n3' 0 plen dest dest' 0 hs ht
      (by rw [initBigNumber_of_length _ _ _ (by omega), initBigNumber_of_length _ _ _ (by omega)])
      (by omega) (by omega) (by push_cast; omega) Agree.of_zero (Nat.zero_le _)
      with ⟨e, e'⟩ | ⟨r, r', e, e', hc, hw, hd⟩
    · rw [e, e']
    · rw [e, e']
      simp only [Option.map_some']
      rw [← hc, ← hw, show r.dest.take r.written = r'.dest.take r.written from hd]
  · intro h2 h3 h0 source plen n2 n3 dest
    unfold predataProcessing
    obtain ⟨r, hr⟩ := predataLoop_some pk ((pk.length - 1).tdiv 8) source
      (by
        by_cases h1 : 0 ≤ pk.length - 1
        · exact Int.tdiv_nonneg h1 (by decide)
        · have : pk.length - 1 = -1 := by omega
          rw [this]; decide)
      h2 h3 plen.toNat s n2 n3 0 plen dest 0
    rw [hr]; rfl

/-- C4, witness: the production key, run once from the all-zero statics with zeroed arrays
and once from statics, locals and a destination filled with other data; the run has a
result. -/
theorem keyDerivation_pure_witness :
    Words productionKey.key1 ∧ productionKey.length ≤ 2048 ∧
    (predataProcessing productionKey Scratch.zero (List.replicate 64 0) (List.replicate 64 0)
        (List.range 80) 80 (List.replicate 256 0)).map
          (fun r => (r.consumed, r.written, r.dest.take r.written)) =
      (predataProcessing productionKey
        { global1 := List.replicate 64 0xdeadbeef
          g1bitlength := 77
          g1lengthx2 := 5
          g1hi := List.replicate 4 0xffffffff
          g1hiinv := List.replicate 4 0x12345678
          g1hibitlength := 9
          g1hiinvlo := 0xffff
          g1hiinvhi := 0x8000
          global2 := List.replicate 130 0xffffffff }
        (List.replicate 64 0xffffffff) (List.replicate 64 0xabcdef01) (List.range 80) 80
        (List.replicate 256 0xff)).map
          (fun r => (r.consumed, r.written, r.dest.take r.written)) ∧
    (predataProcessing productionKey Scratch.zero (List.replicate 64 0) (List.replicate 64 0)
        (List.range 80) 80 (List.replicate 256 0)).isSome = true :=
  have h := keyDerivation_pure productionKey Scratch.zero
    { global1 := List.replicate 64 0xdeadbeef
      g1bitlength := 77
      g1lengthx2 := 5
      g1hi := List.replicate 4 0xffffffff
      g1hiinv := List.replicate 4 0x12345678
      g1hibitlength := 9
      g1hiinvlo := 0xffff
      g1hiinvhi := 0x8000
      global2 := List.replicate 130 0xffffffff }
    (by unfold Words; decide) (by decide) (List.length_replicate 130 0)
    (List.length_replicate 130 0xffffffff)
  ⟨by unfold Words; decide, by decide,
    h.2.1 (List.range 80) 80 (List.replicate 64 0) (List.replicate 64 0xffffffff)
      (List.replicate 64 0) (List.replicate 64 0xabcdef01) (List.replicate 256 0)
      (List.replicate 256 0xff) (by simp) (List.length_replicate 64 0)
      (List.length_replicate 64 0xffffffff) (List.length_replicate 64 0)
      (List.length_replicate 64 0xabcdef01),
    h.2.2 (by decide) (by decide) (by decide) (List.range 80) 80 (List.replicate 64 0)
      (List.replicate 64 0) (List.replicate 256 0)⟩

/-! ## Subtraction with borrow on word arrays -/

theorem subtract_words (dest a b : List Nat) (L c : Nat) (ha : Words a) (hb : Words b)
    (hla : a.length = L) (hlb : b.length = L) (hld : L ≤ dest.length) (hc : c ≤ 1) :
    ∃ R c', R.length = L ∧ Words R ∧ c' ≤ 1 ∧
      ofLanes (bignumberSubtract (toLanes dest) 0 (toLanes a) 0 (toLanes b) 0 c L).1 =
        R ++ dest.drop L ∧
      (bignumberSubtract (toLanes dest) 0 (toLanes a) 0 (toLanes b) 0 c L).2 = c' ∧
      value R + value b + c = value a + 4294967296 ^ L * c' := by
  obtain ⟨R, c', hR1, hR2, hc', hR3, hR4⟩ := subtractLoop_spec (toLanes a) (toLanes b)
    (Lanes_toLanes ha) (Lanes_toLanes hb) (L + L) (toLanes dest) 0 0 0 c hc
    (by rw [toLanes_length]; omega)
  have e1 : (toLanes a).take (L + L) = toLanes a :=
    List.take_of_length_le (by rw [toLanes_length]; omega)
  have e2 : (toLanes b).take (L + L) = toLanes b :=
    List.take_of_length_le (by rw [toLanes_length]; omega)
  have e3 : (toLanes dest).drop (0 + (L + L)) = toLanes (dest.drop L) := by
    conv_lhs => rw [← List.take_append_drop L dest, toLanes_append, Nat.zero_add]
    exact List.drop_left' (by rw [toLanes_length, List.length_take]; omega)
  simp only [List.drop_zero, List.take_zero, List.nil_append] at hR3 hR4
  rw [e1, e2, laneValue_toLanes, laneValue_toLanes] at hR4
  rw [e3] at hR3
  have heven : R.length % 2 = 0 := by omega
  have hp : (65536 : Nat) ^ (L + L) = 4294967296 ^ L := by
    rw [← Nat.two_mul, Nat.pow_mul]
  refine ⟨ofLanes R, c', by rw [ofLanes_length]; omega, Words_ofLanes hR2, hc', ?_, ?_, ?_⟩
  · unfold bignumberSubtract
    rw [hR3, ofLanes_append _ _ heven, ofLanes_toLanes]
  · unfold bignumberSubtract
    rw [hR3]
  · rw [value_ofLanes _ heven, ← hp]
    exact hR4

/-- C11: `bignumberSubtract` is exact subtraction with borrow.  For `L`-word `a` and `b`, a
borrow-in of 0 or 1 and any destination of at least `L` words (the array `a` itself
included), the first `L` words of the destination hold `(a - b - borrowIn) mod 2^(32 L)`,
the words from `L` on are untouched, and the function returns 1 exactly when
`a < b + borrowIn`. -/
theorem bignumberSubtract_spec (dest a b : List Nat) (L c : Nat) (ha : Words a) (hb : Words b)
    (hla : a.length = L) (hlb : b.length = L) (hld : L ≤ dest.length) (hc : c ≤ 1) :
    (value ((ofLanes (bignumberSubtract (toLanes dest) 0 (toLanes a) 0 (toLanes b) 0 c
        L).1).take L) : Int) = ((value a : Int) - value b - c) % 2 ^ (32 * L) ∧
    (bignumberSubtract (toLanes dest) 0 (toLanes a) 0 (toLanes b) 0 c L).2 =
      (if value a < value b + c then 1 else 0) ∧
    (ofLanes (bignumberSubtract (toLanes dest) 0 (toLanes a) 0 (toLanes b) 0 c L).1).drop L =
      dest.drop L ∧
    (ofLanes (bignumberSubtract (toLanes dest) 0 (toLanes a) 0 (toLanes b) 0 c L).1).length =
      dest.length := by
  obtain ⟨R, c', hR1, hR2, hc', e, ec, hv⟩ := subtract_words dest a b L c ha hb hla hlb hld hc
  have hRlt := value_lt hR2
  have hblt := value_lt hb
  rw [hR1] at hRlt
  rw [hlb] at hblt
  rw [e, ec, List.take_left' hR1, List.drop_left' hR1]
  have hM : ((2 : Int) ^ (32 * L)) = ((4294967296 ^ L : Nat) : Int) := by
    rw [Nat.cast_pow, pow_mul]; norm_num
  generalize 4294967296 ^ L = M at *
  refine ⟨?_, ?_, rfl, by rw [List.length_append, List.length_drop]; omega⟩
  · rw [hM]
    have hz : (value a : Int) - value b - c = (value R : Int) + (M : Int) * (-(c' : Int)) := by
      have : ((value R + value b + c : Nat) : Int) = ((value a + M * c' : Nat) : Int) := by
        rw [hv]
      push_cast at this
      linarith
    rw [hz, Int.add_mul_emod_self_left]
    exact (Int.emod_eq_of_lt (Int.ofNat_nonneg _) (by exact_mod_cast hRlt)).symm
  · by_cases hlt : value a < value b + c
    · rw [if_pos hlt]
      have : c' = 1 := by
        by_contra hne
        have : c' = 0 := by omega
        subst this
        omega
      exact this
    · rw [if_neg hlt]
      by_contra hne
      have : c' = 1 := by omega
      subst this
      omega

/-- C11, witness: `dest` is the array `a` itself, the subtraction borrows through both
words. -/
theorem bignumberSubtract_spec_witness :
    (value ((ofLanes (bignumberSubtract (toLanes [5, 0]) 0 (toLanes [5, 0]) 0
        (toLanes [0xffffffff, 7]) 0 1 2).1).take 2) : Int) =
      ((value [5, 0] : Int) - value [0xffffffff, 7] - (1 : Nat)) % 2 ^ (32 * 2) ∧
    (bignumberSubtract (toLanes [5, 0]) 0 (toLanes [5, 0]) 0 (toLanes [0xffffffff, 7]) 0 1 2).2 =
      (if value [5, 0] < value [0xffffffff, 7] + 1 then 1 else 0) ∧
    (ofLanes (bignumberSubtract (toLanes [5, 0]) 0 (toLanes [5, 0]) 0
        (toLanes [0xffffffff, 7]) 0 1 2).1).drop 2 = [5, 0].drop 2 ∧
    (ofLanes (bignumberSubtract (toLanes [5, 0]) 0 (toLanes [5, 0]) 0
        (toLanes [0xffffffff, 7]) 0 1 2).1).length = [5, 0].length :=
  bignumberSubtract_spec [5, 0] [5, 0] [0xffffffff, 7] 2 1 (by unfold Words; decide)
    (by unfold Words; decide) rfl rfl (by decide) (by decide)

/-! ## Comparison as the order on values -/

/-- C16: `bignumberCompare` is the unsigned order on values: for `L`-word `a` and `b` it
returns -1, 0 or 1 as `value a` is less than, equal to or greater than `value b`. -/
theorem bignumberCompare_order (a b : List Nat) (L : Nat) (ha : Words a) (hb : Words b)
    (hla : a.length = L) (hlb : b.length = L) :
    (value a < value b → bignumberCompare a b L = -1) ∧
    (value a = value b → bignumberCompare a b L = 0) ∧
    (value a > value b → bignumberCompare a b L = 1) := by
  have h := bignumberCompare_spec a b ha hb L
  rw [List.take_of_length_le (by omega), List.take_of_length_le (by omega)] at h
  refine ⟨fun hlt => ?_, fun heq => ?_, fun hgt => ?_⟩
  · rw [h, if_pos hlt]
  · rw [h, if_neg (by omega), if_neg (by omega)]
  · rw [h, if_neg (by omega), if_pos hgt]

/-- C16, witness: two three-word arrays that differ in the middle word, compared both ways,
and one compared with itself. -/
theorem bignumberCompare_order_witness :
    ((value [9, 1, 4] < value [0, 2, 4] → bignumberCompare [9, 1, 4] [0, 2, 4] 3 = -1) ∧
      (value [9, 1, 4] = value [0, 2, 4] → bignumberCompare [9, 1, 4] [0, 2, 4] 3 = 0) ∧
      (value [9, 1, 4] > value [0, 2, 4] → bignumberCompare [9, 1, 4] [0, 2, 4] 3 = 1)) ∧
    bignumberCompare [9, 1, 4] [0, 2, 4] 3 = -1 ∧ bignumberCompare [0, 2, 4] [9, 1, 4] 3 = 1 ∧
    bignumberCompare [0, 2, 4] [0, 2, 4] 3 = 0 :=
  ⟨bignumberCompare_order [9, 1, 4] [0, 2, 4] 3 (by unfold Words; decide)
    (by unfold Words; decide) rfl rfl, by decide, by decide, by decide⟩

/-! ## Multiply-accumulate by a half-word -/

theorem multiplyWord_sums_lt (w : Nat) (hw : w < 65536) (src : List Nat) (hsrc : Lanes src) :
    ∀ (n : Nat) (dest : List Nat) (d s1 temp : Nat), Lanes dest → temp < 65536 →
      ∀ u ∈ bignumberMultiplyWord.sums w n dest d src s1 temp, u < 4294967296 := by
  intro n
  induction n with
  | zero =>
    intro dest d s1 temp hdest htemp u hu
    have hdd := getD_lt_of_Lanes hdest d
    simp only [bignumberMultiplyWord.sums, List.mem_singleton] at hu
    omega
  | succ n ih =>
    intro dest d s1 temp hdest htemp u hu
    have hs := getD_lt_of_Lanes hsrc s1
    have hdd := getD_lt_of_Lanes hdest d
    have hmul : w * src.getD s1 0 ≤ 65535 * 65535 :=
      Nat.mul_le_mul (by omega) (by omega)
    simp only [bignumberMultiplyWord.sums, List.mem_cons] at hu
    rcases hu with rfl | hu
    · omega
    · refine ih _ _ _ _ (hdest.setLane _ (Nat.mod_lt _ (by decide))) ?_ u hu
      rw [Nat.shiftRight_eq_div_pow]
      have : (w * src.getD s1 0 + dest.getD d 0 + temp) % 4294967296 < 4294967296 :=
        Nat.mod_lt _ (by decide)
      omega

/-- C12: `bignumberMultiplyWord` is a multiply-accumulate with one spill lane.  For a 16-bit
multiplier `w`, `n` lanes `a` and a destination of at least `n + 1` lanes, the first `n + 1`
lanes of the destination end as `(their old value + value a * w) mod 2^(16 (n + 1))`, the
lanes from `n + 1` on are untouched, and every sum the loop forms is below `2^32`. -/
theorem bignumberMultiplyWord_spec (dest a : List Nat) (w n : Nat) (hw : w ≤ 0xffff)
    (ha : Lanes a) (hla : a.length = n) (hd : Lanes dest) (hld : n + 1 ≤ dest.length) :
    laneValue ((bignumberMultiplyWord dest 0 a w n).take (n + 1)) =
      (laneValue (dest.take (n + 1)) + laneValue a * w) % 2 ^ (16 * (n + 1)) ∧
    (bignumberMultiplyWord dest 0 a w n).drop (n + 1) = dest.drop (n + 1) ∧
    (bignumberMultiplyWord dest 0 a w n).length = dest.length ∧
    ∀ u ∈ bignumberMultiplyWord.sums w n dest 0 a 0 0, u < 2 ^ 32 := by
  obtain ⟨R, hR1, _, hR3, hR4⟩ := multiplyWordLoop_spec w (by omega) a ha n dest 0 0 0 hd
    (by omega) (by decide)
  simp only [List.drop_zero, List.take_zero, List.nil_append, Nat.zero_add, Nat.add_zero] at hR3 hR4
  rw [List.take_of_length_le (by omega : a.length ≤ n)] at hR4
  unfold bignumberMultiplyWord
  rw [hR3, List.take_left' hR1, List.drop_left' hR1, ← pow16]
  refine ⟨?_, rfl, by rw [List.length_append, List.length_drop]; omega, ?_⟩
  · rw [hR4, Nat.mul_comm w]
  · exact multiplyWord_sums_lt w (by omega) a ha n dest 0 0 0 hd (by decide)

/-- C12, witness: three lanes of all ones times `0xffff`, accumulated into a destination of
all ones, with one more lane behind the spill lane. -/
theorem bignumberMultiplyWord_spec_witness :
    laneValue ((bignumberMultiplyWord [0xffff, 0xffff, 0xffff, 0xffff, 7] 0
        [0xffff, 0xffff, 0xffff] 0xffff 3).take (3 + 1)) =
      (laneValue ([0xffff, 0xffff, 0xffff, 0xffff, 7].take (3 + 1)) +
        laneValue [0xffff, 0xffff, 0xffff] * 0xffff) % 2 ^ (16 * (3 + 1)) ∧
    (bignumberMultiplyWord [0xffff, 0xffff, 0xffff, 0xffff, 7] 0 [0xffff, 0xffff, 0xffff]
        0xffff 3).drop (3 + 1) = [0xffff, 0xffff, 0xffff, 0xffff, 7].drop (3 + 1) ∧
    (bignumberMultiplyWord [0xffff, 0xffff, 0xffff, 0xffff, 7] 0 [0xffff, 0xffff, 0xffff]
        0xffff 3).length = [0xffff, 0xffff, 0xffff, 0xffff, 7].length ∧
    ∀ u ∈ bignumberMultiplyWord.sums 0xffff 3 [0xffff, 0xffff, 0xffff, 0xffff, 7] 0
      [0xffff, 0xffff, 0xffff] 0 0, u < 2 ^ 32 :=
  bignumberMultiplyWord_spec [0xffff, 0xffff, 0xffff, 0xffff, 7] [0xffff, 0xffff, 0xffff]
    0xffff 3 (by decide) (by unfold Lanes; decide) rfl (by unfold Lanes; decide) (by decide)

/-! ## Increment, decrement, complement and negation -/

theorem value_inj : ∀ (x y : List Nat), Words x → Words y → x.length = y.length →
    value x = value y → x = y := by
  intro x
  induction x with
  | nil =>
    intro y _ _ hl _
    cases y with
    | nil => rfl
    | cons _ _ => simp at hl
  | cons a x ih =>
    intro y hx hy hl hv
    cases y with
    | nil => simp at hl
    | cons b y =>
      rw [Words.cons_iff] at hx hy
      simp only [value] at hv
      have hab : a = b := by omega
      have hxy : value x = value y := by omega
      rw [hab, ih y hx.2 hy.2 (by simpa using hl) hxy]

theorem increment_spec : ∀ (x : List Nat) (L : Nat), Words x → 1 ≤ L → L ≤ x.length →
    Words (bignumberIncrement x L) ∧ (bignumberIncrement x L).drop L = x.drop L ∧
      value ((bignumberIncrement x L).take L) = (value (x.take L) + 1) % 4294967296 ^ L := by
  intro x
  induction x with
  | nil => intro L _ h1 hl; simp at hl; omega
  | cons w ws ih =>
    intro L hx h1 hl
    obtain ⟨k, rfl⟩ : ∃ k, L = k + 1 := ⟨L - 1, by omega⟩
    rw [Words.cons_iff] at hx
    have hv := value_take_lt hx.2 k
    have hm : (w + 1) % 4294967296 < 4294967296 := Nat.mod_lt _ (by decide)
    simp only [bignumberIncrement, Nat.add_sub_cancel, List.take_succ_cons, value, Nat.pow_succ]
    by_cases hgo : (w + 1) % 4294967296 = 0 ∧ k > 0
    · rw [if_pos hgo]
      obtain ⟨i1, i2, i3⟩ := ih k hx.2 hgo.2 (by simpa using hl)
      simp only [List.drop_succ_cons, List.take_succ_cons, value, i3]
      refine ⟨Words.cons_iff.2 ⟨hm, i1⟩, i2, ?_⟩
      have hw : w = 4294967295 := by omega
      subst hw
      have e : 4294967295 + 4294967296 * value (List.take k ws) + 1 =
          4294967296 * (value (List.take k ws) + 1) := by ring
      rw [e, Nat.mul_comm (4294967296 ^ k), Nat.mul_mod_mul_left]
      omega
    · rw [if_neg hgo]
      simp only [List.drop_succ_cons, List.take_succ_cons, value]
      refine ⟨Words.cons_iff.2 ⟨hm, hx.2⟩, trivial, ?_⟩
      by_cases hk : k = 0
      · subst hk
        simp only [List.take_zero, value, Nat.pow_zero, Nat.mul_zero, Nat.add_zero, Nat.one_mul]
      · have hw : w + 1 < 4294967296 := by
          by_contra hge
          exact hgo ⟨by omega, by omega⟩
        generalize 4294967296 ^ k = P at *
        generalize value (List.take k ws) = v at *
        rw [Nat.mod_eq_of_lt hw, Nat.mod_eq_of_lt (by omega)]
        omega

theorem decrement_cons (w : Nat) (ws : List Nat) (k : Nat) :
    bignumberDecrement (w :: ws) (k + 1) =
      if (w + 4294967295) % 4294967296 = 4294967295 ∧ k > 0 then
        (w + 4294967295) % 4294967296 :: bignumberDecrement ws k
      else (w + 4294967295) % 4294967296 :: ws := by
  rw [bignumberDecrement, Nat.add_sub_cancel]

theorem decrement_spec : ∀ (x : List Nat) (L : Nat), Words x → 1 ≤ L → L ≤ x.length →
    Words (bignumberDecrement x L) ∧ (bignumberDecrement x L).drop L = x.drop L ∧
      value ((bignumberDecrement x L).take L) =
        (value (x.take L) + (4294967296 ^ L - 1)) % 4294967296 ^ L := by
  intro x
  induction x with
  | nil => intro L _ h1 hl; simp at hl; omega
  | cons w ws ih =>
    intro L hx h1 hl
    obtain ⟨k, rfl⟩ : ∃ k, L = k + 1 := ⟨L - 1, by omega⟩
    rw [Words.cons_iff] at hx
    have hv := value_take_lt hx.2 k
    have hP : 0 < 4294967296 ^ k := Nat.pos_pow_of_pos k (by decide)
    have hw0 := hx.1
    rw [decrement_cons]
    generalize hr : (w + 4294967295) % 4294967296 = r
    have hm : r < 4294967296 := by rw [← hr]; exact Nat.mod_lt _ (by decide)
    have hr0 : w = 0 → r = 4294967295 := by intro h; omega
    have hr1 : 0 < w → r + 1 = w := by intro h; omega
    clear hr
    have hp : (4294967296 : Nat) ^ (k + 1) = 4294967296 * 4294967296 ^ k := by
      rw [Nat.pow_succ, Nat.mul_comm]
    rw [hp, List.take_succ_cons]
    by_cases hgo : r = 4294967295 ∧ k > 0
    · rw [if_pos hgo]
      obtain ⟨i1, i2, i3⟩ := ih k hx.2 hgo.2 (by simpa using hl)
      rw [List.drop_succ_cons, List.drop_succ_cons, List.take_succ_cons]
      refine ⟨Words.cons_iff.2 ⟨hm, i1⟩, i2, ?_⟩
      show r + 4294967296 * value _ = (w + 4294967296 * value _ + _) % _
      rw [i3]
      have hw : w = 0 := by
        by_contra hne
        have := hr1 (by omega)
        omega
      subst hw
      generalize 4294967296 ^ k = P at *
      generalize value (List.take k ws) = v at *
      have e : 0 + 4294967296 * v + (4294967296 * P - 1) =
          4294967295 + 4294967296 * (v + (P - 1)) := by omega
      rw [e, add_mul_mod_mul (by decide : 4294967295 < 4294967296)]
      omega
    · rw [if_neg hgo]
      rw [List.drop_succ_cons, List.drop_succ_cons, List.take_succ_cons]
      refine ⟨Words.cons_iff.2 ⟨hm, hx.2⟩, rfl, ?_⟩
      show r + 4294967296 * value _ = (w + 4294967296 * value _ + _) % _
      by_cases hw : w = 0
      · have hk : k = 0 := by
          by_contra hne
          exact hgo ⟨hr0 hw, by omega⟩
        subst hk
        have := hr0 hw
        subst hw
        subst this
        simp [value]
      · have h1 := hr1 (by omega)
        generalize 4294967296 ^ k = P at *
        generalize value (List.take k ws) = v at *
        have e : w + 4294967296 * v + (4294967296 * P - 1) =
            (r + 4294967296 * v) + 4294967296 * P := by omega
        rw [e, Nat.add_mod_right, Nat.mod_eq_of_lt (by omega)]
theorem not_spec : ∀ (x : List Nat) (L : Nat), Words x → L ≤ x.length →
    Words (bignumberNot x L) ∧ (bignumberNot x L).drop L = x.drop L ∧
      value ((bignumberNot x L).take L) + value (x.take L) + 1 = 4294967296 ^ L := by
  intro x
  induction x with
  | nil =>
    intro L _ hl
    have : L = 0 := by simpa using hl
    subst this
    exact ⟨Words.nil, rfl, rfl⟩
  | cons w ws ih =>
    intro L hx hl
    cases L with
    | zero => exact ⟨hx, rfl, rfl⟩
    | succ k =>
      rw [Words.cons_iff] at hx
      obtain ⟨i1, i2, i3⟩ := ih k hx.2 (by simpa using hl)
      have hw := hx.1
      simp only [bignumberNot, List.drop_succ_cons, List.take_succ_cons, value, Nat.pow_succ]
      refine ⟨Words.cons_iff.2 ⟨by omega, i1⟩, i2, ?_⟩
      generalize 4294967296 ^ k = P at *
      omega

theorem negate_spec (x : List Nat) (L : Nat) (hx : Words x) (hL : 1 ≤ L) (hl : L ≤ x.length) :
    Words (bignumberNegate x L) ∧ (bignumberNegate x L).drop L = x.drop L ∧
      value ((bignumberNegate x L).take L) =
        (4294967296 ^ L - value (x.take L)) % 4294967296 ^ L := by
  obtain ⟨n1, n2, n3⟩ := not_spec x L hx hl
  obtain ⟨i1, i2, i3⟩ := increment_spec (bignumberNot x L) L n1 hL (by rw [length_not]; exact hl)
  unfold bignumberNegate
  refine ⟨i1, i2.trans n2, ?_⟩
  rw [i3]
  congr 1
  omega

theorem decrement_zero : ∀ (L : Nat) (t : List Nat), 1 ≤ L →
    bignumberDecrement (List.replicate L 0 ++ t) L = List.replicate L 0xffffffff ++ t := by
  intro L
  induction L with
  | zero => intro t h; omega
  | succ k ih =>
    intro t _
    rw [List.replicate_succ, List.cons_append, decrement_cons, List.replicate_succ,
      List.cons_append]
    by_cases hk : k = 0
    · subst hk
      rw [if_neg (by omega)]
      rfl
    · rw [if_pos ⟨by decide, by omega⟩, ih t (by omega)]

/-- C17: `bignumberNegate` is two's-complement negation.  On the first `L` words of an array
of 32-bit words it leaves `(2^(32 L) - value) mod 2^(32 L)`, it leaves the words from `L` on
alone, and negating twice restores the array. -/
theorem bignumberNegate_spec (x : List Nat) (L : Nat) (hL : 1 ≤ L) (hx : Words x)
    (hl : L ≤ x.length) :
    value ((bignumberNegate x L).take L) = (2 ^ (32 * L) - value (x.take L)) % 2 ^ (32 * L) ∧
    (bignumberNegate x L).drop L = x.drop L ∧
    bignumberNegate (bignumberNegate x L) L = x := by
  obtain ⟨a1, a2, a3⟩ := negate_spec x L hx hL hl
  obtain ⟨b1, b2, b3⟩ := negate_spec (bignumberNegate x L) L a1 hL
    (by rw [length_negate]; exact hl)
  rw [← pow32]
  refine ⟨a3, a2, ?_⟩
  have hv := value_take_lt hx L
  have hP : 0 < 4294967296 ^ L := Nat.pos_pow_of_pos L (by decide)
  have hval : value ((bignumberNegate (bignumberNegate x L) L).take L) = value (x.take L) := by
    rw [b3, a3]
    generalize 4294967296 ^ L = M at *
    generalize value (x.take L) = v at *
    by_cases h0 : v = 0
    · subst h0; simp
    · rw [Nat.mod_eq_of_lt (by omega : M - v < M), Nat.mod_eq_of_lt (by omega)]
      omega
  have htake := value_inj _ _ (b1.take L) (hx.take L)
    (by rw [List.length_take, List.length_take, length_negate, length_negate]) hval
  rw [← List.take_append_drop L (bignumberNegate (bignumberNegate x L) L), htake, b2, a2,
    List.take_append_drop]

/-- C17, witness: a three-word array negated on its first two words, the low word zero so
that the increment carries. -/
theorem bignumberNegate_spec_witness :
    value ((bignumberNegate [0, 5, 9] 2).take 2) =
      (2 ^ (32 * 2) - value ([0, 5, 9].take 2)) % 2 ^ (32 * 2) ∧
    (bignumberNegate [0, 5, 9] 2).drop 2 = [0, 5, 9].drop 2 ∧
    bignumberNegate (bignumberNegate [0, 5, 9] 2) 2 = [0, 5, 9] :=
  bignumberNegate_spec [0, 5, 9] 2 (by decide) (by unfold Words; decide) (by decide)

/-- C18: increment and decrement are `+1` and `-1` modulo `2^(32 L)` on the first `L` words
of an array of 32-bit words; the words from `L` on are left alone, and decrementing `L` zero
words gives `L` words `0xffffffff`. -/
theorem increment_decrement_spec (x : List Nat) (L : Nat) (hL : 1 ≤ L) (hx : Words x)
    (hl : L ≤ x.length) :
    value ((bignumberIncrement x L).take L) = (value (x.take L) + 1) % 2 ^ (32 * L) ∧
    (value ((bignumberDecrement x L).take L) : Int) =
      ((value (x.take L) : Int) - 1) % 2 ^ (32 * L) ∧
    (bignumberIncrement x L).drop L = x.drop L ∧
    (bignumberDecrement x L).drop L = x.drop L ∧
    ∀ t : List Nat,
      bignumberDecrement (List.replicate L 0 ++ t) L = List.replicate L 0xffffffff ++ t := by
  obtain ⟨_, i2, i3⟩ := increment_spec x L hx hL hl
  obtain ⟨_, d2, d3⟩ := decrement_spec x L hx hL hl
  refine ⟨by rw [← pow32]; exact i3, ?_, i2, d2, fun t => decrement_zero L t hL⟩
  rw [d3]
  have hP : 0 < 4294967296 ^ L := Nat.pos_pow_of_pos L (by decide)
  have hM : ((2 : Int) ^ (32 * L)) = ((4294967296 ^ L : Nat) : Int) := by
    rw [Nat.cast_pow, pow_mul]; norm_num
  rw [hM]
  generalize 4294967296 ^ L = M at *
  generalize value (x.take L) = v at *
  have e : (v : Int) - 1 = ((v + (M - 1) : Nat) : Int) + (M : Int) * (-1) := by
    push_cast [Nat.cast_sub hP]
    ring
  rw [e, Int.add_mul_emod_self_left]
  norm_cast

/-- C18, witness: a three-word array whose low word wraps on increment, and the same array
with a zero low word for the decrement, both on the first two words. -/
theorem increment_decrement_spec_witness :
    value ((bignumberIncrement [0xffffffff, 0xffffffff, 6] 2).take 2) =
      (value ([0xffffffff, 0xffffffff, 6].take 2) + 1) % 2 ^ (32 * 2) ∧
    (value ((bignumberDecrement [0xffffffff, 0xffffffff, 6] 2).take 2) : Int) =
      ((value ([0xffffffff, 0xffffffff, 6].take 2) : Int) - 1) % 2 ^ (32 * 2) ∧
    (bignumberIncrement [0xffffffff, 0xffffffff, 6] 2).drop 2 =
      [0xffffffff, 0xffffffff, 6].drop 2 ∧
    (bignumberDecrement [0xffffffff, 0xffffffff, 6] 2).drop 2 =
      [0xffffffff, 0xffffffff, 6].drop 2 ∧
    ∀ t : List Nat,
      bignumberDecrement (List.replicate 2 0 ++ t) 2 = List.replicate 2 0xffffffff ++ t :=
  increment_decrement_spec [0xffffffff, 0xffffffff, 6] 2 (by decide) (by unfold Words; decide)
    (by decide)

/-! ## The ASN.1 INTEGER decoder -/

theorem and_128_eq_zero (r : Nat) : r &&& 0x80 = 0 ↔ r / 128 % 2 = 0 := by
  have h := two_pow_and_eq_zero 7 r
  rw [Nat.land_comm] at h
  have h7 : (2 : Nat) ^ 7 = 128 := by norm_num
  rw [h7] at h
  rw [h, Nat.testBit_to_div_mod, h7]
  have : r / 128 % 2 < 2 := Nat.mod_lt _ (by decide)
  generalize r / 128 % 2 = q at *
  have hq : q = 0 ∨ q = 1 := by omega
  rcases hq with rfl | rfl <;> simp

theorem fill_spec (sign n : Nat) :
    ∀ (i : Nat) (key : List Nat), n ≤ i → i ≤ key.length →
      (moveDataToKey.fill sign n i key).1 = n ∧
      (moveDataToKey.fill sign n i key).2.length = key.length ∧
      ∀ j, (moveDataToKey.fill sign n i key).2.getD j 0 =
        if n ≤ j ∧ j < i then sign else key.getD j 0 := by
  intro i
  induction i with
  | zero =>
    intro key hn _
    have : n = 0 := by omega
    subst this
    refine ⟨rfl, rfl, fun j => ?_⟩
    rw [if_neg (by omega)]
    rfl
  | succ i ih =>
    intro key hn hl
    unfold moveDataToKey.fill
    by_cases hgt : i + 1 > n
    · rw [if_pos hgt]
      obtain ⟨h1, h2, h3⟩ := ih (key.set i sign) (by omega) (by rw [List.length_set]; omega)
      refine ⟨h1, by rw [h2, List.length_set], fun j => ?_⟩
      rw [h3, getD_set]
      by_cases hj : n ≤ j ∧ j < i
      · rw [if_pos hj, if_pos ⟨hj.1, by omega⟩]
      · rw [if_neg hj]
        by_cases hji : i = j
        · rw [if_pos ⟨hji, by omega⟩, if_pos ⟨by omega, by omega⟩]
        · rw [if_neg (fun h => hji h.1), if_neg (by omega)]
    · rw [if_neg hgt]
      have : n = i + 1 := by omega
      refine ⟨this.symm, rfl, fun j => ?_⟩
      rw [if_neg (by omega)]

theorem copy_spec (data : List Nat) (p n : Nat) :
    ∀ (i : Nat) (key : List Nat), i ≤ key.length →
      (moveDataToKey.copy data p n i key).length = key.length ∧
      ∀ j, (moveDataToKey.copy data p n i key).getD j 0 =
        if j < i then data.getD (p + n - (j + 1)) 0 else key.getD j 0 := by
  intro i
  induction i with
  | zero =>
    intro key _
    refine ⟨rfl, fun j => ?_⟩
    rw [if_neg (by omega)]
    rfl
  | succ i ih =>
    intro key hl
    unfold moveDataToKey.copy
    obtain ⟨h2, h3⟩ := ih (key.set i (data.getD (p + n - (i + 1)) 0))
      (by rw [List.length_set]; omega)
    refine ⟨by rw [h2, List.length_set], fun j => ?_⟩
    rw [h3, getD_set]
    by_cases hj : j < i
    · rw [if_pos hj, if_pos (by omega)]
    · rw [if_neg hj]
      by_cases hji : i = j
      · subst hji
        rw [if_pos ⟨rfl, by omega⟩, if_pos (by omega)]
      · rw [if_neg (fun h => hji h.1), if_neg (by omega)]

theorem toBytes_ofBytes : ∀ (B : List Nat), (∀ b ∈ B, b < 256) → B.length % 4 = 0 →
    toBytes (ofBytes B) = B
  | [], _, _ => rfl
  | [_], _, h => by simp at h
  | [_, _], _, h => by simp at h
  | [_, _, _], _, h => by simp at h
  | b0 :: b1 :: b2 :: b3 :: B, hb, h => by
    have h0 := hb b0 (by simp)
    have h1 := hb b1 (by simp)
    have h2 := hb b2 (by simp)
    have h3 := hb b3 (by simp)
    have ih := toBytes_ofBytes B (fun b hm => hb b (by simp [hm]))
      (by simp only [List.length_cons] at h; omega)
    simp only [ofBytes, toBytes, ih]
    have e0 : (b0 + 256 * b1 + 65536 * b2 + 16777216 * b3) % 256 = b0 := by omega
    have e1 : (b0 + 256 * b1 + 65536 * b2 + 16777216 * b3) / 256 % 256 = b1 := by omega
    have e2 : (b0 + 256 * b1 + 65536 * b2 + 16777216 * b3) / 65536 % 256 = b2 := by omega
    have e3 : (b0 + 256 * b1 + 65536 * b2 + 16777216 * b3) / 16777216 = b3 := by omega
    rw [e0, e1, e2, e3]

theorem value_ofBytes : ∀ (B : List Nat), B.length % 4 = 0 → value (ofBytes B) = byteValue B
  | [], _ => rfl
  | [_], h => by simp at h
  | [_, _], h => by simp at h
  | [_, _, _], h => by simp at h
  | b0 :: b1 :: b2 :: b3 :: B, h => by
    have ih := value_ofBytes B (by simp only [List.length_cons] at h; omega)
    simp only [ofBytes, value, byteValue, ih]
    omega

theorem toBytes_replicate_zero (n : Nat) :
    toBytes (List.replicate n 0) = List.replicate (4 * n) 0 := by
  induction n with
  | zero => rfl
  | succ n ih =>
    have : 4 * (n + 1) = 4 * n + 1 + 1 + 1 + 1 := by omega
    rw [List.replicate_succ, this]
    simp [toBytes, ih, List.replicate_succ]

theorem getD_lt_of_bytes {B : List Nat} (hB : ∀ b ∈ B, b < 256) (i : Nat) : B.getD i 0 < 256 := by
  rw [List.getD_eq_getElem?_getD]
  cases hg : B[i]? with
  | none => simp
  | some v => simpa using hB v (List.getElem?_mem hg)

theorem bytes_of_getD {B : List Nat} (h : ∀ j, B.getD j 0 < 256) : ∀ b ∈ B, b < 256 := by
  intro b hb
  obtain ⟨i, hi, rfl⟩ := List.getElem_of_mem hb
  have := h i
  rwa [List.getD_eq_getElem _ _ hi] at this

theorem moveDataToKey_bytes (key data : List Nat) (p n limit : Nat) (hkl : key.length = limit)
    (hn : n ≤ 4 * limit) (hdata : ∀ b ∈ data, b < 256) :
    (moveDataToKey key data p n limit).length = limit ∧
    (toBytes (moveDataToKey key data p n limit)).length = 4 * limit ∧
    ∀ j, j < 4 * limit → (toBytes (moveDataToKey key data p n limit)).getD j 0 =
      if j < n then data.getD (p + n - (j + 1)) 0
      else if key.getD 0 0 &&& 0x80 ≠ 0 then 0xff else 0 := by
  have hsign : (if key.getD 0 0 &&& 0x80 ≠ 0 then 0xff else 0) < 256 := by split <;> decide
  unfold moveDataToKey
  simp only []
  generalize (if key.getD 0 0 &&& 0x80 ≠ 0 then 0xff else 0) = sign at *
  have hlen : (toBytes key).length = limit * 4 := by rw [toBytes_length, hkl, Nat.mul_comm]
  obtain ⟨f1, f2, f3⟩ := fill_spec sign n (limit * 4) (toBytes key) (by omega) (by omega)
  rw [f1]
  obtain ⟨c2, c3⟩ := copy_spec data p n n (moveDataToKey.fill sign n (limit * 4) (toBytes key)).2
    (by omega)
  generalize moveDataToKey.copy data p n n
    (moveDataToKey.fill sign n (limit * 4) (toBytes key)).2 = B at *
  have hB : ∀ j, B.getD j 0 =
      if j < n then data.getD (p + n - (j + 1)) 0
      else if j < limit * 4 then sign else 0 := by
    intro j
    rw [c3, f3]
    by_cases hj : j < n
    · rw [if_pos hj, if_pos hj]
    · rw [if_neg hj, if_neg hj]
      by_cases hj4 : j < limit * 4
      · rw [if_pos ⟨by omega, hj4⟩, if_pos hj4]
      · rw [if_neg (fun h => hj4 h.2), if_neg hj4]
        exact List.getD_eq_default _ _ (by omega)
  have hbytes : ∀ b ∈ B, b < 256 := by
    apply bytes_of_getD
    intro j
    rw [hB]
    split
    · exact getD_lt_of_bytes hdata _
    · split
      · exact hsign
      · decide
  have hrt := toBytes_ofBytes B hbytes (by omega)
  refine ⟨by rw [ofBytes_length]; omega, by rw [hrt]; omega, fun j hj => ?_⟩
  rw [hrt, hB]
  by_cases hjn : j < n
  · rw [if_pos hjn, if_pos hjn]
  · rw [if_neg hjn, if_neg hjn, if_pos (by omega)]

theorem byteValue_eq_sum : ∀ (B : List Nat),
    byteValue B = Finset.sum (Finset.range B.length) (fun j => B.getD j 0 * 256 ^ j) := by
  intro B
  induction B with
  | nil => rfl
  | cons b B ih =>
    rw [List.length_cons, Finset.sum_range_succ', byteValue, ih, Finset.mul_sum]
    simp only [List.getD_cons_succ, List.getD_cons_zero, Nat.pow_zero, Nat.mul_one]
    rw [Nat.add_comm]
    congr 1
    apply Finset.sum_congr rfl
    intro j _
    rw [Nat.pow_succ]
    ring

theorem value_of_bytes (key : List Nat) (n m : Nat) (c : Nat → Nat)
    (hlen : (toBytes key).length = n + m) (hk : Words key)
    (hb : ∀ j, j < n + m → (toBytes key).getD j 0 = if j < n then c (n - 1 - j) else 0) :
    value key = Finset.sum (Finset.range n) (fun i => c i * 256 ^ (n - 1 - i)) := by
  have hrt : ofBytes (toBytes key) = key := by
    clear hlen hb
    induction key with
    | nil => rfl
    | cons w ws ih =>
      rw [Words.cons_iff] at hk
      simp only [toBytes, ofBytes, ih hk.2]
      congr 1
      omega
  have h4 : (toBytes key).length % 4 = 0 := by rw [toBytes_length]; omega
  rw [← hrt, value_ofBytes _ h4, byteValue_eq_sum, hlen, Finset.sum_range_add]
  have hz : Finset.sum (Finset.range m) (fun x => (toBytes key).getD (n + x) 0 * 256 ^ (n + x))
      = 0 := by
    apply Finset.sum_eq_zero
    intro x hx
    rw [hb (n + x) (by have := Finset.mem_range.1 hx; omega), if_neg (by omega), Nat.zero_mul]
  rw [hz, Nat.add_zero, ← Finset.sum_range_reflect]
  apply Finset.sum_congr rfl
  intro j hj
  have hjn := Finset.mem_range.1 hj
  rw [hb (n - 1 - j) (by omega), if_pos (by omega)]
  congr 2
  omega

theorem Words_ofBytes : ∀ (B : List Nat), (∀ b ∈ B, b < 256) → Words (ofBytes B)
  | [], _ => Words.nil
  | [_], _ => Words.nil
  | [_, _], _ => Words.nil
  | [_, _, _], _ => Words.nil
  | b0 :: b1 :: b2 :: b3 :: B, hb => by
    have h0 := hb b0 (by simp)
    have h1 := hb b1 (by simp)
    have h2 := hb b2 (by simp)
    have h3 := hb b3 (by simp)
    have ih := Words_ofBytes B (fun b hm => hb b (by simp [hm]))
    simp only [ofBytes]
    exact Words.cons_iff.2 ⟨by omega, ih⟩

theorem bytes_toBytes (x : List Nat) (hx : Words x) : ∀ b ∈ toBytes x, b < 256 := by
  induction x with
  | nil => intro b hb; simp [toBytes] at hb
  | cons w ws ih =>
    rw [Words.cons_iff] at hx
    intro b hb
    simp only [toBytes, List.mem_cons] at hb
    rcases hb with rfl | rfl | rfl | rfl | hb
    · omega
    · omega
    · omega
    · omega
    · exact ih hx.2 b hb

theorem ofBytes_toBytes (x : List Nat) (hx : Words x) : ofBytes (toBytes x) = x := by
  induction x with
  | nil => rfl
  | cons w ws ih =>
    rw [Words.cons_iff] at hx
    simp only [toBytes, ofBytes, ih hx.2]
    congr 1
    omega

theorem toBytes_bytes_words (x : List Nat) (h4 : ∀ b ∈ toBytes x, b < 256) : Words x := by
  induction x with
  | nil => exact Words.nil
  | cons w ws ih =>
    simp only [toBytes, List.mem_cons] at h4
    have h3 := h4 (w / 16777216) (by simp)
    exact Words.cons_iff.2 ⟨by omega, ih (fun b hb => h4 b (by simp [hb]))⟩

/-- C14: the content of an ASN.1 INTEGER with a short-form length is decoded big-endian and
right-justified.  For a tag `0x02`, a length byte `n ≤ 0x7f` with `n ≤ 4 * limit` and content
bytes `c[i] = data[2 + i]`, `dataLength` on `limit` zero words returns an array of `limit`
words whose byte `j` is `c[n - 1 - j]` for `j < n` and `0` for `j ≥ n`, and whose value is
the sum of `c[i] * 256^(n - 1 - i)`. -/
theorem dataLength_decodes (limit n : Nat) (data : List Nat) (hdata : ∀ b ∈ data, b < 256)
    (htag : data.getD 0 0 = 2) (hlen : data.getD 1 0 = n) (hshort : n ≤ 0x7f)
    (hn : n ≤ 4 * limit) :
    ∃ key, dataLength (List.replicate limit 0) data limit = some key ∧ key.length = limit ∧
      (∀ j, j < 4 * limit →
        (toBytes key).getD j 0 = if j < n then data.getD (2 + (n - 1 - j)) 0 else 0) ∧
      value key = Finset.sum (Finset.range n) (fun i => data.getD (2 + i) 0 * 256 ^ (n - 1 - i)) := by
  have hz : (List.replicate limit 0).getD 0 0 &&& 0x80 = 0 := by
    cases limit with
    | zero => rfl
    | succ k => simp [List.replicate_succ]
  obtain ⟨m1, m2, m3⟩ := moveDataToKey_bytes (List.replicate limit 0) data 2 n limit
    (List.length_replicate _ _) hn hdata
  have hshortform : data.getD 1 0 &&& 0x80 = 0 := by
    rw [hlen, and_128_eq_zero]; omega
  have hbytes : ∀ j, j < 4 * limit →
      (toBytes (moveDataToKey (List.replicate limit 0) data 2 n limit)).getD j 0 =
        if j < n then data.getD (2 + (n - 1 - j)) 0 else 0 := by
    intro j hj
    rw [m3 j hj]
    by_cases hjn : j < n
    · rw [if_pos hjn, if_pos hjn]
      congr 1
      omega
    · rw [if_neg hjn, if_neg hjn, if_neg (by rw [hz]; simp)]
  refine ⟨moveDataToKey (List.replicate limit 0) data 2 n limit, ?_, m1, hbytes, ?_⟩
  · unfold dataLength
    rw [if_neg (by rw [htag]; simp), if_neg (by rw [hshortform]; simp)]
    simp only [hlen]
    rw [if_pos (by omega)]
  · have hW : Words (moveDataToKey (List.replicate limit 0) data 2 n limit) := by
      apply toBytes_bytes_words
      apply bytes_of_getD
      intro j
      by_cases hj : j < 4 * limit
      · rw [hbytes j hj]
        split
        · exact getD_lt_of_bytes hdata _
        · decide
      · rw [List.getD_eq_default _ _ (by omega)]
        decide
    exact value_of_bytes _ n (4 * limit - n) (fun i => data.getD (2 + i) 0)
      (by rw [m2]; omega) hW (fun j hj => by
        rw [hbytes j (by omega)])

/-- C14, witness: a three-byte INTEGER `0x01 0x02 0x03` decoded into two words. -/
theorem dataLength_decodes_witness :
    ∃ key, dataLength (List.replicate 2 0) [2, 3, 1, 2, 3] 2 = some key ∧ key.length = 2 ∧
      (∀ j, j < 4 * 2 →
        (toBytes key).getD j 0 = if j < 3 then [2, 3, 1, 2, 3].getD (2 + (3 - 1 - j)) 0 else 0) ∧
      value key =
        Finset.sum (Finset.range 3) (fun i => [2, 3, 1, 2, 3].getD (2 + i) 0 * 256 ^ (3 - 1 - i)) :=
  dataLength_decodes 2 3 [2, 3, 1, 2, 3] (by decide) rfl rfl (by decide) (by decide)

set_option maxRecDepth 100000 in
/-- C13 fails on the code: `moveDataToKey` takes the fill byte from bit 7 of word 0 of the
destination, not from the content.  A content byte `0x80` decoded into zero words leaves the
bytes above it `0`; a content byte `0x01` decoded into a destination whose word 0 is `0x80`
fills them with `0xff`. -/
theorem moveDataToKey_sign_from_destination :
    dataLength [0] [2, 1, 0x80] 1 = some [0x00000080] ∧
    dataLength (List.replicate 64 0) [2, 1, 0x80] 64 = some (0x80 :: List.replicate 63 0) ∧
    dataLength [0x80] [2, 1, 0x01] 1 = some [0xffffff01] := by
  decide

theorem dataLength_skips (key data : List Nat) (limit : Nat) :
    (data.getD 0 0 ≠ 2 → dataLength key data limit = some key) ∧
    (data.getD 1 0 &&& 0x80 = 0 → data.getD 1 0 > limit * 4 →
      dataLength key data limit = some key) := by
  refine ⟨fun h => ?_, fun hs h => ?_⟩
  · unfold dataLength
    rw [if_pos h]
  · unfold dataLength
    by_cases ht : data.getD 0 0 ≠ 2
    · rw [if_pos ht]
    · rw [if_neg ht, if_neg (by rw [hs]; simp)]
      simp only []
      rw [if_neg (by omega)]

theorem dataLength_loop_append (pre content : List Nat) :
    ∀ (n i k : Nat), 1 + (i + n) < pre.length →
      dataLength.loop (pre ++ content) n i k = dataLength.loop pre n i k := by
  intro n
  induction n with
  | zero => intro i k _; rfl
  | succ n ih =>
    intro i k h
    have e : (pre ++ content).getD (1 + i + 1) 0 = pre.getD (1 + i + 1) 0 := by
      rw [getD_append', if_pos (by omega)]
    unfold dataLength.loop
    simp only []
    rw [e, ih (i + 1) _ (by omega)]

theorem dataLength_negative (key pre content : List Nat) (limit : Nat)
    (hpre : 1 + (pre.getD 1 0 &&& 0x7f) < pre.length) (htag : pre.getD 0 0 = 2)
    (hlong : pre.getD 1 0 &&& 0x80 ≠ 0)
    (hneg : dataLength.loop pre (pre.getD 1 0 &&& 0x7f) 0 0 ≥ 0x80000000) :
    dataLength key (pre ++ content) limit = none := by
  have e0 : (pre ++ content).getD 0 0 = pre.getD 0 0 := by
    rw [getD_append', if_pos (by omega)]
  have e1 : (pre ++ content).getD 1 0 = pre.getD 1 0 := by
    rw [getD_append', if_pos (by omega)]
  unfold dataLength
  rw [e0, e1, if_neg (by rw [htag]; simp), if_pos hlong]
  simp only []
  rw [dataLength_loop_append _ _ _ _ _ (by omega), if_pos hneg]

set_option maxRecDepth 100000 in
/-- C15 fails on the code for long-form lengths: the length bytes are `char`s and are
sign-extended, and the length is a signed `int`.  The 384-byte length `0x82 0x01 0x80` is
read as `-128`, and the length `0x84 0x80 0x00 0x00 0x00` as `-2^31`; both pass the test
`keylength <= limit * 4`, and `moveDataToKey` then overwrites the destination and writes in
front of it (the run has no result).  The five length bytes `0x85 0x01 0x00 0x00 0x00 0x01`
wrap to the length 1, and one content byte is stored. -/
theorem dataLength_oversized_not_skipped :
    (dataLength.loop [2, 0x82, 0x01, 0x80] 2 0 0 = 0xffffff80 ∧
      ∀ key content : List Nat,
        dataLength key ([2, 0x82, 0x01, 0x80] ++ content) 64 = none) ∧
    (∀ key content : List Nat,
      dataLength key ([2, 0x84, 0x80, 0x00, 0x00, 0x00] ++ content) 64 = none) ∧
    dataLength [0] [2, 0x85, 0x01, 0x00, 0x00, 0x00, 0x01, 0xab] 1 = some [0xab] :=
  ⟨⟨by decide, fun key content =>
      dataLength_negative key _ content 64 (by decide) (by decide) (by decide) (by decide)⟩,
    fun key content =>
      dataLength_negative key _ content 64 (by decide) (by decide) (by decide) (by decide),
    by decide⟩

/-! ## A source shorter than the length the driver passes -/

set_option maxRecDepth 1000000 in
/-- C19 as stated fails: on a 79-byte source the call for the production key has a result,
so no failure is reported, and its destination pointer has advanced over 78 bytes that it has
written. -/
theorem short_source_counterexample :
    (predataProcessing productionKey Scratch.zero (List.replicate 64 0) (List.replicate 64 0)
        (List.replicate 79 0) 80 (List.replicate 256 0)).map
          (fun r => (r.consumed, r.written)) = some (80, 78) ∧
      (List.replicate 79 0).length = 79 := by
  decide

/-- C19, amended: `predataProcessing` has no length check and no failure to report.  For the
production key and the length 80 that `predataLength()` gives, a 79-byte source is processed
like any other: the call has a result, the source pointer has advanced by 80 bytes (one more
than the source holds), 78 bytes of the destination are written, and the first 39 of them are
the low bytes of the key calculated from source bytes 0..39. -/
theorem short_source_is_processed (s : Scratch) (n2 n3 source dest : List Nat)
    (hsrc : source.length = 79) (hs : s.global2.length = 130) (h3 : n3.length = 64) :
    ∃ r1 r,
      calculateKey s n3 (ofBytes (source.take 40 ++ (toBytes (initBigNumber n2 0 64)).drop 40))
        productionKey.key2 productionKey.key1 64 = some r1 ∧
      predataProcessing productionKey s n2 n3 source 80 dest = some r ∧
      r.consumed = 80 ∧ r.written = 78 ∧ r.dest.take 39 = (toBytes r1.2).take 39 := by
  obtain ⟨r1, r2, e1, _, e⟩ := production_predata s n2 n3 source dest
  rw [List.drop_zero] at e1
  refine ⟨r1, _, e1, e, rfl, rfl, ?_⟩
  have hN : 64 ≤ (ofBytes (source.take 40 ++
      (toBytes (initBigNumber n2 0 64)).drop 40)).length := by
    rw [ofBytes_length, List.length_append, List.length_take, List.length_drop, toBytes_length,
      length_initBigNumber]
    omega
  have hlen : r1.2.length = 64 := by
    rcases agree_calculateKey s s n3 n3 _ productionKey.key2 productionKey.key1 64 hs hs
      (Nat.le_refl _) (by omega) (by omega) (by unfold Words; decide) hN with
      ⟨e0, _⟩ | ⟨r, _, e0, _, _, hl, _, _⟩
    · rw [e1] at e0; exact Option.noConfusion e0
    · rw [e1] at e0
      cases e0
      exact hl
  have hB : ((toBytes r1.2).take 39).length = 39 := by
    rw [List.length_take, toBytes_length, hlen]; decide
  simp only [List.take_zero, List.nil_append]
  rw [List.take_left' hB, List.append_assoc, List.take_left' hB]

/-- C19, witness: a 79-byte source, zeroed statics and arrays. -/
theorem short_source_is_processed_witness :
    (List.replicate 79 1).length = 79 ∧
    ∃ r1 r,
      calculateKey Scratch.zero (List.replicate 64 0)
        (ofBytes ((List.replicate 79 1).take 40 ++
          (toBytes (initBigNumber (List.replicate 64 0) 0 64)).drop 40))
        productionKey.key2 productionKey.key1 64 = some r1 ∧
      predataProcessing productionKey Scratch.zero (List.replicate 64 0) (List.replicate 64 0)
        (List.replicate 79 1) 80 (List.replicate 256 0) = some r ∧
      r.consumed = 80 ∧ r.written = 78 ∧ r.dest.take 39 = (toBytes r1.2).take 39 :=
  ⟨List.length_replicate 79 1,
    short_source_is_processed Scratch.zero (List.replicate 64 0) (List.replicate 64 0)
      (List.replicate 79 1) (List.replicate 256 0) (List.length_replicate 79 1)
      (List.length_replicate 130 0) (List.length_replicate 64 0)⟩

/-! ## The branch of `calculateBigNumber` that skips the reduction -/

theorem initTwoInts_fields (s0 s : Scratch) (m : List Nat) (L : Nat)
    (hinit : initTwoInts s0 m L = some s) (hml : L ≤ m.length) :
    s.global2 = s0.global2 ∧ s.g1lengthx2 = (bignumberBitLength m L + 15) / 16 ∧
      2 ≤ bignumberIntLength m L := by
  unfold initTwoInts at hinit
  simp only [intLength_move _ _ _ hml] at hinit
  by_cases h2 : bignumberIntLength m L < 2
  · rw [if_pos h2] at hinit
    exact Option.noConfusion hinit
  · rw [if_neg h2] at hinit
    have := Option.some.inj hinit
    subst this
    refine ⟨rfl, ?_, by omega⟩
    dsimp only
    rw [agree_bitLength (agree_move_source s0.global1 m L hml) L (Nat.le_refl _)]

theorem product_lt_of_short (P : List Nat) (hP : Words P) (n B v : Nat)
    (hshort : bignumberIntLength P n * 2 < (B + 15) / 16) (hv : 2 ^ (B - 1) ≤ v) :
    value (P.take n) < v := by
  rw [value_take_intLength]
  have h1 := value_take_lt hP (bignumberIntLength P n)
  generalize bignumberIntLength P n = W at *
  have h2 : 32 * W ≤ B - 1 := by omega
  have h3 : (4294967296 : Nat) ^ W ≤ 2 ^ (B - 1) := by
    rw [pow32]
    exact Nat.pow_le_pow_right (by decide) h2
  omega

/-- C20: when `calculateBigNumber` skips the reduction the product is below the modulus.
With the reduction context set up by `initTwoInts` for the modulus `m` and `L`-word `a` and
`b`: if twice the significant word count of the product is below `g1lengthx2`, then
`value a * value b < value m`, and the `L` words moved to the result hold
`(value a * value b) mod value m`. -/
theorem calculateBigNumber_no_reduction (s0 s : Scratch) (m a b n1 : List Nat) (L : Nat)
    (hm : Words m) (ha : Words a) (hb : Words b) (hg : Words s0.global2)
    (hinit : initTwoInts s0 m L = some s) (hml : L ≤ m.length) (hla : a.length = L)
    (hlb : b.length = L) (hgl : 2 * L + 1 ≤ s0.global2.length)
    (hskip : bignumberIntLength ((bignumberMultiply s.global2 a b L).set (L * 2) 0)
      (L * 2 + 1) * 2 < s.g1lengthx2) :
    value a * value b < value (m.take L) ∧
    value ((calculateBigNumber s n1 a b L).2.take L) =
      (value a * value b) % value (m.take L) := by
  obtain ⟨f1, f2, f3⟩ := initTwoInts_fields s0 s m L hinit hml
  have hL : 1 ≤ L := by have := intLength_le m L; omega
  obtain ⟨P, p1, p2, p3, p4⟩ := bignumberMultiply_eq s.global2 a b L hL ha hb (by rw [f1]; exact hg)
  rw [List.take_of_length_le (by omega), List.take_of_length_le (by omega)] at p4
  have hne : value (m.take L) ≠ 0 := by
    intro h0
    have := (intLength_eq_zero_iff_value L).2 h0
    omega
  obtain ⟨b1, _, _⟩ := bitLength_bounds hm L hne
  have e2 : L * 2 = 2 * L := by omega
  have hX : (bignumberMultiply s.global2 a b L).set (L * 2) 0 =
      P ++ (s.global2.drop (2 * L)).set 0 0 := by
    rw [p3, e2, List.set_append, if_neg (by omega), p1, Nat.sub_self]
  have hz : ((bignumberMultiply s.global2 a b L).set (L * 2) 0).getD (L * 2) 0 = 0 := by
    rw [getD_set, if_pos ⟨rfl, by rw [p3, List.length_append, List.length_drop, f1]; omega⟩]
  have hil : bignumberIntLength ((bignumberMultiply s.global2 a b L).set (L * 2) 0) (L * 2 + 1)
      = bignumberIntLength P (2 * L) := by
    rw [intLength_succ_zero _ _ hz, hX, e2]
    apply intLength_congr
    intro i hi
    rw [getD_append', if_pos (by omega)]
  have hlt : value a * value b < value (m.take L) := by
    rw [hil, f2] at hskip
    have := product_lt_of_short P p2 (2 * L) _ _ hskip b1
    rwa [List.take_of_length_le (by omega), p4] at this
  refine ⟨hlt, ?_⟩
  rw [Nat.mod_eq_of_lt hlt]
  unfold calculateBigNumber
  simp only []
  rw [if_neg (by omega)]
  unfold bignumberMove
  rw [hX, List.take_left' (by rw [List.length_take, List.length_append, p1]; omega),
    List.take_append_of_le_length (by omega), value_take p2 L (by omega), p4]
  have hmL := value_take_lt hm L
  exact Nat.mod_eq_of_lt (by omega)

set_option maxRecDepth 100000 in
/-- C20, witness: the modulus `0x1000000000001` (four half-words) and the product `3 * 5`
(one word). -/
theorem calculateBigNumber_no_reduction_witness :
    initTwoInts Scratch.zero [1, 0x10000] 2 = some smallContext ∧
    bignumberIntLength ((bignumberMultiply smallContext.global2 [3, 0] [5, 0] 2).set (2 * 2) 0)
      (2 * 2 + 1) * 2 < smallContext.g1lengthx2 ∧
    value [3, 0] * value [5, 0] < value ([1, 0x10000].take 2) ∧
    value ((calculateBigNumber smallContext [9, 9] [3, 0] [5, 0] 2).2.take 2) =
      (value [3, 0] * value [5, 0]) % value ([1, 0x10000].take 2) :=
  ⟨by decide, by decide,
    calculateBigNumber_no_reduction Scratch.zero smallContext [1, 0x10000] [3, 0] [5, 0] [9, 9] 2
      (by unfold Words; decide) (by unfold Words; decide) (by unfold Words; decide)
      (Words.replicate_zero 130) (by decide) (by decide) rfl rfl
      (by simp [Scratch.zero]) (by decide)⟩

/-! ## The reciprocal, exactly -/

theorem remainders_length (src : List Nat) (L : Nat) :
    ∀ (n : Nat) (temp : List Nat), (bignumberInverse.remainders src L n temp).length = n := by
  intro n
  induction n with
  | zero => intro temp; rfl
  | succ n ih =>
    intro temp
    unfold bignumberInverse.remainders
    simp only [List.length_cons, ih]

theorem remainders_spec (src : List Nat) (L : Nat) (hL : 1 ≤ L) (hsrc : Words src)
    (tt : List Nat) (htt : Words tt) (hm2 : 2 * value (src.take L) < 4294967296 ^ L) :
    ∀ (n : Nat) (Tm : List Nat), Tm.length = L → Words Tm → value Tm < value (src.take L) →
      ∀ T ∈ bignumberInverse.remainders src L n (Tm ++ tt),
        ∃ T', T = T' ++ tt ∧ T'.length = L ∧ value T' < value (src.take L) := by
  intro n
  induction n with
  | zero =>
    intro Tm _ _ _ T hT
    simp [bignumberInverse.remainders] at hT
  | succ n ih =>
    intro Tm hTl hT hR T hmem
    obtain ⟨T1, hT1l, hT1, hsh, hT1v⟩ := shiftLeft_one_window Tm tt L hL hTl hT (by omega)
    have hcmp := bignumberCompare_spec (T1 ++ tt) src (Words.append_iff.2 ⟨hT1, htt⟩) hsrc L
    rw [List.take_left' hT1l] at hcmp
    unfold bignumberInverse.remainders at hmem
    simp only [hsh, hcmp] at hmem
    by_cases hlt : value T1 < value (src.take L)
    · have hhit : ¬ ((if value T1 < value (src.take L) then (-1 : Int)
          else if value T1 > value (src.take L) then 1 else 0) ≠ -1) := by
        rw [if_pos hlt]; simp
      simp only [hhit, if_false, List.mem_cons] at hmem
      rcases hmem with rfl | hmem
      · exact ⟨T1, rfl, hT1l, hlt⟩
      · exact ih T1 hT1l hT1 hlt T hmem
    · have hhit : (if value T1 < value (src.take L) then (-1 : Int)
          else if value T1 > value (src.take L) then 1 else 0) ≠ -1 := by
        rw [if_neg hlt]; split <;> decide
      obtain ⟨T2, hT2l, hT2, hsub, hT2v⟩ := inverse_subtract T1 src tt L hT1l hT1 htt hsrc
        (by omega)
      simp only [if_pos hhit, hsub, List.mem_cons] at hmem
      rcases hmem with rfl | hmem
      · exact ⟨T2, rfl, hT2l, by omega⟩
      · exact ih T2 hT2l hT2 (by omega) T hmem
/-- C23: what `bignumberInverse` computes.  For `1 ≤ L ≤ 64` and an `m` of 32-bit words whose
first `L` words hold a value that is not zero, not a power of two, and of bit length
`B < 32 L`: the first `L` words of `dest` end as `2 * floor(2^(2 B - 1) / m)` and the words
from `L` on are untouched; the loop runs `B` times (the trace holds `temp` at entry and after
each iteration); every remainder in the trace is below `m`, and its double still fits in `L`
words, so no shift loses a bit. -/
theorem bignumberInverse_exact (dest m : List Nat) (L : Nat) (hL : 1 ≤ L) (_hL64 : L ≤ 64)
    (hm : Words m) (_hld : L ≤ dest.length) (hne : value (m.take L) ≠ 0)
    (hpow : ¬ ∃ j, value (m.take L) = 2 ^ j) (hB : bignumberBitLength m L < 32 * L) :
    value ((bignumberInverse dest m L).take L) =
      2 * (2 ^ (2 * bignumberBitLength m L - 1) / value (m.take L)) ∧
    (bignumberInverse dest m L).drop L = dest.drop L ∧
    (bignumberInverse.trace m L).length = bignumberBitLength m L + 1 ∧
    ∀ T ∈ bignumberInverse.trace m L,
      value (T.take L) < value (m.take L) ∧ 2 * value (T.take L) < 2 ^ (32 * L) := by
  obtain ⟨D', Q', R', h1, _, h3, h4, h5, h6⟩ := bignumberInverse_eq dest m L hL hm hne hB
  obtain ⟨hb1, hb2, hb3⟩ := bitLength_bounds hm L hne
  have hRlt : R' < value (m.take L) := by
    by_contra hge
    have hR : R' = value (m.take L) := by omega
    have hdvd : value (m.take L) ∣ 2 ^ (2 * bignumberBitLength m L - 1) :=
      ⟨Q' + 1, by rw [h6, hR]; ring⟩
    obtain ⟨j, _, hj⟩ := (Nat.dvd_prime_pow Nat.prime_two).1 hdvd
    exact hpow ⟨j, hj⟩
  have hQ : 2 ^ (2 * bignumberBitLength m L - 1) / value (m.take L) = Q' := by
    rw [h6, Nat.mul_comm, Nat.mul_add_div (Nat.pos_of_ne_zero hne), Nat.div_eq_of_lt hRlt,
      Nat.add_zero]
  refine ⟨by rw [h3, List.take_left' h1, h4, hQ], by rw [h3, List.drop_left' h1], ?_, ?_⟩
  · unfold bignumberInverse.trace
    simp only [List.length_cons, remainders_length]
  · generalize hBdef : bignumberBitLength m L = B at *
    have hm2 : 2 * value (m.take L) < 4294967296 ^ L := by
      have h1 : 2 ^ (B + 1) ≤ 2 ^ (32 * L) := Nat.pow_le_pow_right (by decide) (by omega)
      rw [pow32]
      rw [Nat.pow_succ] at h1
      omega
    have hZ : Words (List.replicate L 0) := Words.replicate_zero L
    have hp : (B - 1) / 32 < (List.replicate L 0).length := by simp; omega
    obtain ⟨hTs, hTv⟩ := set_bit_spec hZ (B - 1) 0 hp (by simp [value_replicate_zero])
    rw [value_replicate_zero, Nat.zero_add] at hTv
    have hlt0 : 2 ^ (B - 1) < value (m.take L) := by
      rcases Nat.lt_or_ge (2 ^ (B - 1)) (value (m.take L)) with h | h
      · exact h
      · exact absurd ⟨B - 1, by omega⟩ hpow
    have e3 : (B - 1) / 32 * 4 / 4 = (B - 1) / 32 := by omega
    have e4 : (B - 1) &&& 0x1f = (B - 1) % 32 := Nat.and_pow_two_sub_one_eq_mod (B - 1) 5
    have e5 : (1 <<< ((B - 1) % 32)) % 4294967296 = 2 ^ ((B - 1) % 32) := by
      rw [Nat.shiftLeft_eq, Nat.one_mul]
      exact Nat.mod_eq_of_lt (Nat.pow_lt_pow_right (by decide) (Nat.mod_lt _ (by decide)))
    have hT0 : (initBigNumber (List.replicate 64 0) 0 L).set ((B - 1) / 32 * 4 / 4)
        ((initBigNumber (List.replicate 64 0) 0 L).getD ((B - 1) / 32 * 4 / 4) 0 |||
          (1 <<< ((B - 1) &&& 0x1f)) % 4294967296) =
        (List.replicate L 0).set ((B - 1) / 32)
          ((List.replicate L 0).getD ((B - 1) / 32) 0 ||| 2 ^ ((B - 1) % 32)) ++
            List.replicate (64 - L) 0 := by
      rw [inverse_temp L hL, e3, e4, e5, List.set_append_left _ _ hp,
        List.getD_append _ _ _ _ hp]
    have hlen0 : ((List.replicate L 0).set ((B - 1) / 32)
        ((List.replicate L 0).getD ((B - 1) / 32) 0 ||| 2 ^ ((B - 1) % 32))).length = L := by
      simp
    intro T hT
    unfold bignumberInverse.trace at hT
    simp only [hBdef, hT0, List.mem_cons] at hT
    rw [← pow32]
    rcases hT with rfl | hT
    · rw [List.take_left' hlen0, hTv]
      exact ⟨hlt0, by omega⟩
    · obtain ⟨T', rfl, hl, hv⟩ := remainders_spec m L hL hm (List.replicate (64 - L) 0)
        (Words.replicate_zero _) hm2 B _ hlen0 hTs (by rw [hTv]; exact hlt0) T hT
      rw [List.take_left' hl]
      exact ⟨hv, by omega⟩

/-- C23, witness: the two-word number `0x1_0000_0003` (33 bits), into a three-word array. -/
theorem bignumberInverse_exact_witness :
    value ((bignumberInverse [9, 9, 9] [3, 1] 2).take 2) =
      2 * (2 ^ (2 * bignumberBitLength [3, 1] 2 - 1) / value ([3, 1].take 2)) ∧
    (bignumberInverse [9, 9, 9] [3, 1] 2).drop 2 = [9, 9, 9].drop 2 ∧
    (bignumberInverse.trace [3, 1] 2).length = bignumberBitLength [3, 1] 2 + 1 ∧
    ∀ T ∈ bignumberInverse.trace [3, 1] 2,
      value (T.take 2) < value ([3, 1].take 2) ∧ 2 * value (T.take 2) < 2 ^ (32 * 2) :=
  bignumberInverse_exact [9, 9, 9] [3, 1] 2 (by decide) (by decide) (by unfold Words; decide)
    (by decide) (by decide)
    (by
      rintro ⟨j, hj⟩
      have h1 : value ([3, 1].take 2) = 4294967299 := by decide
      rw [h1] at hj
      have hodd : (2 : Nat) ^ j % 2 = 1 := by rw [← hj]
      cases j with
      | zero => simp at hj
      | succ j => rw [Nat.pow_succ] at hodd; omega)
    (by decide)

/-! ## Block locality of the derivation driver -/

theorem predataLoop_step (pk : PublicKey) (a : Int) (source : List Nat) (fuel : Nat)
    (s : Scratch) (n2 n3 : List Nat) (sp : Nat) (plen : Int) (dest : List Nat) (dp : Nat)
    (hgo : a + 1 ≤ plen) (hneg : ¬ a < 0) (R : Scratch × List Nat)
    (hR : calculateKey s n3
      (ofBytes ((source.drop sp).take (a.toNat + 1) ++
        (toBytes (initBigNumber n2 0 64)).drop (a.toNat + 1))) pk.key2 pk.key1 64 = some R) :
    predataProcessing.loop pk a source (fuel + 1) s n2 n3 sp plen dest dp =
      predataProcessing.loop pk a source fuel R.1
        (ofBytes ((source.drop sp).take (a.toNat + 1) ++
          (toBytes (initBigNumber n2 0 64)).drop (a.toNat + 1))) R.2 (sp + (a.toNat + 1))
        (plen - (a + 1)) (dest.take dp ++ (toBytes R.2).take a.toNat ++ dest.drop (dp + a.toNat))
        (dp + a.toNat) := by
  rw [predataProcessing.loop]
  simp only [if_pos hgo, if_neg hneg, hR]

theorem calculateKey_sized (s : Scratch) (n1 n2 n3 n4 : List Nat)
    (hs : s.global2.length = 130) (h1 : n1.length ≤ 64) (h4 : Words n4) (hn2 : 64 ≤ n2.length)
    (h2 : 2 ≤ bignumberIntLength n4 64)
    (h3 : bignumberBitLength n3 (bignumberIntLength n4 64) ≠ 0) :
    ∃ R, calculateKey s n1 n2 n3 n4 64 = some R ∧ R.2.length = 64 ∧
      R.1.global2.length = 130 := by
  obtain ⟨R, hR⟩ := calculateKey_some s n1 n2 n3 n4 64 h2 h3
  rcases agree_calculateKey s s n1 n1 n2 n3 n4 64 hs hs (Nat.le_refl _) h1 h1 h4 hn2 with
    ⟨e0, _⟩ | ⟨r, _, e0, _, _, hl, hg, _⟩
  · rw [hR] at e0; exact Option.noConfusion e0
  · rw [hR] at e0
    cases e0
    exact ⟨R, hR, hl, hg⟩

theorem block_length (source n2 : List Nat) (sp A : Nat) (hsrc : sp + (A + 1) ≤ source.length)
    (hn2 : n2.length ≤ 64) (hA : A ≤ 255) :
    (ofBytes ((source.drop sp).take (A + 1) ++
      (toBytes (initBigNumber n2 0 64)).drop (A + 1))).length = 64 := by
  rw [ofBytes_length, List.length_append, List.length_take, List.length_drop, List.length_drop,
    toBytes_length, length_initBigNumber]
  omega

/-- One run of the loop of `predataProcessing` leaves the destination bytes in front of its
destination pointer as they are. -/
theorem predataLoop_prefix (pk : PublicKey) (A : Nat) (source : List Nat) (hk : Words pk.key1)
    (hA : A ≤ 255) :
    ∀ (fuel : Nat) (s : Scratch) (n2 n3 : List Nat) (sp : Nat) (plen : Int) (dest : List Nat)
      (dp : Nat) (r : Predata),
      s.global2.length = 130 → n2.length ≤ 64 → n3.length ≤ 64 →
      (sp : Int) + plen ≤ source.length → dp ≤ dest.length →
      predataProcessing.loop pk (A : Int) source fuel s n2 n3 sp plen dest dp = some r →
      r.dest.take dp = dest.take dp ∧ dp ≤ r.dest.length := by
  intro fuel
  induction fuel with
  | zero =>
    intro s n2 n3 sp plen dest dp r _ _ _ _ hd h
    have := Option.some.inj h
    subst this
    exact ⟨rfl, hd⟩
  | succ fuel ih =>
    intro s n2 n3 sp plen dest dp r hs hn2 hn3 hsrc hd h
    by_cases hgo : (A : Int) + 1 ≤ plen
    · have hneg : ¬ (A : Int) < 0 := by omega
      have hN := block_length source n2 sp A (by omega) hn2 hA
      rw [predataProcessing.loop] at h
      simp only [if_pos hgo, if_neg hneg, Int.toNat_ofNat] at h
      rcases agree_calculateKey s s n3 n3 _ pk.key2 pk.key1 64 hs hs (Nat.le_refl _) hn3 hn3 hk
        (Nat.le_of_eq hN.symm) with ⟨e0, _⟩ | ⟨R, _, e0, _, _, hl, hg, _⟩
      · rw [e0] at h; exact Option.noConfusion h
      · rw [e0] at h
        dsimp only at h
        have hB : ((toBytes R.2).take A).length = A := by
          rw [List.length_take, toBytes_length, hl]; omega
        obtain ⟨i1, i2⟩ := ih R.1 _ R.2 _ _ _ _ r hg (Nat.le_of_eq hN) (Nat.le_of_eq hl)
          (by push_cast; omega)
          (by rw [List.length_append, List.length_append, List.length_take, hB]; omega) h
        refine ⟨?_, by omega⟩
        have := congrArg (List.take dp) i1
        rw [List.take_take, List.take_take, Nat.min_eq_left (by omega), List.append_assoc,
          List.take_append_of_le_length (by rw [List.length_take]; omega), List.take_take,
          Nat.min_self] at this
        exact this
    · rw [predataProcessing.loop, if_neg hgo] at h
      have := Option.some.inj h
      subst this
      exact ⟨rfl, hd⟩

theorem block_written (r : Predata) (D dest B : List Nat) (dp A : Nat) (hB : B.length = A)
    (hd : dp ≤ dest.length) (hD : D = dest.take dp ++ B ++ dest.drop (dp + A))
    (hr : r.dest.take (dp + A) = D.take (dp + A)) :
    (r.dest.drop dp).take A = B := by
  have hl : (dest.take dp).length = dp := by rw [List.length_take]; omega
  rw [List.take_drop, hr, hD, List.take_left' (by rw [List.length_append, hl, hB]),
    List.drop_left' hl]

/-- Two runs of the loop of `predataProcessing` on two sources that agree on the block `j`
blocks ahead: both have a result, and the bytes written for that block are the same. -/
theorem predataLoop_block (pk : PublicKey) (A : Nat) (src src' : List Nat) (hk : Words pk.key1)
    (hA : A ≤ 255) (h2 : 2 ≤ bignumberIntLength pk.key1 64)
    (h3 : bignumberBitLength pk.key2 (bignumberIntLength pk.key1 64) ≠ 0) :
    ∀ (fuel j : Nat) (s t : Scratch) (n2 n2' n3 n3' : List Nat) (sp : Nat) (plen : Int)
      (dest dest' : List Nat) (dp : Nat),
      s.global2.length = 130 → t.global2.length = 130 → n2.length ≤ 64 → n2'.length ≤ 64 →
      n3.length ≤ 64 → n3'.length ≤ 64 → (sp : Int) + plen ≤ src.length →
      (sp : Int) + plen ≤ src'.length → dp ≤ dest.length → dp ≤ dest'.length → j < fuel →
      ((j : Int) + 1) * ((A : Int) + 1) ≤ plen →
      (src.drop (sp + j * (A + 1))).take (A + 1) = (src'.drop (sp + j * (A + 1))).take (A + 1) →
      ∃ r r', predataProcessing.loop pk (A : Int) src fuel s n2 n3 sp plen dest dp = some r ∧
        predataProcessing.loop pk (A : Int) src' fuel t n2' n3' sp plen dest' dp = some r' ∧
        (r.dest.drop (dp + j * A)).take A = (r'.dest.drop (dp + j * A)).take A ∧
        ((r.dest.drop (dp + j * A)).take A).length = A := by
  intro fuel
  induction fuel with
  | zero => intro j s t n2 n2' n3 n3' sp plen dest dest' dp _ _ _ _ _ _ _ _ _ _ hj; omega
  | succ fuel ih =>
    intro j s t n2 n2' n3 n3' sp plen dest dest' dp hs ht hn2 hn2' hn3 hn3' hsrc hsrc' hd hd'
      hj hplen hblk
    have hjA : (0 : Int) ≤ (j : Int) * ((A : Int) + 1) :=
      Int.mul_nonneg (Int.ofNat_nonneg _) (by omega)
    have hexp : ((j : Int) + 1) * ((A : Int) + 1) = (j : Int) * ((A : Int) + 1) + ((A : Int) + 1) := by
      ring
    have hgo : (A : Int) + 1 ≤ plen := by omega
    have hneg : ¬ (A : Int) < 0 := by omega
    have hN := block_length src n2 sp A (by omega) hn2 hA
    have hN' := block_length src' n2' sp A (by omega) hn2' hA
    have hI : initBigNumber n2' 0 64 = initBigNumber n2 0 64 := by
      rw [initBigNumber_of_length _ _ _ hn2, initBigNumber_of_length _ _ _ hn2']
    rw [hI] at hN'
    obtain ⟨R, hR, hRl, hRg⟩ := calculateKey_sized s n3 _ pk.key2 pk.key1 hs hn3 hk
      (Nat.le_of_eq hN.symm) h2 h3
    obtain ⟨R', hR', hRl', hRg'⟩ := calculateKey_sized t n3' _ pk.key2 pk.key1 ht hn3' hk
      (Nat.le_of_eq hN'.symm) h2 h3
    have st := predataLoop_step pk (A : Int) src fuel s n2 n3 sp plen dest dp hgo hneg R
      (by simpa only [Int.toNat_ofNat] using hR)
    have st' := predataLoop_step pk (A : Int) src' fuel t n2' n3' sp plen dest' dp hgo hneg R'
      (by rw [hI]; simpa only [Int.toNat_ofNat] using hR')
    simp only [Int.toNat_ofNat] at st st'
    rw [hI] at st'
    rw [st, st']
    have hB : ((toBytes R.2).take A).length = A := by
      rw [List.length_take, toBytes_length, hRl]; omega
    have hB' : ((toBytes R'.2).take A).length = A := by
      rw [List.length_take, toBytes_length, hRl']; omega
    have hdl : dp + A ≤ (dest.take dp ++ (toBytes R.2).take A ++ dest.drop (dp + A)).length := by
      rw [List.length_append, List.length_append, List.length_take, hB]; omega
    have hdl' : dp + A ≤
        (dest'.take dp ++ (toBytes R'.2).take A ++ dest'.drop (dp + A)).length := by
      rw [List.length_append, List.length_append, List.length_take, hB']; omega
    cases j with
    | zero =>
      simp only [Nat.zero_mul, Nat.add_zero] at hblk ⊢
      -- the block is the one this iteration lifts: both runs calculate the same key
      have hRR : R.2 = R'.2 := by
        rw [← hblk] at hR'
        rcases agree_calculateKey s t n3 n3' _ pk.key2 pk.key1 64 hs ht (Nat.le_refl _) hn3 hn3'
          hk (Nat.le_of_eq hN.symm) with ⟨e0, _⟩ | ⟨r0, r0', e0, e0', hrr, _, _, _⟩
        · rw [hR] at e0; exact Option.noConfusion e0
        · rw [hR] at e0; rw [hR'] at e0'
          cases e0; cases e0'
          exact hrr
      obtain ⟨r, hr⟩ := predataLoop_some pk (A : Int) src (by omega) h2 h3 fuel R.1
        (ofBytes ((src.drop sp).take (A + 1) ++ (toBytes (initBigNumber n2 0 64)).drop (A + 1)))
        R.2 (sp + (A + 1)) (plen - ((A : Int) + 1))
        (dest.take dp ++ (toBytes R.2).take A ++ dest.drop (dp + A)) (dp + A)
      obtain ⟨r', hr'⟩ := predataLoop_some pk (A : Int) src' (by omega) h2 h3 fuel R'.1
        (ofBytes ((src'.drop sp).take (A + 1) ++ (toBytes (initBigNumber n2 0 64)).drop (A + 1)))
        R'.2 (sp + (A + 1)) (plen - ((A : Int) + 1))
        (dest'.take dp ++ (toBytes R'.2).take A ++ dest'.drop (dp + A)) (dp + A)
      obtain ⟨p1, _⟩ := predataLoop_prefix pk A src hk hA fuel _ _ _ _ _ _ _ r hRg
        (Nat.le_of_eq hN) (Nat.le_of_eq hRl) (by push_cast; omega) hdl hr
      obtain ⟨p1', _⟩ := predataLoop_prefix pk A src' hk hA fuel _ _ _ _ _ _ _ r' hRg'
        (Nat.le_of_eq hN') (Nat.le_of_eq hRl') (by push_cast; omega) hdl' hr'
      have b := block_written r _ dest _ dp A hB hd rfl p1
      have b' := block_written r' _ dest' _ dp A hB' hd' rfl p1'
      exact ⟨r, r', hr, hr', by rw [b, b', hRR], by rw [b, hB]⟩
    | succ j =>
      have e1 : sp + (j + 1) * (A + 1) = sp + (A + 1) + j * (A + 1) := by
        rw [Nat.succ_mul]; omega
      have e2 : dp + (j + 1) * A = dp + A + j * A := by
        rw [Nat.succ_mul]; omega
      rw [e1] at hblk
      rw [e2]
      have hjA' : (0 : Int) ≤ ((j : Int) + 1) * ((A : Int) + 1) :=
        Int.mul_nonneg (by omega) (by omega)
      exact ih j R.1 R'.1 _ _ R.2 R'.2 (sp + (A + 1)) (plen - ((A : Int) + 1)) _ _ (dp + A)
        hRg hRg' (Nat.le_of_eq hN) (Nat.le_of_eq hN') (Nat.le_of_eq hRl) (Nat.le_of_eq hRl')
        (by push_cast; omega) (by push_cast; omega) hdl hdl' (by omega)
        (by push_cast at hplen hexp ⊢; omega) hblk

/-- C22: block locality.  Let `a = (PublicKey.length - 1) / 8 ≥ 1` for a key with 32-bit
modulus words, at least two significant modulus words, an exponent with a set bit below the
modulus length and a length field of at most 2048.  For two runs of `predataProcessing` with
the same length, on sources that hold at least that many bytes, from any scratch states,
locals and destinations of the declared sizes: if block `k` is among the blocks processed and
the two sources agree on their bytes `k (a + 1) .. k (a + 1) + a`, then both runs have a
result and the destination bytes `k a .. k a + a - 1` are the same in both. -/
theorem block_locality (pk : PublicKey) (s t : Scratch)
    (n2 n2' n3 n3' source source' dest dest' : List Nat) (predatalength : Int) (k : Nat)
    (hk : Words pk.key1) (h2 : 2 ≤ bignumberIntLength pk.key1 64)
    (h3 : bignumberBitLength pk.key2 (bignumberIntLength pk.key1 64) ≠ 0)
    (ha : 1 ≤ (pk.length - 1).tdiv 8) (hlen : pk.length ≤ 2048)
    (hs : s.global2.length = 130) (ht : t.global2.length = 130)
    (hn2 : n2.length = 64) (hn2' : n2'.length = 64) (hn3 : n3.length = 64)
    (hn3' : n3'.length = 64) (hsrc : predatalength ≤ source.length)
    (hsrc' : predatalength ≤ source'.length)
    (hblock : ((k : Int) + 1) * ((pk.length - 1).tdiv 8 + 1) ≤ predatalength)
    (hagree : (source.drop (k * (((pk.length - 1).tdiv 8).toNat + 1))).take
        (((pk.length - 1).tdiv 8).toNat + 1) =
      (source'.drop (k * (((pk.length - 1).tdiv 8).toNat + 1))).take
        (((pk.length - 1).tdiv 8).toNat + 1)) :
    ∃ r r', predataProcessing pk s n2 n3 source predatalength dest = some r ∧
      predataProcessing pk t n2' n3' source' predatalength dest' = some r' ∧
      (r.dest.drop (k * ((pk.length - 1).tdiv 8).toNat)).take ((pk.length - 1).tdiv 8).toNat =
        (r'.dest.drop (k * ((pk.length - 1).tdiv 8).toNat)).take
          ((pk.length - 1).tdiv 8).toNat ∧
      ((r.dest.drop (k * ((pk.length - 1).tdiv 8).toNat)).take
        ((pk.length - 1).tdiv 8).toNat).length = ((pk.length - 1).tdiv 8).toNat := by
  have ha255 := tdiv_le_of_le (pk.length - 1) (by omega)
  obtain ⟨A, hA⟩ : ∃ A : Nat, (pk.length - 1).tdiv 8 = (A : Int) :=
    ⟨((pk.length - 1).tdiv 8).toNat, (Int.toNat_of_nonneg (by omega)).symm⟩
  rw [hA] at ha ha255 hblock hagree ⊢
  simp only [Int.toNat_ofNat] at hagree ⊢
  unfold predataProcessing
  rw [hA]
  have hkA : (0 : Int) ≤ ((k : Int) + 1) * (A : Int) :=
    Int.mul_nonneg (by omega) (Int.ofNat_nonneg _)
  have hexp : ((k : Int) + 1) * ((A : Int) + 1) = ((k : Int) + 1) * (A : Int) + ((k : Int) + 1) := by
    ring
  have h := predataLoop_block pk A source source' hk (by omega) h2 h3 predatalength.toNat k s t
    n2 n2' n3 n3' 0 predatalength dest dest' 0 hs ht (by omega) (by omega) (by omega) (by omega)
    (by push_cast; omega) (by push_cast; omega) (Nat.zero_le _) (Nat.zero_le _) (by omega)
    hblock (by simpa only [Nat.zero_add] using hagree)
  simpa only [Nat.zero_add] using h

set_option maxRecDepth 100000 in
/-- C22, witness: the production key, block 1 of two 80-byte sources that differ in block 0
only, run from different scratch states, locals and destinations. -/
theorem block_locality_witness :
    (([0, 0] ++ List.replicate 78 0 : List Nat).drop
        (1 * (((productionKey.length - 1).tdiv 8).toNat + 1))).take
        (((productionKey.length - 1).tdiv 8).toNat + 1) =
      (([7, 9] ++ List.replicate 78 0 : List Nat).drop
        (1 * (((productionKey.length - 1).tdiv 8).toNat + 1))).take
        (((productionKey.length - 1).tdiv 8).toNat + 1) ∧
    ∃ r r',
      predataProcessing productionKey Scratch.zero (List.replicate 64 0) (List.replicate 64 0)
        ([0, 0] ++ List.replicate 78 0) 80 (List.replicate 256 0) = some r ∧
      predataProcessing productionKey smallContext (List.replicate 64 5) (List.replicate 64 6)
        ([7, 9] ++ List.replicate 78 0) 80 (List.replicate 256 0xff) = some r' ∧
      (r.dest.drop (1 * ((productionKey.length - 1).tdiv 8).toNat)).take
          ((productionKey.length - 1).tdiv 8).toNat =
        (r'.dest.drop (1 * ((productionKey.length - 1).tdiv 8).toNat)).take
          ((productionKey.length - 1).tdiv 8).toNat ∧
      ((r.dest.drop (1 * ((productionKey.length - 1).tdiv 8).toNat)).take
        ((productionKey.length - 1).tdiv 8).toNat).length =
          ((productionKey.length - 1).tdiv 8).toNat :=
  ⟨by decide,
    block_locality productionKey Scratch.zero smallContext (List.replicate 64 0)
      (List.replicate 64 5) (List.replicate 64 0) (List.replicate 64 6)
      ([0, 0] ++ List.replicate 78 0) ([7, 9] ++ List.replicate 78 0) (List.replicate 256 0)
      (List.replicate 256 0xff) 80 1 (by unfold Words; decide) (by decide) (by decide)
      (by decide) (by decide) (List.length_replicate 130 0) (List.length_replicate 130 0)
      (List.length_replicate 64 0) (List.length_replicate 64 5) (List.length_replicate 64 0)
      (List.length_replicate 64 6) (by simp) (by simp) (by decide) (by decide)⟩

/-! ## What `calculateKey` leaves in the statics -/

theorem take_initBigNumber_zero (x : List Nat) (n : Nat) (hn : 1 ≤ n) :
    (initBigNumber x 0 n).take n = List.replicate n 0 := by
  rw [initBigNumber_zero x n hn, List.take_left' (List.length_replicate n 0)]

theorem drop_initBigNumber (x : List Nat) (v n : Nat) (hn : 1 ≤ n) :
    (initBigNumber x v n).drop n = x.drop n := by
  unfold initBigNumber
  rw [List.drop_set_of_lt _ _ (by omega), List.drop_left' (List.length_replicate n 0)]

/-- What `clearTempVars(64)` does clear: the scalars, the first 64 words of `global1` and of
`global2`, and the first 4 words of `g1hi` and `g1hiinv`. -/
theorem calculateKey_clears (s : Scratch) (n1 n2 n3 n4 : List Nat) (r : Scratch × List Nat)
    (h : calculateKey s n1 n2 n3 n4 64 = some r) :
    r.1.global1.take 64 = List.replicate 64 0 ∧ r.1.g1hi.take 4 = List.replicate 4 0 ∧
    r.1.g1hiinv.take 4 = List.replicate 4 0 ∧ r.1.global2.take 64 = List.replicate 64 0 ∧
    r.1.g1bitlength = 0 ∧ r.1.g1lengthx2 = 0 ∧ r.1.g1hibitlength = 0 ∧ r.1.g1hiinvlo = 0 ∧
    r.1.g1hiinvhi = 0 := by
  unfold calculateKey at h
  simp only [] at h
  split at h
  · exact Option.noConfusion h
  · split at h
    · exact Option.noConfusion h
    · have := Option.some.inj h
      subst this
      unfold clearTempVars
      dsimp only
      exact ⟨take_initBigNumber_zero _ 64 (by decide), take_initBigNumber_zero _ 4 (by decide),
        take_initBigNumber_zero _ 4 (by decide), take_initBigNumber_zero _ 64 (by decide),
        rfl, rfl, rfl, rfl, rfl⟩

/-! ## What the reduction leaves above its windows -/

theorem getMulShort_lt (s : Scratch) (g : List Nat) (wn : Nat) : getMulShort s g wn < 65536 := by
  unfold getMulShort
  simp only []
  exact Nat.lt_of_le_of_lt Nat.and_le_right (by decide)

theorem window_frame (g R : List Nat) (d m K : Nat) (hg : Lanes g) (hR : Lanes R)
    (hRl : R.length = m) (hd : d + m ≤ g.length) (hK : d + m ≤ K) :
    Lanes (g.take d ++ R ++ g.drop (d + m)) ∧
      (g.take d ++ R ++ g.drop (d + m)).length = g.length ∧
      (g.take d ++ R ++ g.drop (d + m)).drop K = g.drop K := by
  have hl : (g.take d ++ R).length = d + m := by
    rw [List.length_append, List.length_take, hRl]; omega
  refine ⟨Lanes.append_lane_iff.2 ⟨Lanes.append_lane_iff.2 ⟨hg.takeLanes d, hR⟩,
    hg.dropLanes _⟩, by rw [List.length_append, hl, List.length_drop]; omega, ?_⟩
  rw [List.drop_append_eq_append_drop, List.drop_of_length_le (by omega), List.nil_append, hl,
    List.drop_drop]
  congr 1
  omega

/-- The reduction loop of `calculateBigNumber` writes no lane at or above `K` when its windows
and borrow lanes lie below `K`. -/
theorem reductionLoop_frame (s : Scratch) (L K : Nat) (hg1 : Lanes (toLanes s.global1)) :
    ∀ (n : Nat) (g : List Nat) (esi edi : Nat), Lanes g → esi - 1 + L * 2 < K → edi - 1 < K →
      K ≤ g.length →
      Lanes (calculateBigNumber.loop s L n g esi edi) ∧
        (calculateBigNumber.loop s L n g esi edi).length = g.length ∧
        (calculateBigNumber.loop s L n g esi edi).drop K = g.drop K := by
  intro n
  induction n with
  | zero => intro g esi edi hg _ _ _; exact ⟨hg, rfl, rfl⟩
  | succ n ih =>
    intro g esi edi hg he hd hK
    unfold calculateBigNumber.loop
    simp only []
    have hstep : ∀ g' : List Nat, Lanes g' → g'.length = g.length → g'.drop K = g.drop K →
        Lanes (calculateBigNumber.loop s L n g' (esi - 1) (edi - 1)) ∧
          (calculateBigNumber.loop s L n g' (esi - 1) (edi - 1)).length = g.length ∧
          (calculateBigNumber.loop s L n g' (esi - 1) (edi - 1)).drop K = g.drop K := by
      intro g' h1 h2 h3
      obtain ⟨i1, i2, i3⟩ := ih g' (esi - 1) (edi - 1) h1 (by omega) (by omega) (by omega)
      exact ⟨i1, by rw [i2, h2], by rw [i3, h3]⟩
    by_cases h0 : getMulShort s g (edi - 1) > 0
    · rw [if_pos h0]
      obtain ⟨R, hR1, hR2, hR3, _⟩ := multiplyWordLoop_spec (getMulShort s g (edi - 1))
        (getMulShort_lt s g (edi - 1)) (toLanes s.global1) hg1 (L * 2) g (esi - 1) 0 0 hg
        (by omega) (by decide)
      obtain ⟨w1, w2, w3⟩ := window_frame g R (esi - 1) (L * 2 + 1) K hg hR2 hR1 (by omega)
        (by omega)
      have hmw : bignumberMultiplyWord g (esi - 1) (toLanes s.global1)
          (getMulShort s g (edi - 1)) (L * 2) =
          g.take (esi - 1) ++ R ++ g.drop (esi - 1 + (L * 2 + 1)) := hR3
      rw [hmw]
      generalize g.take (esi - 1) ++ R ++ g.drop (esi - 1 + (L * 2 + 1)) = g1 at *
      by_cases hsign : g1.getD (edi - 1) 0 &&& 0x8000 = 0
      · rw [if_pos hsign]
        obtain ⟨R', c', hS1, hS2, _, hS3, _⟩ := subtractLoop_spec g1 (toLanes s.global1) w1 hg1
          (L + L) g1 (esi - 1) (esi - 1) 0 0 (by omega) (by omega)
        obtain ⟨v1, v2, v3⟩ := window_frame g1 R' (esi - 1) (L + L) K w1 hS2 hS1 (by omega)
          (by omega)
        unfold bignumberSubtract
        rw [hS3]
        dsimp only
        by_cases hc : c' ≠ 0
        · rw [if_pos hc]
          refine hstep _ (v1.setLane _ (Nat.mod_lt _ (by decide))) (by rw [List.length_set, v2, w2])
            ?_
          rw [List.drop_set_of_lt _ _ (by omega), v3, w3]
        · rw [if_neg hc]
          exact hstep _ v1 (by rw [v2, w2]) (by rw [v3, w3])
      · rw [if_neg hsign]
        exact hstep _ w1 w2 w3
    · rw [if_neg h0]
      exact hstep g hg rfl rfl

theorem toLanes_drop (x : List Nat) (n : Nat) : (toLanes x).drop (2 * n) = toLanes (x.drop n) := by
  induction x generalizing n with
  | nil => simp [toLanes]
  | cons w x ih =>
    cases n with
    | zero => rfl
    | succ n =>
      have : 2 * (n + 1) = (2 * n + 1) + 1 := by omega
      rw [this]
      simp only [toLanes, List.drop_succ_cons, ih]

theorem ofLanes_drop : ∀ (X : List Nat) (k : Nat), (ofLanes X).drop k = ofLanes (X.drop (2 * k))
  | _, 0 => rfl
  | [], k + 1 => by simp [ofLanes]
  | [_], k + 1 => by
    have : 2 * (k + 1) = (2 * k + 1) + 1 := by omega
    rw [this]
    simp [ofLanes]
  | _ :: _ :: X', k + 1 => by
    have h := ofLanes_drop X' k
    have : 2 * (k + 1) = (2 * k + 1) + 1 := by omega
    rw [this]
    simp only [ofLanes, List.drop_succ_cons, h]

theorem getD_of_drop (x y : List Nat) (k i : Nat) (h : x.drop k = y.drop k) (hi : k ≤ i) :
    x.getD i 0 = y.getD i 0 := by
  have e : ∀ z : List Nat, z.getD i 0 = (z.drop k).getD (i - k) 0 := by
    intro z
    rw [List.getD_eq_getElem?_getD, List.getD_eq_getElem?_getD, List.getElem?_drop]
    congr 2
    omega
  rw [e x, e y, h]

/-- When `calculateBigNumber` reduces a product that has fewer than `2 L` significant words,
word `2 L` of `global2` ends as the negation at the start of the reduction left it: the
windows of the loop lie below it, and the closing negate and decrement stop at word `L`. -/
theorem calculateBigNumber_residue (s : Scratch) (n1 a b X : List Nat) (L : Nat) (hL : 1 ≤ L)
    (hX : (bignumberMultiply s.global2 a b L).set (L * 2) 0 = X) (hXw : Words X)
    (hXl : L * 2 + 1 ≤ X.length) (hg1 : Words s.global1)
    (hred : bignumberIntLength X (L * 2 + 1) * 2 ≥ s.g1lengthx2)
    (hfit1 : bignumberIntLength X (L * 2 + 1) * 2 < 4 * L)
    (hfit2 : bignumberIntLength X (L * 2 + 1) * 2 + L * 2 < s.g1lengthx2 + 4 * L) :
    (calculateBigNumber s n1 a b L).1.global2.getD (L * 2) 0 =
      (bignumberNegate (bignumberIncrement X (L * 2 + 1)) (L * 2 + 1)).getD (L * 2) 0 := by
  unfold calculateBigNumber
  simp only []
  rw [hX, if_pos hred]
  obtain ⟨i1, _, _⟩ := increment_spec X (L * 2 + 1) hXw (by omega) hXl
  obtain ⟨y1, _, _⟩ := negate_spec (bignumberIncrement X (L * 2 + 1)) (L * 2 + 1) i1 (by omega)
    (by rw [length_increment]; exact hXl)
  have yl : (bignumberNegate (bignumberIncrement X (L * 2 + 1)) (L * 2 + 1)).length = X.length := by
    rw [length_negate, length_increment]
  generalize bignumberNegate (bignumberIncrement X (L * 2 + 1)) (L * 2 + 1) = Y at *
  generalize bignumberIntLength X (L * 2 + 1) * 2 = W2 at *
  obtain ⟨f1, f2, f3⟩ := reductionLoop_frame s L (2 * (2 * L)) (Lanes_toLanes hg1)
    (W2 + 1 - s.g1lengthx2) (toLanes Y) (1 + W2 - s.g1lengthx2) (W2 + 1) (Lanes_toLanes y1)
    (by omega) (by omega) (by rw [toLanes_length]; omega)
  generalize calculateBigNumber.loop s L (W2 + 1 - s.g1lengthx2) (toLanes Y)
    (1 + W2 - s.g1lengthx2) (W2 + 1) = G at *
  have zw : Words (ofLanes G) := Words_ofLanes f1
  have zl : (ofLanes G).length = X.length := by
    rw [ofLanes_length, f2, toLanes_length]; omega
  have zd : (ofLanes G).drop (2 * L) = Y.drop (2 * L) := by
    rw [ofLanes_drop, f3, toLanes_drop, ofLanes_toLanes]
  obtain ⟨n1', n2', _⟩ := negate_spec (ofLanes G) L zw hL (by omega)
  obtain ⟨_, d2, _⟩ := decrement_spec (bignumberNegate (ofLanes G) L) L n1' hL
    (by rw [length_negate]; omega)
  rw [getD_of_drop _ _ L (L * 2) (d2.trans n2') (by omega)]
  exact getD_of_drop _ _ (2 * L) (L * 2) zd (by omega)

theorem initTwoInts_global1 (s0 s : Scratch) (m : List Nat) (L : Nat)
    (hinit : initTwoInts s0 m L = some s) : s.global1 = bignumberMove s0.global1 m L := by
  unfold initTwoInts at hinit
  simp only [] at hinit
  split at hinit
  · exact Option.noConfusion hinit
  · have := Option.some.inj hinit
    subst this
    rfl

/-- `calculateKey` for an exponent of bit length 2 whose low bit is clear: one squaring. -/
theorem calculateKey_square (s s' : Scratch) (n1 n2 n3 n4 : List Nat)
    (hs' : initTwoInts s n4 (bignumberIntLength n4 64) = some s')
    (hb : bignumberBitLength n3 (bignumberIntLength n4 64) = 2)
    (hbit : n3.getD 0 0 &&& 1 = 0) :
    calculateKey s n1 n2 n3 n4 64 =
      some (clearTempVars (calculateBigNumber s' (List.replicate 64 0)
          (bignumberMove (initBigNumber n1 1 64) n2 (bignumberIntLength n4 64))
          (bignumberMove (initBigNumber n1 1 64) n2 (bignumberIntLength n4 64))
          (bignumberIntLength n4 64)).1 64,
        bignumberMove (bignumberMove (initBigNumber n1 1 64) n2 (bignumberIntLength n4 64))
          (calculateBigNumber s' (List.replicate 64 0)
            (bignumberMove (initBigNumber n1 1 64) n2 (bignumberIntLength n4 64))
            (bignumberMove (initBigNumber n1 1 64) n2 (bignumberIntLength n4 64))
            (bignumberIntLength n4 64)).2 (bignumberIntLength n4 64)) := by
  unfold calculateKey
  simp only [hs', hb]
  have e1 : ((1 <<< ((2 - 1) % 32)) % 4294967296) >>> 1 = 1 := by decide
  have e2 : (2 + 31) / 32 - 1 = 0 := by decide
  have e3 : 2 - 1 = 0 + 1 := by decide
  rw [if_neg (by decide), e1, e2, e3]
  simp only [calculateKey.loop]
  have c : ¬ ((1 : Nat) = 0) := by decide
  simp only [if_neg c, hbit, ne_eq, not_true_eq_false, if_false]
/-- The square of `2^512` in the statics of the wide modulus, with word 64 cleared as
`calculateBigNumber` does before it reduces. -/
theorem wide_product (s : Scratch) (hs : s.global2 = List.replicate 130 0) :
    (bignumberMultiply s.global2
        (bignumberMove (initBigNumber (List.replicate 64 0) 1 64) wideBase 32)
        (bignumberMove (initBigNumber (List.replicate 64 0) 1 64) wideBase 32) 32).set (32 * 2) 0 =
      List.replicate 32 0 ++ [1] ++ List.replicate 97 0 := by
  have hw : Words (bignumberMove (initBigNumber (List.replicate 64 0) 1 64) wideBase 32) := by
    unfold Words; decide
  have hd : Words (List.replicate 130 0) := by
    intro w hw
    rw [List.eq_of_mem_replicate hw]; decide
  obtain ⟨P, pl, pw, pe, pv⟩ := bignumberMultiply_eq (List.replicate 130 0) _ _ 32 (by decide) hw hw hd
  have hv : value ((bignumberMove (initBigNumber (List.replicate 64 0) 1 64) wideBase 32).take 32) *
      value ((bignumberMove (initBigNumber (List.replicate 64 0) 1 64) wideBase 32).take 32) =
      value (List.replicate 32 0 ++ [1] ++ List.replicate 31 0) := by decide
  have hP : P = List.replicate 32 0 ++ [1] ++ List.replicate 31 0 :=
    value_inj _ _ pw (by unfold Words; decide) (by rw [pl]; decide) (by rw [pv, hv])
  rw [hs, pe, hP]
  decide

/-- Claim C21 (failing input).  From all-zero statics, `calculateKey` squares the base `2^512`
modulo the modulus `2^1023 + 1` of 32 significant words (exponent 2, limit 64).  The product
`2^1024` has 33 significant words, so it is reduced; the negation that opens the reduction turns
word 64 of `global2` into `0xffffffff`, nothing afterwards writes that word, and
`clearTempVars(64)` clears words 0 to 63 only.  On return word 64 of `global2` is `0xffffffff`:
the temporary variables are not all back to 0. -/
theorem calculateKey_leaves_residue :
    (calculateKey Scratch.zero (List.replicate 64 0) wideBase ([2] ++ List.replicate 63 0)
        wideModulus 64).map (fun r => r.1.global2.getD 64 0) = some 0xffffffff := by
  have hn4 : bignumberIntLength wideModulus 64 = 32 := by decide
  obtain ⟨s', hs'⟩ := initTwoInts_isSome Scratch.zero wideModulus 32 (by decide) (by decide)
  obtain ⟨g2, gl, _⟩ := initTwoInts_fields Scratch.zero s' wideModulus 32 hs' (by decide)
  have g1 := initTwoInts_global1 Scratch.zero s' wideModulus 32 hs'
  have gl64 : s'.g1lengthx2 = 64 := by rw [gl]; decide
  have g2z : s'.global2 = List.replicate 130 0 := by rw [g2]; decide
  have hg1 : Words s'.global1 := by rw [g1]; unfold Words; decide
  rw [calculateKey_square Scratch.zero s' _ _ _ _ (by rw [hn4]; exact hs') (by rw [hn4]; decide)
    (by decide), hn4, Option.map_some']
  have hres := calculateBigNumber_residue s' (List.replicate 64 0)
    (bignumberMove (initBigNumber (List.replicate 64 0) 1 64) wideBase 32)
    (bignumberMove (initBigNumber (List.replicate 64 0) 1 64) wideBase 32)
    (List.replicate 32 0 ++ [1] ++ List.replicate 97 0) 32 (by decide)
    (wide_product s' g2z) (by unfold Words; decide) (by decide) hg1
    (by rw [gl64]; decide) (by decide) (by rw [gl64]; decide)
  have hclr : (clearTempVars (calculateBigNumber s' (List.replicate 64 0)
      (bignumberMove (initBigNumber (List.replicate 64 0) 1 64) wideBase 32)
      (bignumberMove (initBigNumber (List.replicate 64 0) 1 64) wideBase 32) 32).1 64).global2.getD 64 0 =
      (calculateBigNumber s' (List.replicate 64 0)
      (bignumberMove (initBigNumber (List.replicate 64 0) 1 64) wideBase 32)
      (bignumberMove (initBigNumber (List.replicate 64 0) 1 64) wideBase 32) 32).1.global2.getD 64 0 :=
    getD_of_drop _ _ 64 64 (drop_initBigNumber _ 0 64 (by decide)) (le_refl 64)
  have hval : (bignumberNegate (bignumberIncrement
      (List.replicate 32 0 ++ [1] ++ List.replicate 97 0) (32 * 2 + 1)) (32 * 2 + 1)).getD (32 * 2) 0 =
      4294967295 := by decide
  show some ((clearTempVars _ 64).global2.getD 64 0) = some 4294967295
  rw [hclr]
  exact congrArg some (hres.trans hval)

/-! ## The production run and the source bytes it lifts -/

/-- The byte view of the array `predataProcessing` hands to `calculateKey` for the block at
`sp`: the `A + 1` source bytes followed by zero bytes, when the local array holds 64 words. -/
theorem block_bytes (source n2 : List Nat) (sp : Nat) (hn2 : n2.length = 64)
    (hsrc : sp + 40 ≤ source.length) (hb : ∀ b ∈ source, b < 256) :
    toBytes (ofBytes ((source.drop sp).take 40 ++ (toBytes (initBigNumber n2 0 64)).drop 40)) =
      (source.drop sp).take 40 ++ List.replicate 216 0 := by
  have i0 : initBigNumber n2 0 64 = List.replicate 64 0 := by
    rw [initBigNumber_zero _ 64 (by decide), List.drop_eq_nil_of_le (by omega), List.append_nil]
  have t0 : (toBytes (List.replicate 64 0)).drop 40 = List.replicate 216 0 := by
    rw [toBytes_replicate_zero, List.drop_replicate]
  rw [i0, t0]
  apply toBytes_ofBytes
  · intro b hb'
    rcases List.mem_append.1 hb' with h | h
    · exact hb b (List.mem_of_mem_drop (List.mem_of_mem_take h))
    · rw [List.eq_of_mem_replicate h]; decide
  · rw [List.length_append, List.length_take, List.length_drop, List.length_replicate]
    omega

/-- Claim C7.  For the production modulus (the one `initPublicKey` decodes from `keystring`
with the `char2num` table) the block size `a = (PublicKey.length - 1) / 8` is 39, not zero, and
`predataLength()` is 80.  `predataProcessing` called with that length runs two blocks: for each
it lifts 40 source bytes, bytes 0..39 and then bytes 40..79, over the zeroed local array, hands
that array to `calculateKey` as the base, and stores the low 39 bytes of the result; it ends
with the source pointer advanced by 80 and the statics as the second `calculateKey` left them.
No byte beyond the first 80 is read: on the source cut to 80 bytes the result is the same.  When
the local array has its 64 words and the source holds 80 bytes, the byte view of each base is
the 40 source bytes of its block followed by 216 zero bytes. -/
theorem production_consumes_80 :
    initPublicKey PublicKey.zero = some productionKey ∧
    (productionKey.length - 1).tdiv 8 = 39 ∧
    predataLength productionKey = some 80 ∧
    ∀ (s : Scratch) (n2 n3 source dest : List Nat),
      ∃ r1 r2 r,
        calculateKey s n3
          (ofBytes ((source.drop 0).take 40 ++ (toBytes (initBigNumber n2 0 64)).drop 40))
          productionKey.key2 productionKey.key1 64 = some r1 ∧
        calculateKey r1.1 r1.2
          (ofBytes ((source.drop 40).take 40 ++
            (toBytes (initBigNumber (ofBytes ((source.drop 0).take 40 ++
              (toBytes (initBigNumber n2 0 64)).drop 40)) 0 64)).drop 40))
          productionKey.key2 productionKey.key1 64 = some r2 ∧
        predataProcessing productionKey s n2 n3 source 80 dest = some r ∧
        r.consumed = 80 ∧
        r.scratch = r2.1 ∧
        r.dest = (dest.take 0 ++ (toBytes r1.2).take 39 ++ dest.drop 39).take 39 ++
            (toBytes r2.2).take 39 ++
            (dest.take 0 ++ (toBytes r1.2).take 39 ++ dest.drop 39).drop 78 ∧
        predataProcessing productionKey s n2 n3 (source.take 80) 80 dest = some r ∧
        (n2.length = 64 → 80 ≤ source.length → (∀ b ∈ source, b < 256) →
          toBytes (ofBytes ((source.drop 0).take 40 ++
              (toBytes (initBigNumber n2 0 64)).drop 40)) =
            (source.drop 0).take 40 ++ List.replicate 216 0 ∧
          toBytes (ofBytes ((source.drop 40).take 40 ++
              (toBytes (initBigNumber (ofBytes ((source.drop 0).take 40 ++
                (toBytes (initBigNumber n2 0 64)).drop 40)) 0 64)).drop 40)) =
            (source.drop 40).take 40 ++ List.replicate 216 0) := by
  refine ⟨initPublicKey_production, production_a, by decide, ?_⟩
  intro s n2 n3 source dest
  obtain ⟨r1, r2, h1, h2, h3⟩ := production_predata s n2 n3 source dest
  obtain ⟨r1', r2', h1', h2', h3'⟩ := production_predata s n2 n3 (source.take 80) dest
  have e1 : ((source.take 80).drop 0).take 40 = (source.drop 0).take 40 := by
    simp [List.take_take]
  have e2 : ((source.take 80).drop 40).take 40 = (source.drop 40).take 40 := by
    rw [List.drop_take, List.take_take]
    rfl
  rw [e1] at h1'
  have hr1 : r1' = r1 := Option.some.inj (h1'.symm.trans h1)
  subst hr1
  rw [e1, e2] at h2'
  have hr2 : r2' = r2 := Option.some.inj (h2'.symm.trans h2)
  subst hr2
  refine ⟨r1', r2', _, h1, h2, h3, rfl, rfl, rfl, h3', ?_⟩
  intro hn2 hsrc hb
  refine ⟨block_bytes source n2 0 hn2 (by omega) hb, ?_⟩
  exact block_bytes source _ 40
    (block_length source n2 0 39 (by omega) (by omega) (by decide)) (by omega) hb

set_option maxRecDepth 100000 in
/-- Claim C7 at the source bytes `0, 1, ..., 79`, from zeroed statics and zeroed local
arrays: the hypotheses on the sizes and the bytes hold there. -/
theorem production_consumes_80_witness :
    (List.replicate 64 0).length = 64 ∧ 80 ≤ (List.range 80).length ∧
    (∀ b ∈ List.range 80, b < 256) ∧
    ∃ r, predataProcessing productionKey Scratch.zero (List.replicate 64 0) (List.replicate 64 0)
        (List.range 80) 80 (List.replicate 256 0) = some r ∧
      r.consumed = 80 ∧
      toBytes (ofBytes (((List.range 80).drop 0).take 40 ++
          (toBytes (initBigNumber (List.replicate 64 0) 0 64)).drop 40)) =
        ((List.range 80).drop 0).take 40 ++ List.replicate 216 0 ∧
      toBytes (ofBytes (((List.range 80).drop 40).take 40 ++
          (toBytes (initBigNumber (ofBytes (((List.range 80).drop 0).take 40 ++
            (toBytes (initBigNumber (List.replicate 64 0) 0 64)).drop 40)) 0 64)).drop 40)) =
        ((List.range 80).drop 40).take 40 ++ List.replicate 216 0 := by
  obtain ⟨_, _, r, _, _, h3, h4, _, _, _, h8⟩ :=
    production_consumes_80.2.2.2 Scratch.zero (List.replicate 64 0) (List.replicate 64 0)
      (List.range 80) (List.replicate 256 0)
  have hh := h8 (by decide) (by decide) (by decide)
  exact ⟨by decide, by decide, by decide, r, h3, h4, hh.1, hh.2⟩

end MixFileKey
